import Mathlib

/-!
# CppSample: multidimensional array views

A shallow embedding of the array library of the repository
(`ArrayBase.hpp`, `BasicArrayTraversal.hpp`, `BasicArrayView.hpp`, `BasicArray.hpp`,
`ClonableBase.hpp`, `NumberTraits.hpp`, `TypeTraitUtils.hpp`) and theorems about it.

Modelling conventions.

* `size_t` values are natural numbers; every `size_t` operation is reduced modulo `2 ^ 64`.
* Memory is one store of element cells `Nat → V`, addressed in units of elements; `V` is the
  universe of element values.  A pointer is the address of a cell, address `0` is the null
  pointer, and pointer arithmetic wraps at `2 ^ 64` like the machine's.  The section
  "Elements of several bytes" gives the copy, the clone and `equalValue` over a memory of
  bytes, for views of element types of different widths that share storage.
* An object (a view, an array) carries the address it lives at (`addr`), which is what the
  identity tests `this == &other` compare.
* A `while` loop is a function taking fuel; it answers `none` when the fuel runs out.  The
  callers hand over enough fuel, which the lemmas below prove.
-/

namespace CppSample

/-! ## Machine model -/

/-- The modulus of `size_t` arithmetic. -/
def SIZE_MAX1 : Nat := 2 ^ 64

/-- Pointer plus offset, `p + n`, on a 64-bit machine. -/
def ptrAdd (p n : Nat) : Nat := (p + n) % SIZE_MAX1

/-- The memory: the element stored in every cell. -/
abbrev Mem (V : Type) := Nat → V

/-- Assignment through a reference: `*p = v`. -/
def Mem.write {V : Type} (mem : Mem V) (p : Nat) (v : V) : Mem V :=
  fun q => if q = p then v else mem q

/-- The values of a floating-point element type, as far as the comparisons tell them apart:
a number (an integer here, which `float` holds exactly up to `2^24`), or a NaN. -/
inductive FloatValue where
  | num (x : Int)
  | nan

/-- The `==` of a floating-point type: false whenever an operand is a NaN. -/
def FloatValue.beq : FloatValue → FloatValue → Bool
  | .num x, .num y => x == y
  | _, _ => false

instance FloatValue.instBEq : BEq FloatValue := ⟨FloatValue.beq⟩

/-- The `std::runtime_error`s the library throws, by message. -/
inductive Error where
  /-- "Array size cannot be zero, check array dimensions." -/
  | invalidShape
  /-- "Array view data pointer cannot be null." -/
  | nullData
  /-- "Shape does not match total size." -/
  | shapeSizeMismatch
  /-- "Cannot copy data: array sizes do not match." -/
  | copySizeMismatch
  /-- The `std::bad_alloc` of a failed allocation. -/
  | badAlloc
  deriving DecidableEq, Repr

/-! ## ArrayBase.hpp -/

/-- The members of `ArrayBase<NDIM>`; `NDIM` is the length of `_shape`. -/
structure ArrayBase where
  _size : Nat
  _shape : List Nat
  _strides : List Nat
  deriving DecidableEq, Repr

/-- The loop of `ArrayBase::computeSize`: `for(size_t dimLen : shape) size *= dimLen;`. -/
def computeSizeLoop : List Nat → Nat → Nat
  | [], size => size
  | dimLen :: shape, size => computeSizeLoop shape (size * dimLen % SIZE_MAX1)

/-- `ArrayBase::computeSize`. -/
def computeSize (shape : List Nat) : Except Error Nat :=
  let size := computeSizeLoop shape 1
  if size = 0 then .error .invalidShape else .ok size

/-- The loop of `ArrayBase::computeStrides`,
`for(long i = strides.size() - 1; i >= 1; i--) strides[i - 1] = strides[i] * shape[i];`
the first argument is the loop variable `i`. -/
def computeStridesLoop (shape : List Nat) : Nat → List Nat → List Nat
  | 0, strides => strides
  | i + 1, strides =>
    computeStridesLoop shape i
      (strides.set i (strides.getD (i + 1) 0 * shape.getD (i + 1) 0 % SIZE_MAX1))

/-- `ArrayBase::computeStrides`.  The local array `strides` starts uninitialised in the source;
every entry of it is assigned before it is read, and it is modelled as starting with zeros. -/
def computeStrides (shape : List Nat) : List Nat :=
  let strides := List.replicate shape.length 0
  let strides := strides.set (strides.length - 1) 1
  computeStridesLoop shape (strides.length - 1) strides

/-- The constructor `ArrayBase::ArrayBase(shape_t shape)`. -/
def ArrayBase.ctor (shape : List Nat) : Except Error ArrayBase :=
  match computeSize shape with
  | .error e => .error e
  | .ok size => .ok { _size := size, _shape := shape, _strides := computeStrides shape }

/-- `ArrayBase::size`. -/
def ArrayBase.size (b : ArrayBase) : Nat := b._size

/-- `ArrayBase::shape`. -/
def ArrayBase.shape (b : ArrayBase) : List Nat := b._shape

/-- The private `ArrayBase::computeOffset<DIM>`: the overload for one index returns it, the
variadic one returns `first * _strides[DIM] + computeOffset<DIM + 1>(idx...)`. -/
def ArrayBase.computeOffsetFrom (b : ArrayBase) : Nat → List Nat → Nat
  | _, [] => 0
  | _, [idx] => idx
  | DIM, first :: idx =>
    (first * b._strides.getD DIM 0 % SIZE_MAX1 + b.computeOffsetFrom (DIM + 1) idx) % SIZE_MAX1

/-- The public `ArrayBase::computeOffset(idx...)`; the static assertion on the number of
indexes makes a call with another number of them ill-formed (`none`). -/
def ArrayBase.computeOffset (b : ArrayBase) (idx : List Nat) : Option Nat :=
  if idx.length = b._shape.length then some (b.computeOffsetFrom 0 idx) else none

/-! ## BasicArrayView.hpp -/

/-- The members of `BasicArrayView<T, NDIM>`, and the address of the object itself. -/
structure BasicArrayView extends ArrayBase where
  _data : Nat
  addr : Nat
  deriving DecidableEq, Repr

/-- The constructor `BasicArrayView(T *data, shape_t shape)` of an object placed at `addr`. -/
def BasicArrayView.ctor (addr data : Nat) (shape : List Nat) : Except Error BasicArrayView :=
  match ArrayBase.ctor shape with
  | .error e => .error e
  | .ok base => if data = 0 then .error .nullData else .ok { base with _data := data, addr := addr }

/-- The constructor `BasicArrayView(T *data, shape_t shape, size_t totalSize)`. -/
def BasicArrayView.ctorSized (addr data : Nat) (shape : List Nat) (totalSize : Nat) :
    Except Error BasicArrayView :=
  match BasicArrayView.ctor addr data shape with
  | .error e => .error e
  | .ok v =>
    if data = 0 then .error .nullData
    else if v.size ≠ totalSize then .error .shapeSizeMismatch
    else .ok v

/-- `BasicArrayView::begin`. -/
def BasicArrayView.begin (v : BasicArrayView) : Nat := v._data

/-- `BasicArrayView::end`: `_data + this->size()`. -/
def BasicArrayView.end (v : BasicArrayView) : Nat := ptrAdd v._data v.size

/-- The comparison loops of `operator==` and `equalValue`,
`while(thisIter != thisIterEnd && eq(*thisIter++, *otherIter++));`
with `eq` the element comparison of the caller.  Both iterators are advanced by the
evaluation of the comparison, whatever its result.  The value is `thisIter` after the loop. -/
def compareLoop {V : Type} (eq : V → V → Bool) (mem : Mem V) (thisIterEnd : Nat) :
    Nat → Nat → Nat → Option Nat
  | 0, _, _ => none
  | fuel + 1, thisIter, otherIter =>
    if thisIter ≠ thisIterEnd then
      if eq (mem thisIter) (mem otherIter) then
        compareLoop eq mem thisIterEnd fuel (ptrAdd thisIter 1) (ptrAdd otherIter 1)
      else some (ptrAdd thisIter 1)
    else some thisIter

/-- `BasicArrayView::operator==`, the elements compared with the `==` of the element type. -/
def BasicArrayView.operatorEq {V : Type} [BEq V] (mem : Mem V) (self other : BasicArrayView) :
    Option Bool :=
  if self.addr = other.addr then some true
  else if self._shape ≠ other._shape then some false
  else
    let thisIterEnd := self.end
    match compareLoop (fun x y => x == y) mem thisIterEnd (self._size + 1) self._data other.begin with
    | none => none
    | some thisIter => some (thisIter == thisIterEnd)

/-- The result of a call that may throw: the error raised if any, the object the call was
made on and the memory, both as they are when the call returns or throws. -/
structure CallResult (V : Type) where
  raised : Option Error
  self : BasicArrayView
  mem : Mem V

/-- The copy loop of `operator<<`, `while(thisIter != thisIterEnd) *thisIter++ = *otherIter++;`
with `conv` the conversion from the source's element type to the destination's. -/
def copyLoop {V : Type} (conv : V → V) (thisIterEnd : Nat) :
    Nat → Nat → Nat → Mem V → Option (Mem V)
  | 0, _, _, _ => none
  | fuel + 1, thisIter, otherIter, mem =>
    if thisIter ≠ thisIterEnd then
      copyLoop conv thisIterEnd fuel (ptrAdd thisIter 1) (ptrAdd otherIter 1)
        (mem.write thisIter (conv (mem otherIter)))
    else some mem

/-- `BasicArrayView::operator<<`. -/
def BasicArrayView.operatorShl {V : Type} (conv : V → V) (mem : Mem V)
    (self other : BasicArrayView) : Option (CallResult V) :=
  if self.addr = other.addr then some { raised := none, self := self, mem := mem }
  else if self._size ≠ other.size then
    some { raised := some .copySizeMismatch, self := self, mem := mem }
  else
    let thisIterEnd := self.end
    match copyLoop conv thisIterEnd (self._size + 1) self._data other.begin mem with
    | none => none
    | some mem => some { raised := none, self := self, mem := mem }

/-- `BasicArrayView::equalValue`, with `eq` the instance of `util::eq` for the two element
types. -/
def BasicArrayView.equalValue {V : Type} (eq : V → V → Bool) (mem : Mem V)
    (self other : BasicArrayView) : Option Bool :=
  if self.addr = other.addr then some true
  else if self._size ≠ other.size then some false
  else
    let thisIterEnd := self.end
    match compareLoop eq mem thisIterEnd (self._size + 1) self._data other.begin with
    | none => none
    | some thisIter => some (thisIter == thisIterEnd)

/-- `BasicArrayView::operator()(idx...)`: the address of the element referred to,
`_data + this->computeOffset(idx...)`. -/
def BasicArrayView.call (v : BasicArrayView) (idx : List Nat) : Option Nat :=
  match v.computeOffset idx with
  | none => none
  | some offset => some (ptrAdd v._data offset)

/-- The helper class `Subscript<ITER, REF, DIM>`: `_strides` is the strides cursor, the part
of the strides array from the position pointed to onwards. -/
structure Subscript where
  DIM : Nat
  _iter : Nat
  _strides : List Nat
  deriving DecidableEq, Repr

/-- What a subscript operator returns: a reference to an element, or a further `Subscript`. -/
inductive SubscriptResult where
  | reference (p : Nat)
  | subscript (s : Subscript)
  deriving DecidableEq, Repr

/-- `Subscript<ITER, REF, DIM>::operator[]` in a view of `NDIM` dimensions: the specialisation
for `DIM == NDIM - 1` returns `*(_iter + idx)`, the primary template reads the stride under the
cursor, advances the cursor and returns `Subscript<ITER, REF, DIM + 1>(_iter + idx * stride,
_strides)`. -/
def Subscript.index (NDIM : Nat) (s : Subscript) (idx : Nat) : SubscriptResult :=
  if s.DIM = NDIM - 1 then .reference (ptrAdd s._iter idx)
  else
    let stride := s._strides.headD 0
    .subscript { DIM := s.DIM + 1, _iter := ptrAdd s._iter (idx * stride % SIZE_MAX1),
                 _strides := s._strides.tail }

/-- `BasicArrayView::operator[]`. -/
def BasicArrayView.index (v : BasicArrayView) (idx : Nat) : SubscriptResult :=
  if v._shape.length = 1 then .reference (ptrAdd v._data idx)
  else
    let strides := v._strides
    let stride := strides.headD 0
    .subscript { DIM := 1, _iter := ptrAdd v._data (idx * stride % SIZE_MAX1),
                 _strides := strides.tail }

/-- The remaining subscripts of a chain `r[i]...[j]` applied to the result `r` of the ones
before; a chain that subscripts a reference or stops at a `Subscript` is not the fully chained
form (`none`). -/
def subscriptChain (NDIM : Nat) : SubscriptResult → List Nat → Option Nat
  | .reference p, [] => some p
  | .subscript s, i :: idx => subscriptChain NDIM (s.index NDIM i) idx
  | _, _ => none

/-- The fully chained subscript `view[i0][i1]...[ik]`: the address of the element referred
to. -/
def BasicArrayView.subscript (v : BasicArrayView) : List Nat → Option Nat
  | [] => none
  | i :: idx => subscriptChain v._shape.length (v.index i) idx

/-! ## BasicArrayTraversal.hpp -/

/-- The members of `BasicArrayTraversal<ITER, NDIM>`, and `NDIM`. -/
structure BasicArrayTraversal where
  NDIM : Nat
  _data : Nat
  _start : List Nat
  _end : List Nat
  _strides : List Nat
  _lastDim : Int
  deriving DecidableEq, Repr

/-- The constructor of `BasicArrayTraversal`: `_lastDim(NDIM - 1)`, which is `-1` as a `long`
when `NDIM` is zero. -/
def BasicArrayTraversal.ctor (NDIM data : Nat) (start end_ strides : List Nat) :
    BasicArrayTraversal :=
  { NDIM := NDIM, _data := data, _start := start, _end := end_, _strides := strides,
    _lastDim := (NDIM : Int) - 1 }

/-- One loop of `iterate`, `for(i = start; i < end; i++, iter += stride) body`, entered after
`i = start`: `i` is the entry `idx[dim]` of the index array (`size_t &i = idx[dim]`), and the
body runs on the iterator, the index array and the state of the functor.  `i++` cannot wrap,
as `i < end`. -/
def forLoop {σ : Type} (body : Nat → List Nat → σ → Option (List Nat × σ))
    (dim end_ stride : Nat) : Nat → Nat → List Nat → σ → Option (List Nat × σ)
  | 0, _, idx, s => if idx.getD dim 0 < end_ then none else some (idx, s)
  | fuel + 1, iter, idx, s =>
    if idx.getD dim 0 < end_ then
      match body iter idx s with
      | none => none
      | some (idx, s) =>
        forLoop body dim end_ stride fuel (ptrAdd iter stride)
          (idx.set dim (idx.getD dim 0 + 1)) s
    else some (idx, s)

/-- `BasicArrayTraversal::iterate`.  The functor `fn` gets the index array and the address of
the element `*iter`, and acts on a state `σ` (the memory, or whatever it captures).  The first
argument bounds the depth of the recursion. -/
def BasicArrayTraversal.iterate {σ : Type} (t : BasicArrayTraversal)
    (fn : List Nat → Nat → σ → σ) :
    Nat → Nat → Nat → List Nat → σ → Option (List Nat × σ)
  | 0, _, _, _, _ => none
  | depth + 1, iter, dim, idx, s =>
    let start := t._start.getD dim 0
    let end_ := t._end.getD dim 0
    let stride := t._strides.getD dim 0
    if dim = t._lastDim.toNat then
      forLoop (fun iter idx s => some (idx, fn idx iter s)) dim end_ stride
        (end_ - start) iter (idx.set dim start) s
    else
      let nextDim := dim + 1
      forLoop (fun iter idx s => t.iterate fn depth iter nextDim idx s) dim end_ stride
        (end_ - start) iter (idx.set dim start) s

/-- `BasicArrayTraversal::traverse`. -/
def BasicArrayTraversal.traverse {σ : Type} (t : BasicArrayTraversal)
    (fn : List Nat → Nat → σ → σ) (s : σ) : Option σ :=
  if t._lastDim < 0 then some s
  else
    let idx := List.replicate t.NDIM 0
    match t.iterate fn t.NDIM t._data 0 idx s with
    | none => none
    | some (_, s) => some s

/-- The traversal that `BasicArrayView::traverse` constructs,
`BasicArrayTraversal<iterator, NDIM>(this->_data, shape_t{0}, this->_shape, this->_strides)`. -/
def BasicArrayView.traversal (v : BasicArrayView) : BasicArrayTraversal :=
  BasicArrayTraversal.ctor v._shape.length v._data (List.replicate v._shape.length 0)
    v._shape v._strides

/-- `BasicArrayView::traverse`. -/
def BasicArrayView.traverse {σ : Type} (v : BasicArrayView)
    (fn : List Nat → Nat → σ → σ) (s : σ) : Option σ :=
  v.traversal.traverse fn s

/-! ## BasicArray.hpp, ClonableBase.hpp -/

/-- The heap: the memory, and the allocator's mark; the cells from `brk` on are free. -/
structure Heap (V : Type) where
  mem : Mem V
  brk : Nat

/-- Allocation of `n` cells: the address of the first one, or `std::bad_alloc`. -/
def Heap.allocate {V : Type} (h : Heap V) (n : Nat) : Except Error (Nat × Heap V) :=
  if h.brk + n < SIZE_MAX1 then .ok (h.brk, { h with brk := h.brk + n }) else .error .badAlloc

/-- A `std::vector<T>`: the address of its buffer and its length. -/
structure StdVector where
  _begin : Nat
  _length : Nat
  deriving DecidableEq, Repr

/-- `std::vector::data`. -/
def StdVector.data (c : StdVector) : Nat := c._begin

/-- The constructor `std::vector<T>(n, value)`: a new buffer of `n` elements equal to
`value`. -/
def StdVector.ctorFill {V : Type} (h : Heap V) (n : Nat) (value : V) :
    Except Error (StdVector × Heap V) :=
  match h.allocate n with
  | .error e => .error e
  | .ok (p, h) =>
    .ok ({ _begin := p, _length := n },
         { h with mem := fun q => if p ≤ q ∧ q < p + n then value else h.mem q })

/-- The copy constructor of `std::vector<T>`: a new buffer with the elements of `other`. -/
def StdVector.ctorCopy {V : Type} (h : Heap V) (other : StdVector) :
    Except Error (StdVector × Heap V) :=
  match h.allocate other._length with
  | .error e => .error e
  | .ok (p, h) =>
    .ok ({ _begin := p, _length := other._length },
         { h with mem := fun q =>
             if p ≤ q ∧ q < p + other._length then h.mem (other._begin + (q - p)) else h.mem q })

/-- The protected constructor `BasicArrayView(shape_t shape)`: `_data(nullptr)`. -/
def BasicArrayView.ctorProtected (addr : Nat) (shape : List Nat) : Except Error BasicArrayView :=
  match ArrayBase.ctor shape with
  | .error e => .error e
  | .ok base => .ok { base with _data := 0, addr := addr }

/-- The members of `BasicArray<T, NDIM>`: the view it is, and `_container`. -/
structure BasicArray extends BasicArrayView where
  _container : StdVector
  deriving DecidableEq, Repr

/-- The constructor `BasicArray(shape_t shape, const T &value)`. -/
def BasicArray.ctorFill {V : Type} (h : Heap V) (addr : Nat) (shape : List Nat) (value : V) :
    Except Error (BasicArray × Heap V) :=
  match BasicArrayView.ctorProtected addr shape with
  | .error e => .error e
  | .ok base =>
    match StdVector.ctorFill h base.size value with
    | .error e => .error e
    | .ok (container, h) =>
      .ok ({ toBasicArrayView := { base with _data := container.data },
             _container := container }, h)

/-- The constructor `BasicArray(shape_t shape)`: the elements are value-initialised. -/
def BasicArray.ctor {V : Type} [Inhabited V] (h : Heap V) (addr : Nat) (shape : List Nat) :
    Except Error (BasicArray × Heap V) :=
  BasicArray.ctorFill h addr shape default

/-- The copy constructor of `BasicArray`, which the class does not declare: the compiler's,
copying the base `BasicArrayView` member by member (`_size`, `_shape`, `_strides`, `_data`) and
`_container` with the copy constructor of `std::vector`. -/
def BasicArray.ctorCopy {V : Type} (h : Heap V) (addr : Nat) (other : BasicArray) :
    Except Error (BasicArray × Heap V) :=
  match StdVector.ctorCopy h other._container with
  | .error e => .error e
  | .ok (container, h) =>
    .ok ({ toBasicArrayView := { other.toBasicArrayView with addr := addr },
           _container := container }, h)

/-- `ClonableBase<BasicArray<T, NDIM>>::clone`:
`std::make_shared<CHILD>(static_cast<const CHILD&>(*this))`, the new object and the heap. -/
def BasicArray.clone {V : Type} (h : Heap V) (self : BasicArray) :
    Except Error (BasicArray × Heap V) :=
  match h.allocate 1 with
  | .error e => .error e
  | .ok (addr, h) => BasicArray.ctorCopy h addr self

/-- `ClonableBase<BasicArray<T, NDIM>>::cloneT`: `std::static_pointer_cast<CHILD>(clone())`. -/
def BasicArray.cloneT {V : Type} (h : Heap V) (self : BasicArray) :
    Except Error (BasicArray × Heap V) :=
  BasicArray.clone h self

/-! ## NumberTraits.hpp, TypeTraitUtils.hpp -/

namespace util

/-- An integer type other than `bool`, of at most 64 bits: its signedness and its width.  The
values of such a type are integers. -/
structure IntType where
  isSigned : Bool
  bits : Nat
  deriving DecidableEq, Repr

/-- The conversion `static_cast<size_t>(v)` of an integer value. -/
def toSizeT (v : Int) : Int := v % (SIZE_MAX1 : Int)

/-- The three overloads of `util::eq_int<T1, T2>`: signed with unsigned
(`v1 >= 0 && static_cast<size_t>(v1) == v2`), unsigned with signed
(`v2 >= 0 && v1 == static_cast<size_t>(v2)`), and same signedness (`v1 == v2`). -/
def eq_int (T1 T2 : IntType) (v1 v2 : Int) : Bool :=
  if T1.isSigned ∧ ¬ T2.isSigned then decide (v1 ≥ 0) && toSizeT v1 == v2
  else if ¬ T1.isSigned ∧ T2.isSigned then decide (v2 ≥ 0) && v1 == toSizeT v2
  else v1 == v2

/-- The overload of `util::eq<T1, T2>` for integer types: `eq_int<T1, T2>(v1, v2)`. -/
def eq (T1 T2 : IntType) (v1 v2 : Int) : Bool := eq_int T1 T2 v1 v2

/-- The values of an integer type: `-2^(bits-1) <= v < 2^(bits-1)` for a signed type,
`0 <= v < 2^bits` for an unsigned one. -/
def IntType.holds (T : IntType) (v : Int) : Prop :=
  if T.isSigned then -(2 : Int) ^ (T.bits - 1) ≤ v ∧ v < (2 : Int) ^ (T.bits - 1)
  else 0 ≤ v ∧ v < (2 : Int) ^ T.bits

/-- The overload `util::eq<T>(const T &v1, const T &v2)` for two values of one type:
`v1 == v2`. -/
def eqSame (v1 v2 : Int) : Bool := v1 == v2

/-- The overload `util::eq<T>(const T &v1, const T &v2)` at a floating-point type:
`v1 == v2`. -/
def eqFloat (v1 v2 : FloatValue) : Bool := v1 == v2

end util

/-! ## Elements of several bytes

In the sections above every element is one cell of the memory, which is the layout of views of
one element type and of views whose storage is disjoint.  Here the cells are bytes, and an
element of an integer type `T` is the `sizeof(T)` bytes from its address on, so that views of
element types of different widths may share storage. -/

namespace Bytes

/-- `sizeof(T)` for an integer type `T`. -/
def sizeOf (T : util.IntType) : Nat := T.bits / 8

/-- The address of the byte of weight `256^i` of an object of `n` bytes at the address `p`:
`p + i` on a little-endian machine, `p + (n - 1 - i)` on a big-endian one. -/
def byteAddr (bigEndian : Bool) (p n i : Nat) : Nat :=
  ptrAdd p (if bigEndian then n - 1 - i else i)

/-- The conversion of an integer value to the integer type `T`: the value of `T` congruent to
`v` modulo `2^bits`. -/
def convert (T : util.IntType) (v : Int) : Int :=
  if T.isSigned ∧ ((2 ^ (T.bits - 1) : Nat) : Int) ≤ v % ((2 ^ T.bits : Nat) : Int) then
    v % ((2 ^ T.bits : Nat) : Int) - ((2 ^ T.bits : Nat) : Int)
  else v % ((2 ^ T.bits : Nat) : Int)

/-- The read `*p` through a pointer to `T`. -/
def load (bigEndian : Bool) (T : util.IntType) (mem : Mem Nat) (p : Nat) : Int :=
  convert T (((List.range (sizeOf T)).map
    (fun i => mem (byteAddr bigEndian p (sizeOf T) i) % 256 * 256 ^ i)).sum : Nat)

/-- The assignment `*p = v` through a pointer to `T`. -/
def store (bigEndian : Bool) (T : util.IntType) (mem : Mem Nat) (p : Nat) (v : Int) :
    Mem Nat :=
  fun q =>
    match (List.range (sizeOf T)).find?
        (fun i => decide (byteAddr bigEndian p (sizeOf T) i = q)) with
    | some i => (v % ((2 ^ T.bits : Nat) : Int)).toNat / 256 ^ i % 256
    | none => mem q

/-- `BasicArrayView<T, NDIM>::end`: `_data + this->size()`, in bytes. -/
def viewEnd (T : util.IntType) (v : BasicArrayView) : Nat :=
  ptrAdd v._data (v.size * sizeOf T)

/-- The copy loop of `operator<<`, `while(thisIter != thisIterEnd) *thisIter++ = *otherIter++;`
for a destination of element type `T` and a source of element type `OT`. -/
def copyLoop (bigEndian : Bool) (T OT : util.IntType) (thisIterEnd : Nat) :
    Nat → Nat → Nat → Mem Nat → Option (Mem Nat)
  | 0, _, _, _ => none
  | fuel + 1, thisIter, otherIter, mem =>
    if thisIter ≠ thisIterEnd then
      copyLoop bigEndian T OT thisIterEnd fuel (ptrAdd thisIter (sizeOf T))
        (ptrAdd otherIter (sizeOf OT))
        (store bigEndian T mem thisIter (convert T (load bigEndian OT mem otherIter)))
    else some mem

/-- `BasicArrayView<T, NDIM>::operator<<` with a source of element type `OT`. -/
def operatorShl (bigEndian : Bool) (T OT : util.IntType) (mem : Mem Nat)
    (self other : BasicArrayView) : Option (CallResult Nat) :=
  if self.addr = other.addr then some { raised := none, self := self, mem := mem }
  else if self._size ≠ other.size then
    some { raised := some .copySizeMismatch, self := self, mem := mem }
  else
    let thisIterEnd := viewEnd T self
    match copyLoop bigEndian T OT thisIterEnd (self._size + 1) self._data other.begin mem with
    | none => none
    | some mem => some { raised := none, self := self, mem := mem }

/-- The comparison loop of `equalValue`,
`while(thisIter != thisIterEnd && util::eq(*thisIter++, *otherIter++));`
for element types `T` and `OT`.  The value is `thisIter` after the loop. -/
def compareLoop (bigEndian : Bool) (T OT : util.IntType) (mem : Mem Nat) (thisIterEnd : Nat) :
    Nat → Nat → Nat → Option Nat
  | 0, _, _ => none
  | fuel + 1, thisIter, otherIter =>
    if thisIter ≠ thisIterEnd then
      if util.eq T OT (load bigEndian T mem thisIter) (load bigEndian OT mem otherIter) then
        compareLoop bigEndian T OT mem thisIterEnd fuel (ptrAdd thisIter (sizeOf T))
          (ptrAdd otherIter (sizeOf OT))
      else some (ptrAdd thisIter (sizeOf T))
    else some thisIter

/-- `BasicArrayView<T, NDIM>::equalValue` with another view of element type `OT`. -/
def equalValue (bigEndian : Bool) (T OT : util.IntType) (mem : Mem Nat)
    (self other : BasicArrayView) : Option Bool :=
  if self.addr = other.addr then some true
  else if self._size ≠ other.size then some false
  else
    let thisIterEnd := viewEnd T self
    match compareLoop bigEndian T OT mem thisIterEnd (self._size + 1) self._data
        other.begin with
    | none => none
    | some thisIter => some (thisIter == thisIterEnd)

/-- The copy constructor of `std::vector<T>`: a new buffer with the bytes of the elements of
`other`. -/
def vectorCopy (T : util.IntType) (h : Heap Nat) (other : StdVector) :
    Except Error (StdVector × Heap Nat) :=
  match h.allocate (other._length * sizeOf T) with
  | .error e => .error e
  | .ok (p, h) =>
    .ok ({ _begin := p, _length := other._length },
         { h with mem := fun q =>
             if p ≤ q ∧ q < p + other._length * sizeOf T then h.mem (other._begin + (q - p))
             else h.mem q })

/-- The copy constructor of `BasicArray<T, NDIM>`, the compiler's: the members of the view
copied one by one, `_data` included, and `_container` with the copy constructor of
`std::vector`. -/
def ctorCopy (T : util.IntType) (h : Heap Nat) (addr : Nat) (other : BasicArray) :
    Except Error (BasicArray × Heap Nat) :=
  match vectorCopy T h other._container with
  | .error e => .error e
  | .ok (container, h) =>
    .ok ({ toBasicArrayView := { other.toBasicArrayView with addr := addr },
           _container := container }, h)

/-- `ClonableBase<BasicArray<T, NDIM>>::clone` and `cloneT`: the new object, at an address of
its own, and the heap. -/
def cloneT (T : util.IntType) (h : Heap Nat) (self : BasicArray) :
    Except Error (BasicArray × Heap Nat) :=
  match h.allocate 1 with
  | .error e => .error e
  | .ok (addr, h) => ctorCopy T h addr self

end Bytes

/-! ## What the loops compute -/

/-- What the copy loop does to the memory: `r` elements copied from storage position `k` on,
from the buffer at `s` to the buffer at `d`. -/
def copyFrom {V : Type} (conv : V → V) (d s : Nat) : Nat → Nat → Mem V → Mem V
  | 0, _, mem => mem
  | r + 1, k, mem =>
    copyFrom conv d s r (k + 1) (mem.write (ptrAdd d k) (conv (mem (ptrAdd s k))))

/-- The visits of one `for` loop of `iterate`, as a list of (index array, address of the
element): `n` passes from the loop value `i` and the iterator `iter`, `pre` being the entries
of the index array before the loop's own, and `inner` the visits of one pass of the body. -/
def loopVisits (inner : Nat → List Nat → List (List Nat × Nat)) (stride : Nat)
    (pre : List Nat) : Nat → Nat → Nat → List (List Nat × Nat)
  | 0, _, _ => []
  | n + 1, i, iter =>
    inner iter (pre ++ [i]) ++ loopVisits inner stride pre n (i + 1) (ptrAdd iter stride)

/-- The visits of `iterate` called on dimension `dim` with `rem` dimensions after it. -/
def BasicArrayTraversal.visits (t : BasicArrayTraversal) :
    Nat → Nat → Nat → List Nat → List (List Nat × Nat)
  | 0, dim, iter, pre =>
    loopVisits (fun iter idx => [(idx, iter)]) (t._strides.getD dim 0) pre
      (t._end.getD dim 0 - t._start.getD dim 0) (t._start.getD dim 0) iter
  | rem + 1, dim, iter, pre =>
    loopVisits (fun iter pre => t.visits rem (dim + 1) iter pre) (t._strides.getD dim 0) pre
      (t._end.getD dim 0 - t._start.getD dim 0) (t._start.getD dim 0) iter

/-- The visits of `traverse`, in the order they are made. -/
def BasicArrayTraversal.visited (t : BasicArrayTraversal) : List (List Nat × Nat) :=
  t.visits (t.NDIM - 1) 0 t._data []

/-- The state a functor leaves after a list of visits. -/
def runVisits {σ : Type} (fn : List Nat → Nat → σ → σ) (w : List (List Nat × Nat)) (s : σ) : σ :=
  w.foldl (fun s v => fn v.1 v.2 s) s

/-- The iterator after `k` steps `iter += stride`. -/
def stepIter (stride : Nat) : Nat → Nat → Nat
  | 0, iter => iter
  | k + 1, iter => stepIter stride k (ptrAdd iter stride)

/-- The entries `sfx` of a multi-index from dimension `dim` on lie in the box of the
traversal: `_start[k] <= idx[k] < _end[k]` for each of these dimensions. -/
def BasicArrayTraversal.inBoxFrom (t : BasicArrayTraversal) : Nat → List Nat → Prop
  | _, [] => True
  | dim, i :: sfx => t._start.getD dim 0 ≤ i ∧ i < t._end.getD dim 0 ∧ t.inBoxFrom (dim + 1) sfx

/-- The address at which the multi-index with the entries `sfx` from dimension `dim` on is
visited, when the loop of dimension `dim` is entered with the iterator `iter`. -/
def BasicArrayTraversal.addrFrom (t : BasicArrayTraversal) : Nat → Nat → List Nat → Nat
  | _, iter, [] => iter
  | dim, iter, i :: sfx =>
    t.addrFrom (dim + 1) (stepIter (t._strides.getD dim 0) (i - t._start.getD dim 0) iter) sfx

/-- The number of multi-indexes of the box in the dimensions `dim, ..., dim + rem`. -/
def BasicArrayTraversal.boxCount (t : BasicArrayTraversal) : Nat → Nat → Nat
  | 0, dim => t._end.getD dim 0 - t._start.getD dim 0
  | rem + 1, dim => (t._end.getD dim 0 - t._start.getD dim 0) * t.boxCount rem (dim + 1)

/-- The multi-index `idx` lies in the box of the traversal: it has `NDIM` entries, and
`_start[k] <= idx[k] < _end[k]` for every dimension `k`. -/
def BasicArrayTraversal.inBox (t : BasicArrayTraversal) (idx : List Nat) : Prop :=
  idx.length = t.NDIM ∧
    ∀ k, k < t.NDIM → t._start.getD k 0 ≤ idx.getD k 0 ∧ idx.getD k 0 < t._end.getD k 0

/-- The offset from the iterator `iter` at which the multi-index with the entries `sfx` from
dimension `dim` on is visited: the sum of `(idx[k] - _start[k]) * _strides[k]`. -/
def BasicArrayTraversal.relOffset (t : BasicArrayTraversal) : Nat → List Nat → Nat
  | _, [] => 0
  | dim, i :: sfx =>
    (i - t._start.getD dim 0) * t._strides.getD dim 0 + t.relOffset (dim + 1) sfx

/-- The functor that assigns `f(idx)` to the element it is given,
`[](const auto &idx, T &data){ data = f(idx); }`, acting on the memory. -/
def writeFn {V : Type} (f : List Nat → V) : List Nat → Nat → Mem V → Mem V :=
  fun idx p mem => mem.write p (f idx)

/-- The functor that counts its invocations. -/
def countFn : List Nat → Nat → Nat → Nat :=
  fun _ _ n => n + 1

/-- Where the comparison loop stops, as a storage position: `r` elements are left to compare
from position `k` on; the loop stops one past the first mismatch, or past the last element. -/
def compareStop {V : Type} (eq : V → V → Bool) (mem : Mem V) (d s : Nat) : Nat → Nat → Nat
  | 0, k => k
  | r + 1, k =>
    if eq (mem (ptrAdd d k)) (mem (ptrAdd s k)) then compareStop eq mem d s r (k + 1) else k + 1

/-- The sum of `idx[k] * strides[k]` over the dimensions `k < n`, as a natural number. -/
def offsetSum (strides idx : List Nat) (n : Nat) : Nat :=
  ((List.range n).map (fun k => idx.getD k 0 * strides.getD k 0)).sum

/-- The sum of `idx[j] * strides[DIM + j]` over the entries `idx[j]` of `idx`. -/
def dotFrom (strides : List Nat) : Nat → List Nat → Nat
  | _, [] => 0
  | DIM, i :: idx => i * strides.getD DIM 0 + dotFrom strides (DIM + 1) idx

/-- The sum of `(idx[k] - start[k]) * strides[k]` over the dimensions `k < n`, as a natural
number. -/
def relOffsetSum (start strides idx : List Nat) (n : Nat) : Nat :=
  ((List.range n).map
    (fun k => (idx.getD k 0 - start.getD k 0) * strides.getD k 0)).sum

/-- The functor that records its invocations: the multi-index and the address of the element
it is given. -/
def logFn : List Nat → Nat → List (List Nat × Nat) → List (List Nat × Nat) :=
  fun idx p log => log ++ [(idx, p)]

/-- The multi-index `idx` is in range for `shape`: it has one entry for each dimension, and
`idx[k] < shape[k]` for every dimension `k`. -/
def inRange (shape idx : List Nat) : Prop :=
  idx.length = shape.length ∧ ∀ k, k < shape.length → idx.getD k 0 < shape.getD k 0

/-- The positions of an iteration from `first` to `last`,
`for(it = first; it != last; ++it)`, in the order they are reached. -/
def iteration (last : Nat) : Nat → Nat → Option (List Nat)
  | 0, _ => none
  | fuel + 1, it =>
    if it ≠ last then (iteration last fuel (ptrAdd it 1)).map (fun w => it :: w)
    else some []

/-! ## Concrete inputs -/

/-- A memory of integers: the listed cells hold the listed values, every other cell `0`. -/
def memOfCells (cells : List (Nat × Int)) : Mem Int :=
  fun p => ((cells.find? (fun c => c.1 == p)).map (fun c => c.2)).getD 0

/-- The type `int`. -/
def tInt : util.IntType := { isSigned := true, bits := 32 }

/-- The type `unsigned int`. -/
def tUnsigned : util.IntType := { isSigned := false, bits := 32 }

/-- Two buffers of two `int`s that differ in their last element only: `{7, 1}` at address
`100` and `{7, 2}` at address `200`. -/
def memLastDiffers : Mem Int := memOfCells [(100, 7), (101, 1), (200, 7), (201, 2)]

/-- An `int` buffer holding `-1` at address `100` and an `unsigned` buffer holding
`0xFFFFFFFF` at address `200`. -/
def memMinusOne : Mem Int := memOfCells [(100, -1), (200, 4294967295)]

/-- A heap whose first free cell is at address `2` and whose cells hold `0`. -/
def heapZero : Heap Int := { mem := fun _ => 0, brk := 2 }

/-- One buffer `{1, 2, 3}` at address `100`. -/
def memOneBuffer : Mem Int := memOfCells [(100, 1), (101, 2), (102, 3)]

/-- The view of shape `(2)` over the cells `100, 101`. -/
def viewLow : BasicArrayView :=
  { _size := 2, _shape := [2], _strides := [1], _data := 100, addr := 1 }

/-- The view of shape `(2)` over the cells `101, 102`. -/
def viewHigh : BasicArrayView :=
  { _size := 2, _shape := [2], _strides := [1], _data := 101, addr := 2 }

/-- The view of shape `(2)` over the cells `200, 201`. -/
def viewFar : BasicArrayView :=
  { _size := 2, _shape := [2], _strides := [1], _data := 200, addr := 3 }

/-- The view of shape `(3)` over the cells `300, 301, 302`. -/
def viewThree : BasicArrayView :=
  { _size := 3, _shape := [3], _strides := [1], _data := 300, addr := 4 }

/-- The view of shape `(2, 5, 2)` over the cells `100 .. 119`. -/
def viewDemo : BasicArrayView :=
  { _size := 20, _shape := [2, 5, 2], _strides := [10, 2, 1], _data := 100, addr := 5 }

/-- The view of shape `(2, 2^63 + 1)` at the cell `100`: the product of its dimension lengths
is `2^64 + 2`, its size `2`. -/
def viewHuge : BasicArrayView :=
  { _size := 2, _shape := [2, 2 ^ 63 + 1], _strides := [2 ^ 63 + 1, 1], _data := 100, addr := 6 }

/-- The function of the demonstration, `f(idx) = idx[0] * 100 + idx[1] * 10 + idx[2]`. -/
def demoValue : List Nat → Nat :=
  fun idx => idx.getD 0 0 * 100 + idx.getD 1 0 * 10 + idx.getD 2 0

/-- One buffer `{1, 2, 3, 4}` at address `100`. -/
def memFour : Mem Int := memOfCells [(100, 1), (101, 2), (102, 3), (103, 4)]

/-- The view of shape `(3)` over the cells `100 .. 102`. -/
def viewFront : BasicArrayView :=
  { _size := 3, _shape := [3], _strides := [1], _data := 100, addr := 8 }

/-- The view of shape `(3)` over the cells `101 .. 103`. -/
def viewBack : BasicArrayView :=
  { _size := 3, _shape := [3], _strides := [1], _data := 101, addr := 9 }

/-- A heap with an `int` buffer `{0, 1, 2, 10, 11, 12}` in the cells `2 .. 7`, the values
`10 * i0 + i1` of a view of shape `(2, 3)`; its first free cell is at address `8`. -/
def heapDemo : Heap Int :=
  { mem := memOfCells [(2, 0), (3, 1), (4, 2), (5, 10), (6, 11), (7, 12)], brk := 8 }

/-- The view of shape `(2, 3)` over the cells `2 .. 7`. -/
def viewSource : BasicArrayView :=
  { _size := 6, _shape := [2, 3], _strides := [3, 1], _data := 2, addr := 1 }

/-- A heap of `float`s whose first free cell is at address `2` and whose cells hold `0`. -/
def heapFloat : Heap FloatValue := { mem := fun _ => .num 0, brk := 2 }

/-- A memory of `float`s: a NaN in the cell `100`, and `0` in every other cell. -/
def memNaN : Mem FloatValue := fun p => if p = 100 then .nan else .num 0

/-- The type `unsigned char`. -/
def tUChar : util.IntType := { isSigned := false, bits := 8 }

/-- A heap of bytes: the byte `17` holds `2` and every other byte `0`; the first free byte is
at address `24`. -/
def heapBytes : Heap Nat := { mem := fun p => if p = 17 then 2 else 0, brk := 24 }

/-- An owning array `BasicArray<int, 1>` of shape `(2)`, its buffer the bytes `16 .. 23`. -/
def arrayInts : BasicArray :=
  { _size := 2, _shape := [2], _strides := [1], _data := 16, addr := 1,
    _container := { _begin := 16, _length := 2 } }

/-- A view `BasicArrayView<unsigned char, 1>` of shape `(2)` over the bytes `17, 18`, the
second and the third byte of the buffer of `arrayInts`. -/
def viewBytes : BasicArrayView :=
  { _size := 2, _shape := [2], _strides := [1], _data := 17, addr := 2 }

/-! ## Basic facts -/

theorem ptrAdd_lt (p n : Nat) : ptrAdd p n < SIZE_MAX1 :=
  Nat.mod_lt _ (by unfold SIZE_MAX1; omega)

theorem ptrAdd_zero (p : Nat) (hp : p < SIZE_MAX1) : ptrAdd p 0 = p := by
  unfold ptrAdd; simpa using Nat.mod_eq_of_lt hp

theorem ptrAdd_ptrAdd (p m n : Nat) : ptrAdd (ptrAdd p m) n = ptrAdd p (m + n) := by
  unfold ptrAdd SIZE_MAX1; omega

theorem ptrAdd_mod (p n : Nat) : ptrAdd p (n % SIZE_MAX1) = ptrAdd p n := by
  unfold ptrAdd SIZE_MAX1; omega

theorem ptrAdd_inj (p m n : Nat) (hm : m < SIZE_MAX1) (hn : n < SIZE_MAX1)
    (h : ptrAdd p m = ptrAdd p n) : m = n := by
  unfold ptrAdd SIZE_MAX1 at *; omega

theorem Mem.write_same {V : Type} (mem : Mem V) (p : Nat) (v : V) : mem.write p v p = v := by
  simp [Mem.write]

theorem Mem.write_other {V : Type} (mem : Mem V) (p q : Nat) (v : V) (h : q ≠ p) :
    mem.write p v q = mem q := by
  simp [Mem.write, h]

/-! ## The size of a shape -/

theorem computeSizeLoop_eq (shape : List Nat) :
    ∀ size, size < SIZE_MAX1 → computeSizeLoop shape size = size * shape.prod % SIZE_MAX1 := by
  induction shape with
  | nil => intro size h; simp [computeSizeLoop, Nat.mod_eq_of_lt h]
  | cons d shape ih =>
    intro size _
    have hlt : size * d % SIZE_MAX1 < SIZE_MAX1 := Nat.mod_lt _ (by unfold SIZE_MAX1; omega)
    rw [computeSizeLoop, ih _ hlt, List.prod_cons, Nat.mod_mul_mod, Nat.mul_assoc]

theorem computeSize_eq (shape : List Nat) :
    computeSize shape =
      if shape.prod % SIZE_MAX1 = 0 then .error .invalidShape
      else .ok (shape.prod % SIZE_MAX1) := by
  have h := computeSizeLoop_eq shape 1 (by unfold SIZE_MAX1; omega)
  simp only [Nat.one_mul] at h
  simp [computeSize, h]

theorem computeSize_ok_iff (shape : List Nat) (size : Nat) :
    computeSize shape = .ok size ↔ shape.prod % SIZE_MAX1 = size ∧ size ≠ 0 := by
  rw [computeSize_eq]
  split
  · rename_i h; simp; intro h2; omega
  · rename_i h; simp; intro h2; omega

theorem computeSize_error_iff (shape : List Nat) (e : Error) :
    computeSize shape = .error e ↔ shape.prod % SIZE_MAX1 = 0 ∧ e = .invalidShape := by
  rw [computeSize_eq]
  split
  · rename_i h; simp [h]; exact eq_comm
  · rename_i h; simp [h]

/-! ## The copy loop -/

theorem ptrAdd_ne_of_lt (d k n : Nat) (hk : k < n) (hn : n < SIZE_MAX1) :
    ptrAdd d k ≠ ptrAdd d n := by
  unfold ptrAdd SIZE_MAX1 at *; omega

theorem ptrAdd_succ (d k : Nat) : ptrAdd (ptrAdd d k) 1 = ptrAdd d (k + 1) :=
  ptrAdd_ptrAdd d k 1

theorem copyLoop_eq {V : Type} (conv : V → V) (d s n : Nat) (hn : n < SIZE_MAX1) :
    ∀ r k fuel (mem : Mem V), k + r = n → r < fuel →
      copyLoop conv (ptrAdd d n) fuel (ptrAdd d k) (ptrAdd s k) mem
        = some (copyFrom conv d s r k mem) := by
  intro r
  induction r with
  | zero =>
    intro k fuel mem hk hf
    obtain ⟨f, rfl⟩ : ∃ f, fuel = f + 1 := ⟨fuel - 1, by omega⟩
    have : k = n := by omega
    subst this
    simp [copyLoop, copyFrom]
  | succ r ih =>
    intro k fuel mem hk hf
    obtain ⟨f, rfl⟩ : ∃ f, fuel = f + 1 := ⟨fuel - 1, by omega⟩
    have hne : ptrAdd d k ≠ ptrAdd d n := ptrAdd_ne_of_lt d k n (by omega) hn
    rw [copyLoop, if_pos hne, ptrAdd_succ, ptrAdd_succ, copyFrom]
    exact ih (k + 1) f _ (by omega) (by omega)

theorem copyFrom_frame {V : Type} (conv : V → V) (d s : Nat) :
    ∀ r k (mem : Mem V) a, (∀ p, k ≤ p → p < k + r → a ≠ ptrAdd d p) →
      copyFrom conv d s r k mem a = mem a := by
  intro r
  induction r with
  | zero => intro k mem a _; rfl
  | succ r ih =>
    intro k mem a h
    rw [copyFrom, ih (k + 1) _ a (fun p hp1 hp2 => h p (by omega) (by omega))]
    exact Mem.write_other _ _ _ _ (h k (by omega) (by omega))

theorem copyFrom_copied {V : Type} (conv : V → V) (d s n : Nat) (hn : n < SIZE_MAX1)
    (hdisj : ∀ p q, p < n → q < n → ptrAdd d p ≠ ptrAdd s q) :
    ∀ r k (mem : Mem V) p, k + r = n → k ≤ p → p < n →
      copyFrom conv d s r k mem (ptrAdd d p) = conv (mem (ptrAdd s p)) := by
  intro r
  induction r with
  | zero => intro k mem p hk h1 h2; omega
  | succ r ih =>
    intro k mem p hk h1 h2
    rw [copyFrom]
    by_cases hpk : p = k
    · subst hpk
      rw [copyFrom_frame conv d s r (p + 1) _ (ptrAdd d p)
        (fun q hq1 hq2 => ptrAdd_ne_of_lt d p q (by omega) (by omega))]
      exact Mem.write_same _ _ _
    · rw [ih (k + 1) _ p (by omega) (by omega) h2,
        Mem.write_other _ _ _ _ (fun h => hdisj k p (by omega) h2 h.symm)]

/-- The call `dst << src` on distinct views returns or throws (the copy loop ends), and the
memory it leaves is that of `copyFrom` when it returns. -/
theorem operatorShl_eq {V : Type} (conv : V → V) (mem : Mem V) (dst src : BasicArrayView)
    (hdistinct : dst.addr ≠ src.addr) (hd : dst._data < SIZE_MAX1) (hs : src._data < SIZE_MAX1)
    (hn : dst._size < SIZE_MAX1) :
    dst.operatorShl conv mem src =
      some (if dst._size ≠ src._size
        then { raised := some .copySizeMismatch, self := dst, mem := mem }
        else { raised := none, self := dst,
               mem := copyFrom conv dst._data src._data dst._size 0 mem }) := by
  unfold BasicArrayView.operatorShl
  rw [if_neg hdistinct]
  by_cases hsz : dst._size = src._size
  · have hloop := copyLoop_eq conv dst._data src._data dst._size hn dst._size 0
      (dst._size + 1) mem (by omega) (by omega)
    rw [ptrAdd_zero _ hd, ptrAdd_zero _ hs] at hloop
    simp only [ArrayBase.size, BasicArrayView.end, BasicArrayView.begin, ne_eq,
      not_true_eq_false, if_false, hloop, ← hsz]
  · simp [ArrayBase.size, hsz]

/-! ## The comparison loop -/

theorem compareLoop_eq {V : Type} (eq : V → V → Bool) (mem : Mem V) (d s n : Nat)
    (hn : n < SIZE_MAX1) :
    ∀ r k fuel, k + r = n → r < fuel →
      compareLoop eq mem (ptrAdd d n) fuel (ptrAdd d k) (ptrAdd s k)
        = some (ptrAdd d (compareStop eq mem d s r k)) := by
  intro r
  induction r with
  | zero =>
    intro k fuel hk hf
    obtain ⟨f, rfl⟩ : ∃ f, fuel = f + 1 := ⟨fuel - 1, by omega⟩
    have : k = n := by omega
    subst this
    simp [compareLoop, compareStop]
  | succ r ih =>
    intro k fuel hk hf
    obtain ⟨f, rfl⟩ : ∃ f, fuel = f + 1 := ⟨fuel - 1, by omega⟩
    have hne : ptrAdd d k ≠ ptrAdd d n := ptrAdd_ne_of_lt d k n (by omega) hn
    rw [compareLoop, if_pos hne, compareStop]
    by_cases he : eq (mem (ptrAdd d k)) (mem (ptrAdd s k)) = true
    · rw [if_pos he, if_pos he, ptrAdd_succ, ptrAdd_succ]
      exact ih (k + 1) f (by omega) (by omega)
    · rw [if_neg he, if_neg he, ptrAdd_succ]

theorem compareStop_le {V : Type} (eq : V → V → Bool) (mem : Mem V) (d s : Nat) :
    ∀ r k, compareStop eq mem d s r k ≤ k + r := by
  intro r
  induction r with
  | zero => intro k; simp [compareStop]
  | succ r ih =>
    intro k
    rw [compareStop]
    split
    · have := ih (k + 1); omega
    · omega

/-- The comparison loop runs to the end if and only if the elements agree at every position
but the last one, which decides nothing. -/
theorem compareStop_eq_iff {V : Type} (eq : V → V → Bool) (mem : Mem V) (d s : Nat) :
    ∀ r k, compareStop eq mem d s r k = k + r ↔
      ∀ p, k ≤ p → p + 1 < k + r → eq (mem (ptrAdd d p)) (mem (ptrAdd s p)) = true := by
  intro r
  induction r with
  | zero => intro k; simp [compareStop]; intro p h1 h2; omega
  | succ r ih =>
    intro k
    rw [compareStop]
    by_cases he : eq (mem (ptrAdd d k)) (mem (ptrAdd s k)) = true
    · rw [if_pos he, show k + (r + 1) = k + 1 + r by omega, ih (k + 1)]
      constructor
      · intro h p hp1 hp2
        by_cases hpk : p = k
        · rw [hpk]; exact he
        · exact h p (by omega) hp2
      · intro h p hp1 hp2
        exact h p (by omega) hp2
    · rw [if_neg he]
      constructor
      · intro h p hp1 hp2
        omega
      · intro h
        by_cases hr : r = 0
        · omega
        · exact absurd (h k (Nat.le_refl k) (by omega)) he

/-- What the comparison of two distinct views comes to: the loop ends, and the result is true
if and only if the elements agree at the storage positions before the last one. -/
theorem compare_result {V : Type} (eq : V → V → Bool) (mem : Mem V) (self other : BasicArrayView)
    (hd : self._data < SIZE_MAX1) (hs : other._data < SIZE_MAX1) (hn : self._size < SIZE_MAX1) :
    ∃ b, (match compareLoop eq mem self.end (self._size + 1) self._data other.begin with
        | none => none
        | some thisIter => some (thisIter == self.end)) = some b ∧
      (b = true ↔ ∀ p, p + 1 < self._size →
        eq (mem (ptrAdd self._data p)) (mem (ptrAdd other._data p)) = true) := by
  have hloop := compareLoop_eq eq mem self._data other._data self._size hn self._size 0
    (self._size + 1) (by omega) (by omega)
  rw [ptrAdd_zero _ hd, ptrAdd_zero _ hs] at hloop
  have hle := compareStop_le eq mem self._data other._data self._size 0
  have hiff := compareStop_eq_iff eq mem self._data other._data self._size 0
  simp only [Nat.zero_add, Nat.zero_le, true_implies] at hle hiff
  refine ⟨ptrAdd self._data (compareStop eq mem self._data other._data self._size 0)
      == ptrAdd self._data self._size,
    by simp only [BasicArrayView.end, BasicArrayView.begin, ArrayBase.size, hloop], ?_⟩
  rw [← hiff, beq_iff_eq]
  constructor
  · intro h
    exact ptrAdd_inj _ _ _ (by omega) hn h
  · intro h
    rw [h]

/-- `a == b` on distinct views ends, and is true if and only if the shapes are identical and
the elements agree at the storage positions before the last one. -/
theorem operatorEq_iff {V : Type} [BEq V] (mem : Mem V) (self other : BasicArrayView)
    (hdistinct : self.addr ≠ other.addr) (hd : self._data < SIZE_MAX1)
    (hs : other._data < SIZE_MAX1) (hn : self._size < SIZE_MAX1) :
    ∃ b, self.operatorEq mem other = some b ∧
      (b = true ↔ self._shape = other._shape ∧ ∀ p, p + 1 < self._size →
        (mem (ptrAdd self._data p) == mem (ptrAdd other._data p)) = true) := by
  unfold BasicArrayView.operatorEq
  rw [if_neg hdistinct]
  by_cases hshape : self._shape = other._shape
  · obtain ⟨b, hb, hiff⟩ := compare_result (fun x y => x == y) mem self other hd hs hn
    refine ⟨b, ?_, ?_⟩
    · simpa [hshape] using hb
    · rw [hiff]; simp [hshape]
  · exact ⟨false, by simp [hshape], by simp [hshape]⟩

/-- `a.equalValue(b)` on distinct views ends, and is true if and only if the sizes are equal
and `util::eq` holds at the storage positions before the last one. -/
theorem equalValue_iff {V : Type} (eq : V → V → Bool) (mem : Mem V)
    (self other : BasicArrayView) (hdistinct : self.addr ≠ other.addr)
    (hd : self._data < SIZE_MAX1) (hs : other._data < SIZE_MAX1) (hn : self._size < SIZE_MAX1) :
    ∃ b, self.equalValue eq mem other = some b ∧
      (b = true ↔ self._size = other._size ∧ ∀ p, p + 1 < self._size →
        eq (mem (ptrAdd self._data p)) (mem (ptrAdd other._data p)) = true) := by
  unfold BasicArrayView.equalValue
  rw [if_neg hdistinct]
  by_cases hsize : self._size = other._size
  · obtain ⟨b, hb, hiff⟩ := compare_result eq mem self other hd hs hn
    refine ⟨b, ?_, ?_⟩
    · simpa [ArrayBase.size, hsize] using hb
    · rw [hiff]; simp [hsize]
  · exact ⟨false, by simp [ArrayBase.size, hsize], by simp [hsize]⟩

/-! ## The two access paths -/

theorem headD_drop (l : List Nat) (k : Nat) : (l.drop k).headD 0 = l.getD k 0 := by
  induction l generalizing k with
  | nil => simp
  | cons a l ih =>
    cases k with
    | zero => simp
    | succ k => simp

theorem tail_drop_succ (l : List Nat) (k : Nat) : (l.drop k).tail = l.drop (k + 1) := by
  simp [List.tail_drop]

theorem computeOffsetFrom_cons_cons (b : ArrayBase) (DIM i j : Nat) (idx : List Nat) :
    b.computeOffsetFrom DIM (i :: j :: idx) =
      (i * b._strides.getD DIM 0 % SIZE_MAX1 + b.computeOffsetFrom (DIM + 1) (j :: idx))
        % SIZE_MAX1 := rfl

theorem subscriptChain_subscript (NDIM : Nat) (s : Subscript) (i : Nat) (idx : List Nat) :
    subscriptChain NDIM (.subscript s) (i :: idx) = subscriptChain NDIM (s.index NDIM i) idx :=
  rfl

theorem Subscript.index_inner (NDIM DIM iter : Nat) (strides : List Nat) (i : Nat)
    (h : DIM ≠ NDIM - 1) :
    Subscript.index NDIM { DIM := DIM, _iter := iter, _strides := strides.drop DIM } i =
      .subscript { DIM := DIM + 1, _iter := ptrAdd iter (i * strides.getD DIM 0 % SIZE_MAX1),
                   _strides := strides.drop (DIM + 1) } := by
  simp [Subscript.index, h, headD_drop, tail_drop_succ]

/-- The subscripts applied to a `Subscript<ITER, REF, DIM>` whose cursor stands at
`_strides[DIM]` reach the element at the offset `computeOffset<DIM>` gives. -/
theorem subscriptChain_eq (b : ArrayBase) (NDIM : Nat) :
    ∀ (idx : List Nat) (i DIM iter : Nat), DIM + (idx.length + 1) = NDIM →
      subscriptChain NDIM
          (Subscript.index NDIM { DIM := DIM, _iter := iter, _strides := b._strides.drop DIM } i)
          idx
        = some (ptrAdd iter (b.computeOffsetFrom DIM (i :: idx))) := by
  intro idx
  induction idx with
  | nil =>
    intro i DIM iter h
    have hD : DIM = NDIM - 1 := by simp at h; omega
    simp [Subscript.index, hD, subscriptChain, ArrayBase.computeOffsetFrom]
  | cons j idx ih =>
    intro i DIM iter h
    have hD : DIM ≠ NDIM - 1 := by simp at h; omega
    have hstep := ih j (DIM + 1) (ptrAdd iter (i * b._strides.getD DIM 0 % SIZE_MAX1))
      (by simp at h ⊢; omega)
    rw [Subscript.index_inner NDIM DIM iter b._strides i hD, subscriptChain_subscript, hstep,
      ptrAdd_ptrAdd, computeOffsetFrom_cons_cons, ptrAdd_mod]

/-- The chained subscript and the multi-index call of a view with at least one dimension
refer to the same element, for every tuple of as many indexes as the view has dimensions. -/
theorem subscript_eq_call (v : BasicArrayView) (idx : List Nat)
    (hlen : idx.length = v._shape.length) (hndim : 1 ≤ v._shape.length) :
    v.subscript idx = v.call idx ∧
      v.call idx = some (ptrAdd v._data (v.computeOffsetFrom 0 idx)) := by
  have hcall : v.call idx = some (ptrAdd v._data (v.computeOffsetFrom 0 idx)) := by
    simp [BasicArrayView.call, ArrayBase.computeOffset, hlen]
  refine ⟨?_, hcall⟩
  rw [hcall]
  match idx, hlen with
  | [], hlen => simp at hlen; omega
  | [i], hlen =>
    have h1 : v._shape.length = 1 := by simpa using hlen.symm
    simp [BasicArrayView.subscript, BasicArrayView.index, h1, subscriptChain,
      ArrayBase.computeOffsetFrom]
  | i :: j :: idx, hlen =>
    have h1 : v._shape.length ≠ 1 := by simp at hlen; omega
    have hstep := subscriptChain_eq v.toArrayBase v._shape.length idx j 1
      (ptrAdd v._data (i * v._strides.getD 0 0 % SIZE_MAX1)) (by simp at hlen ⊢; omega)
    have hcur : v._strides.tail = v._strides.drop 1 := by simp
    have hhead : v._strides.headD 0 = v._strides.getD 0 0 := by
      simpa using headD_drop v._strides 0
    have hidx : v.index i = .subscript
        ⟨1, ptrAdd v._data (i * v._strides.getD 0 0 % SIZE_MAX1), v._strides.drop 1⟩ := by
      unfold BasicArrayView.index
      rw [if_neg h1, ← hcur, ← hhead]
    rw [BasicArrayView.subscript, hidx, subscriptChain_subscript, hstep, ptrAdd_ptrAdd,
      computeOffsetFrom_cons_cons, ptrAdd_mod]

/-! ## The traversal -/

theorem runVisits_append {σ : Type} (fn : List Nat → Nat → σ → σ)
    (w1 w2 : List (List Nat × Nat)) (s : σ) :
    runVisits fn (w1 ++ w2) s = runVisits fn w2 (runVisits fn w1 s) := by
  simp [runVisits, List.foldl_append]

theorem take_set_self (l : List Nat) (dim a : Nat) : (l.set dim a).take dim = l.take dim := by
  induction l generalizing dim with
  | nil => simp
  | cons x l ih =>
    cases dim with
    | zero => simp
    | succ d => simp [ih]

theorem getD_set_self (l : List Nat) (dim a : Nat) (h : dim < l.length) :
    (l.set dim a).getD dim 0 = a := by
  simp [h]

theorem getD_set_other (l : List Nat) (dim k a : Nat) (h : dim ≠ k) :
    (l.set dim a).getD k 0 = l.getD k 0 := by
  simp [h]

theorem take_succ_eq (idx : List Nat) (dim : Nat) (h : dim < idx.length) :
    idx.take (dim + 1) = idx.take dim ++ [idx.getD dim 0] := by
  rw [List.take_succ]
  simp [h]

theorem getD_eq_of_take_succ (a b : List Nat) (dim : Nat) (ha : dim < a.length)
    (hb : dim < b.length) (h : a.take (dim + 1) = b.take (dim + 1)) :
    a.getD dim 0 = b.getD dim 0 := by
  rw [take_succ_eq a dim ha, take_succ_eq b dim hb] at h
  have hlen : (a.take dim).length = (b.take dim).length := by
    simp [List.length_take, Nat.min_eq_left (Nat.le_of_lt ha), Nat.min_eq_left (Nat.le_of_lt hb)]
  have := (List.append_inj h hlen).2
  simpa using this

theorem take_of_take_succ (a b : List Nat) (dim : Nat)
    (h : a.take (dim + 1) = b.take (dim + 1)) : a.take dim = b.take dim := by
  have := congrArg (List.take dim) h
  simpa [List.take_take] using this

/-- One loop of `iterate` ends, and leaves the state of the visits of `loopVisits`. -/
theorem forLoop_spec {σ : Type} (fn : List Nat → Nat → σ → σ) (N dim end_ stride : Nat)
    (pre : List Nat) (body : Nat → List Nat → σ → Option (List Nat × σ))
    (inner : Nat → List Nat → List (List Nat × Nat)) (hdim : dim < N)
    (hbody : ∀ iter idx s, idx.length = N → idx.take dim = pre →
      ∃ idx1, body iter idx s = some (idx1, runVisits fn (inner iter (idx.take (dim + 1))) s) ∧
        idx1.length = N ∧ idx1.take (dim + 1) = idx.take (dim + 1)) :
    ∀ n iter idx s, idx.length = N → idx.take dim = pre → n = end_ - idx.getD dim 0 →
      ∃ idx1, forLoop body dim end_ stride n iter idx s =
          some (idx1, runVisits fn (loopVisits inner stride pre n (idx.getD dim 0) iter) s) ∧
        idx1.length = N ∧ idx1.take dim = pre := by
  intro n
  induction n with
  | zero =>
    intro iter idx s hlen hpre hn
    have hge : ¬ idx.getD dim 0 < end_ := by omega
    exact ⟨idx, by rw [forLoop, if_neg hge]; rfl, hlen, hpre⟩
  | succ n ih =>
    intro iter idx s hlen hpre hn
    have hlt : idx.getD dim 0 < end_ := by omega
    obtain ⟨idx1, hb, hlen1, htake1⟩ := hbody iter idx s hlen hpre
    have hget1 : idx1.getD dim 0 = idx.getD dim 0 :=
      getD_eq_of_take_succ idx1 idx dim (by omega) (by omega) htake1
    have hpre1 : idx1.take dim = pre := (take_of_take_succ idx1 idx dim htake1).trans hpre
    have hlen2 : (idx1.set dim (idx1.getD dim 0 + 1)).length = N := by simpa using hlen1
    have hpre2 : (idx1.set dim (idx1.getD dim 0 + 1)).take dim = pre := by
      rw [take_set_self]; exact hpre1
    have hget2 : (idx1.set dim (idx1.getD dim 0 + 1)).getD dim 0 = idx.getD dim 0 + 1 := by
      rw [getD_set_self _ _ _ (by omega), hget1]
    obtain ⟨idx2, hloop, hlen3, hpre3⟩ := ih (ptrAdd iter stride)
      (idx1.set dim (idx1.getD dim 0 + 1)) (runVisits fn (inner iter (idx.take (dim + 1))) s)
      hlen2 hpre2 (by rw [hget2]; omega)
    refine ⟨idx2, ?_, hlen3, hpre3⟩
    rw [forLoop, if_pos hlt, hb]
    simp only
    rw [hloop, hget2, loopVisits, runVisits_append, take_succ_eq idx dim (by omega), hpre]

theorem lastDim_toNat (t : BasicArrayTraversal) (hN : 1 ≤ t.NDIM)
    (hlast : t._lastDim = (t.NDIM : Int) - 1) : t._lastDim.toNat = t.NDIM - 1 := by
  rw [hlast]; omega

/-- A call of `iterate` returns, and leaves the state of the visits of `visits`. -/
theorem iterate_spec {σ : Type} (t : BasicArrayTraversal) (fn : List Nat → Nat → σ → σ)
    (hN : 1 ≤ t.NDIM) (hlast : t._lastDim = (t.NDIM : Int) - 1) :
    ∀ rem depth iter dim idx s, dim + rem + 1 = t.NDIM → rem < depth → idx.length = t.NDIM →
      ∃ idx1, t.iterate fn depth iter dim idx s =
          some (idx1, runVisits fn (t.visits rem dim iter (idx.take dim)) s) ∧
        idx1.length = t.NDIM ∧ idx1.take dim = idx.take dim := by
  have hl := lastDim_toNat t hN hlast
  intro rem
  induction rem with
  | zero =>
    intro depth iter dim idx s hdim hdepth hlen
    obtain ⟨d, rfl⟩ : ∃ d, depth = d + 1 := ⟨depth - 1, by omega⟩
    have hd : dim = t._lastDim.toNat := by omega
    have hlen0 : (idx.set dim (t._start.getD dim 0)).length = t.NDIM := by simpa using hlen
    obtain ⟨idx1, h1, h2, h3⟩ := forLoop_spec fn t.NDIM dim (t._end.getD dim 0)
      (t._strides.getD dim 0) (idx.take dim) (fun iter idx s => some (idx, fn idx iter s))
      (fun iter idx => [(idx, iter)]) (by omega)
      (by
        intro iter idx s hlen _
        refine ⟨idx, ?_, hlen, rfl⟩
        rw [List.take_of_length_le (by omega)]
        rfl)
      (t._end.getD dim 0 - t._start.getD dim 0) iter (idx.set dim (t._start.getD dim 0)) s
      hlen0 (take_set_self _ _ _) (by rw [getD_set_self _ _ _ (by omega)])
    refine ⟨idx1, ?_, h2, h3⟩
    rw [BasicArrayTraversal.iterate]
    simp only [hd, if_true] at h1 ⊢
    rw [h1, getD_set_self _ _ _ (by omega)]
    rfl
  | succ rem ih =>
    intro depth iter dim idx s hdim hdepth hlen
    obtain ⟨d, rfl⟩ : ∃ d, depth = d + 1 := ⟨depth - 1, by omega⟩
    have hd : dim ≠ t._lastDim.toNat := by omega
    have hlen0 : (idx.set dim (t._start.getD dim 0)).length = t.NDIM := by simpa using hlen
    obtain ⟨idx1, h1, h2, h3⟩ := forLoop_spec fn t.NDIM dim (t._end.getD dim 0)
      (t._strides.getD dim 0) (idx.take dim)
      (fun iter idx s => t.iterate fn d iter (dim + 1) idx s)
      (fun iter pre => t.visits rem (dim + 1) iter pre) (by omega)
      (by
        intro iter idx s hlen _
        exact ih d iter (dim + 1) idx s (by omega) (by omega) hlen)
      (t._end.getD dim 0 - t._start.getD dim 0) iter (idx.set dim (t._start.getD dim 0)) s
      hlen0 (take_set_self _ _ _) (by rw [getD_set_self _ _ _ (by omega)])
    refine ⟨idx1, ?_, h2, h3⟩
    rw [BasicArrayTraversal.iterate]
    simp only [hd, if_false]
    rw [h1, getD_set_self _ _ _ (by omega)]
    rfl

/-- A traversal of at least one dimension ends, and leaves the state of the visits of
`visited`, made on the functor in that order. -/
theorem traverse_spec {σ : Type} (t : BasicArrayTraversal) (fn : List Nat → Nat → σ → σ)
    (s : σ) (hN : 1 ≤ t.NDIM) (hlast : t._lastDim = (t.NDIM : Int) - 1) :
    t.traverse fn s = some (runVisits fn t.visited s) := by
  obtain ⟨idx1, h1, _, _⟩ := iterate_spec t fn hN hlast (t.NDIM - 1) t.NDIM t._data 0
    (List.replicate t.NDIM 0) s (by omega) (by omega) (by simp)
  have hneg : ¬ t._lastDim < 0 := by rw [hlast]; omega
  rw [BasicArrayTraversal.traverse, if_neg hneg]
  simp only [h1]
  rfl

/-- A traversal of no dimension makes no visit. -/
theorem traverse_zero_dim {σ : Type} (t : BasicArrayTraversal) (fn : List Nat → Nat → σ → σ)
    (s : σ) (hN : t.NDIM = 0) (hlast : t._lastDim = (t.NDIM : Int) - 1) :
    t.traverse fn s = some s := by
  have hneg : t._lastDim < 0 := by rw [hlast, hN]; omega
  rw [BasicArrayTraversal.traverse, if_pos hneg]

theorem mem_loopVisits (inner : Nat → List Nat → List (List Nat × Nat)) (stride : Nat)
    (pre : List Nat) (x : List Nat × Nat) :
    ∀ n i iter, x ∈ loopVisits inner stride pre n i iter ↔
      ∃ k, k < n ∧ x ∈ inner (stepIter stride k iter) (pre ++ [i + k]) := by
  intro n
  induction n with
  | zero => intro i iter; simp [loopVisits]
  | succ n ih =>
    intro i iter
    rw [loopVisits, List.mem_append, ih]
    constructor
    · rintro (h | ⟨k, hk, h⟩)
      · exact ⟨0, by omega, by simpa [stepIter] using h⟩
      · refine ⟨k + 1, by omega, ?_⟩
        have : i + (k + 1) = i + 1 + k := by omega
        rw [stepIter, this]
        exact h
    · rintro ⟨k, hk, h⟩
      cases k with
      | zero => left; simpa [stepIter] using h
      | succ k =>
        right
        refine ⟨k, by omega, ?_⟩
        have : i + (k + 1) = i + 1 + k := by omega
        rw [stepIter, this] at h
        exact h

/-- The visits of `iterate`: the multi-indexes that continue `pre` inside the box, each with
its address. -/
theorem mem_visits (t : BasicArrayTraversal) :
    ∀ rem dim iter pre idx a, (idx, a) ∈ t.visits rem dim iter pre ↔
      ∃ sfx, idx = pre ++ sfx ∧ sfx.length = rem + 1 ∧ t.inBoxFrom dim sfx ∧
        a = t.addrFrom dim iter sfx := by
  intro rem
  induction rem with
  | zero =>
    intro dim iter pre idx a
    rw [BasicArrayTraversal.visits, mem_loopVisits]
    constructor
    · rintro ⟨k, hk, h⟩
      simp only [List.mem_singleton, Prod.mk.injEq] at h
      refine ⟨[t._start.getD dim 0 + k], h.1, rfl, ?_, ?_⟩
      · exact ⟨by omega, by omega, trivial⟩
      · rw [h.2]; simp [BasicArrayTraversal.addrFrom]
    · rintro ⟨sfx, h1, h2, h3, h4⟩
      match sfx, h2 with
      | [i], _ =>
        obtain ⟨hs, he, _⟩ := h3
        refine ⟨i - t._start.getD dim 0, by omega, ?_⟩
        have : t._start.getD dim 0 + (i - t._start.getD dim 0) = i := by omega
        simp only [List.mem_singleton, Prod.mk.injEq, this]
        exact ⟨h1, by rw [h4]; rfl⟩
  | succ rem ih =>
    intro dim iter pre idx a
    rw [BasicArrayTraversal.visits, mem_loopVisits]
    constructor
    · rintro ⟨k, hk, h⟩
      obtain ⟨sfx, h1, h2, h3, h4⟩ := (ih _ _ _ _ _).mp h
      refine ⟨(t._start.getD dim 0 + k) :: sfx, by simp [h1], by simp [h2], ?_, ?_⟩
      · exact ⟨by omega, by omega, h3⟩
      · rw [h4, BasicArrayTraversal.addrFrom]
        have : t._start.getD dim 0 + k - t._start.getD dim 0 = k := by omega
        rw [this]
    · rintro ⟨sfx, h1, h2, h3, h4⟩
      match sfx, h2 with
      | i :: sfx, h2 =>
        obtain ⟨hs, he, hbox⟩ := h3
        refine ⟨i - t._start.getD dim 0, by omega, ?_⟩
        have : t._start.getD dim 0 + (i - t._start.getD dim 0) = i := by omega
        rw [this]
        refine (ih _ _ _ _ _).mpr ⟨sfx, by simp [h1], by simpa using h2, hbox, ?_⟩
        rw [h4, BasicArrayTraversal.addrFrom]

theorem lex_append_left (pre a b : List Nat) (h : List.Lex (· < ·) a b) :
    List.Lex (· < ·) (pre ++ a) (pre ++ b) := by
  induction pre with
  | nil => exact h
  | cons x pre ih => exact List.Lex.cons ih

theorem lex_ne (a b : List Nat) (h : List.Lex (· < ·) a b) : a ≠ b := by
  intro hab
  subst hab
  induction a with
  | nil => cases h
  | cons x a ih =>
    cases h with
    | cons h => exact ih h
    | rel h => exact Nat.lt_irrefl _ h

/-- One loop visits the multi-indexes in lexicographic order, if each pass of its body does
and visits only multi-indexes that continue the index array it is entered with. -/
theorem loopVisits_sorted (inner : Nat → List Nat → List (List Nat × Nat)) (stride : Nat)
    (pre : List Nat)
    (hsorted : ∀ iter pre1, ((inner iter pre1).map Prod.fst).Pairwise (List.Lex (· < ·)))
    (hpre : ∀ iter pre1 x, x ∈ inner iter pre1 → ∃ sfx, x.1 = pre1 ++ sfx) :
    ∀ n i iter,
      ((loopVisits inner stride pre n i iter).map Prod.fst).Pairwise (List.Lex (· < ·)) := by
  intro n
  induction n with
  | zero => intro i iter; simp [loopVisits]
  | succ n ih =>
    intro i iter
    rw [loopVisits, List.map_append, List.pairwise_append]
    refine ⟨hsorted _ _, ih _ _, ?_⟩
    intro a ha b hb
    obtain ⟨x, hx, rfl⟩ := List.mem_map.mp ha
    obtain ⟨y, hy, rfl⟩ := List.mem_map.mp hb
    obtain ⟨sx, hsx⟩ := hpre _ _ _ hx
    obtain ⟨k, _, hy2⟩ := (mem_loopVisits inner stride pre y n (i + 1) _).mp hy
    obtain ⟨sy, hsy⟩ := hpre _ _ _ hy2
    rw [hsx, hsy, List.append_assoc, List.append_assoc]
    exact lex_append_left pre _ _ (List.Lex.rel (by omega))

/-- The visits of `iterate` are in lexicographic order of the multi-indexes. -/
theorem visits_sorted (t : BasicArrayTraversal) :
    ∀ rem dim iter pre,
      ((t.visits rem dim iter pre).map Prod.fst).Pairwise (List.Lex (· < ·)) := by
  intro rem
  induction rem with
  | zero =>
    intro dim iter pre
    rw [BasicArrayTraversal.visits]
    exact loopVisits_sorted _ _ _ (by intro iter pre1; simp)
      (by intro iter pre1 x hx; exact ⟨[], by simp at hx; simp [hx]⟩) _ _ _
  | succ rem ih =>
    intro dim iter pre
    rw [BasicArrayTraversal.visits]
    exact loopVisits_sorted _ _ _ (fun iter pre1 => ih _ _ _)
      (by
        intro iter pre1 x hx
        obtain ⟨sfx, h, _⟩ := (mem_visits t rem (dim + 1) iter pre1 x.1 x.2).mp hx
        exact ⟨sfx, h⟩) _ _ _

theorem length_loopVisits (inner : Nat → List Nat → List (List Nat × Nat)) (stride : Nat)
    (pre : List Nat) (c : Nat) (hc : ∀ iter pre1, (inner iter pre1).length = c) :
    ∀ n i iter, (loopVisits inner stride pre n i iter).length = n * c := by
  intro n
  induction n with
  | zero => intro i iter; simp [loopVisits]
  | succ n ih =>
    intro i iter
    rw [loopVisits, List.length_append, hc, ih, Nat.succ_mul, Nat.add_comm]

/-- The number of visits of `iterate`. -/
theorem length_visits (t : BasicArrayTraversal) :
    ∀ rem dim iter pre, (t.visits rem dim iter pre).length = t.boxCount rem dim := by
  intro rem
  induction rem with
  | zero =>
    intro dim iter pre
    rw [BasicArrayTraversal.visits, length_loopVisits _ _ _ 1 (by intro _ _; rfl),
      BasicArrayTraversal.boxCount, Nat.mul_one]
  | succ rem ih =>
    intro dim iter pre
    rw [BasicArrayTraversal.visits, length_loopVisits _ _ _ _ (fun _ _ => ih _ _ _),
      BasicArrayTraversal.boxCount]

theorem inBoxFrom_iff (t : BasicArrayTraversal) :
    ∀ sfx dim, t.inBoxFrom dim sfx ↔
      ∀ j, j < sfx.length →
        t._start.getD (dim + j) 0 ≤ sfx.getD j 0 ∧ sfx.getD j 0 < t._end.getD (dim + j) 0 := by
  intro sfx
  induction sfx with
  | nil => intro dim; simp [BasicArrayTraversal.inBoxFrom]
  | cons i sfx ih =>
    intro dim
    rw [BasicArrayTraversal.inBoxFrom, ih]
    constructor
    · rintro ⟨h1, h2, h3⟩ j hj
      cases j with
      | zero => exact ⟨h1, h2⟩
      | succ j =>
        have := h3 j (by simpa using hj)
        have e : dim + (j + 1) = dim + 1 + j := by omega
        rw [List.getD_cons_succ, e]
        exact this
    · intro h
      refine ⟨(h 0 (by simp)).1, (h 0 (by simp)).2, ?_⟩
      intro j hj
      have := h (j + 1) (by simpa using hj)
      have e : dim + (j + 1) = dim + 1 + j := by omega
      rw [List.getD_cons_succ, e] at this
      exact this

/-- The multi-indexes a traversal of at least one dimension visits are those of its box. -/
theorem mem_visited_iff (t : BasicArrayTraversal) (hN : 1 ≤ t.NDIM) (idx : List Nat) :
    idx ∈ t.visited.map Prod.fst ↔ t.inBox idx := by
  rw [List.mem_map]
  constructor
  · rintro ⟨⟨idx1, a⟩, hx, rfl⟩
    obtain ⟨sfx, h1, h2, h3, _⟩ := (mem_visits t _ _ _ _ _ _).mp hx
    simp only [List.nil_append] at h1
    subst h1
    refine ⟨by show idx1.length = t.NDIM; omega, ?_⟩
    intro k hk
    have := (inBoxFrom_iff t idx1 0).mp h3 k (by omega)
    simpa using this
  · rintro ⟨h1, h2⟩
    refine ⟨(idx, t.addrFrom 0 t._data idx), ?_, rfl⟩
    refine (mem_visits t _ _ _ _ _ _).mpr ⟨idx, by simp, by omega, ?_, rfl⟩
    refine (inBoxFrom_iff t idx 0).mpr ?_
    intro j hj
    have := h2 j (by omega)
    simpa using this

/-- A traversal visits no multi-index twice. -/
theorem visited_nodup (t : BasicArrayTraversal) : (t.visited.map Prod.fst).Nodup :=
  (visits_sorted t _ _ _ _).imp (fun h => lex_ne _ _ h)

/-- A traversal whose box is empty in some dimension makes no visit. -/
theorem visited_eq_nil (t : BasicArrayTraversal) (hN : 1 ≤ t.NDIM) (k : Nat) (hk : k < t.NDIM)
    (hempty : t._end.getD k 0 ≤ t._start.getD k 0) : t.visited = [] := by
  rw [List.eq_nil_iff_forall_not_mem]
  intro x hx
  have hin : t.inBox x.1 := (mem_visited_iff t hN x.1).mp (List.mem_map.mpr ⟨x, hx, rfl⟩)
  have := hin.2 k hk
  omega

theorem getD_replicate_zero (n k : Nat) : (List.replicate n 0).getD k 0 = 0 := by
  by_cases h : k < n
  · simp [h]
  · simp [List.getElem?_replicate, h]

theorem drop_eq_getD_cons (l : List Nat) (k : Nat) (h : k < l.length) :
    l.drop k = l.getD k 0 :: l.drop (k + 1) := by
  rw [List.drop_eq_getElem_cons h]
  simp [h]

/-- The number of visits of the traversal of a view is the product of its dimension
lengths. -/
theorem boxCount_traversal (v : BasicArrayView) :
    ∀ rem dim, dim + rem + 1 = v._shape.length →
      v.traversal.boxCount rem dim = (v._shape.drop dim).prod := by
  intro rem
  induction rem with
  | zero =>
    intro dim h
    rw [drop_eq_getD_cons _ _ (by omega), List.drop_of_length_le (by omega)]
    simp [BasicArrayTraversal.boxCount, BasicArrayView.traversal, BasicArrayTraversal.ctor,
      getD_replicate_zero, -List.getD_eq_getElem?_getD]
  | succ rem ih =>
    intro dim h
    rw [drop_eq_getD_cons _ _ (by omega), List.prod_cons, ← ih (dim + 1) (by omega)]
    simp [BasicArrayTraversal.boxCount, BasicArrayView.traversal, BasicArrayTraversal.ctor,
      getD_replicate_zero, -List.getD_eq_getElem?_getD]

theorem length_visited_traversal (v : BasicArrayView) (hN : 1 ≤ v._shape.length) :
    v.traversal.visited.length = v._shape.prod := by
  rw [BasicArrayTraversal.visited, length_visits]
  have := boxCount_traversal v (v._shape.length - 1) 0 (by omega)
  simpa [BasicArrayView.traversal, BasicArrayTraversal.ctor] using this

/-! ## Strides and offsets -/

theorem computeStridesLoop_spec (shape : List Nat) (N : Nat) (P : Nat → Nat)
    (hP : ∀ k, k + 1 < N → P k = P (k + 1) * shape.getD (k + 1) 0 % SIZE_MAX1) :
    ∀ i strides, strides.length = N → i < N →
      (∀ k, i ≤ k → k < N → strides.getD k 0 = P k) →
      (computeStridesLoop shape i strides).length = N ∧
        ∀ k, k < N → (computeStridesLoop shape i strides).getD k 0 = P k := by
  intro i
  induction i with
  | zero =>
    intro strides hlen _ h
    exact ⟨hlen, fun k hk => h k (Nat.zero_le k) hk⟩
  | succ i ih =>
    intro strides hlen hi h
    rw [computeStridesLoop]
    refine ih _ (by simpa using hlen) (by omega) ?_
    intro k hik hk
    by_cases hki : k = i
    · subst hki
      rw [getD_set_self _ _ _ (by omega), h (k + 1) (by omega) hi, hP k hi]
    · rw [getD_set_other _ _ _ _ (fun e => hki e.symm)]
      exact h k (by omega) hk

/-- The strides `computeStrides` gives: one entry for each dimension, the product modulo
`2^64` of the dimension lengths after it. -/
theorem computeStrides_spec (shape : List Nat) (hN : 1 ≤ shape.length) :
    (computeStrides shape).length = shape.length ∧
      ∀ k, k < shape.length →
        (computeStrides shape).getD k 0 = (shape.drop (k + 1)).prod % SIZE_MAX1 := by
  have h := computeStridesLoop_spec shape shape.length
    (fun k => (shape.drop (k + 1)).prod % SIZE_MAX1)
    (by
      intro k hk
      show (shape.drop (k + 1)).prod % SIZE_MAX1 = _
      rw [drop_eq_getD_cons shape (k + 1) hk, List.prod_cons, Nat.mod_mul_mod, Nat.mul_comm])
    (shape.length - 1) ((List.replicate shape.length 0).set (shape.length - 1) 1)
    (by simp) (by omega)
    (by
      intro k hk1 hk2
      have hk : k = shape.length - 1 := by omega
      subst hk
      rw [getD_set_self _ _ _ (by simp; omega)]
      show 1 = (shape.drop (shape.length - 1 + 1)).prod % SIZE_MAX1
      rw [List.drop_of_length_le (by omega)]
      rfl)
  simpa [computeStrides, -List.getD_eq_getElem?_getD] using h

theorem ArrayBase.ctor_ok (shape : List Nat) (b : ArrayBase) (h : ArrayBase.ctor shape = .ok b) :
    b._shape = shape ∧ b._strides = computeStrides shape ∧
      b._size = shape.prod % SIZE_MAX1 ∧ b._size ≠ 0 := by
  unfold ArrayBase.ctor at h
  cases hs : computeSize shape with
  | error e => simp [hs] at h
  | ok size =>
    simp only [hs, Except.ok.injEq] at h
    obtain ⟨h1, h2⟩ := (computeSize_ok_iff shape size).mp hs
    subst h
    exact ⟨rfl, rfl, h1.symm, h2⟩

theorem prod_drop_le (shape : List Nat) (k : Nat) (h : shape.prod ≠ 0) :
    (shape.drop k).prod ≤ shape.prod := by
  have hsplit := List.prod_take_mul_prod_drop shape k
  have h1 : (shape.take k).prod ≠ 0 := by
    intro h0; rw [h0, Nat.zero_mul] at hsplit; exact h hsplit.symm
  calc (shape.drop k).prod = 1 * (shape.drop k).prod := (Nat.one_mul _).symm
    _ ≤ (shape.take k).prod * (shape.drop k).prod :=
        Nat.mul_le_mul_right _ (Nat.one_le_iff_ne_zero.mpr h1)
    _ = shape.prod := hsplit

/-- The strides of a constructed array whose size does not wrap: the products of the
dimension lengths after each dimension. -/
theorem strides_of_ctor (shape : List Nat) (b : ArrayBase)
    (h : ArrayBase.ctor shape = .ok b) (hN : 1 ≤ shape.length) (hprod : shape.prod < SIZE_MAX1) :
    shape.prod ≠ 0 ∧ b._size = shape.prod ∧
      ∀ k, k < shape.length → b._strides.getD k 0 = (shape.drop (k + 1)).prod := by
  obtain ⟨_, h2, h3, h4⟩ := ArrayBase.ctor_ok shape b h
  rw [Nat.mod_eq_of_lt hprod] at h3
  have hne : shape.prod ≠ 0 := h3 ▸ h4
  refine ⟨hne, h3, ?_⟩
  intro k hk
  rw [h2, (computeStrides_spec shape hN).2 k hk]
  exact Nat.mod_eq_of_lt (Nat.lt_of_le_of_lt (prod_drop_le shape (k + 1) hne) hprod)

theorem stepIter_eq (stride : Nat) :
    ∀ k iter, iter < SIZE_MAX1 → stepIter stride k iter = ptrAdd iter (k * stride) := by
  intro k
  induction k with
  | zero => intro iter h; rw [stepIter, Nat.zero_mul, ptrAdd_zero _ h]
  | succ k ih =>
    intro iter _
    rw [stepIter, ih _ (ptrAdd_lt _ _), ptrAdd_ptrAdd, Nat.succ_mul, Nat.add_comm]

/-- The address of a visit is the iterator the loops are entered with plus `relOffset`. -/
theorem addrFrom_eq (t : BasicArrayTraversal) :
    ∀ sfx dim iter, iter < SIZE_MAX1 →
      t.addrFrom dim iter sfx = ptrAdd iter (t.relOffset dim sfx) := by
  intro sfx
  induction sfx with
  | nil => intro dim iter h; rw [BasicArrayTraversal.addrFrom, BasicArrayTraversal.relOffset,
      ptrAdd_zero _ h]
  | cons i sfx ih =>
    intro dim iter h
    rw [BasicArrayTraversal.addrFrom, stepIter_eq _ _ _ h, ih _ _ (ptrAdd_lt _ _),
      ptrAdd_ptrAdd, BasicArrayTraversal.relOffset]

theorem mixed_radix_inj (P i j r s : Nat) (hr : r < P) (hs : s < P)
    (h : i * P + r = j * P + s) : i = j ∧ r = s := by
  rcases Nat.lt_trichotomy i j with hlt | heq | hgt
  · have := Nat.mul_le_mul_right P (Nat.succ_le_of_lt hlt)
    rw [Nat.succ_mul] at this
    omega
  · subst heq; omega
  · have := Nat.mul_le_mul_right P (Nat.succ_le_of_lt hgt)
    rw [Nat.succ_mul] at this
    omega

theorem traversal_start (v : BasicArrayView) (k : Nat) : v.traversal._start.getD k 0 = 0 :=
  getD_replicate_zero _ _

theorem traversal_end (v : BasicArrayView) : v.traversal._end = v._shape := rfl

theorem traversal_strides (v : BasicArrayView) : v.traversal._strides = v._strides := rfl

theorem traversal_NDIM (v : BasicArrayView) : v.traversal.NDIM = v._shape.length := rfl

theorem traversal_data (v : BasicArrayView) : v.traversal._data = v._data := rfl

theorem traversal_lastDim (v : BasicArrayView) :
    v.traversal._lastDim = (v.traversal.NDIM : Int) - 1 := rfl

theorem traversal_relOffset_cons (v : BasicArrayView) (dim i : Nat) (sfx : List Nat) :
    v.traversal.relOffset (dim) (i :: sfx) =
      i * v._strides.getD dim 0 + v.traversal.relOffset (dim + 1) sfx := by
  rw [BasicArrayTraversal.relOffset, traversal_start, traversal_strides, Nat.sub_zero]

theorem traversal_inBoxFrom_cons (v : BasicArrayView) (dim i : Nat) (sfx : List Nat) :
    v.traversal.inBoxFrom dim (i :: sfx) ↔
      i < v._shape.getD dim 0 ∧ v.traversal.inBoxFrom (dim + 1) sfx := by
  rw [BasicArrayTraversal.inBoxFrom, traversal_start, traversal_end]
  simp

/-- In a view whose strides are the products of the later dimension lengths, the offset of an
in-range multi-index is below the product of the dimension lengths. -/
theorem relOffset_lt (v : BasicArrayView)
    (hstr : ∀ k, k < v._shape.length → v._strides.getD k 0 = (v._shape.drop (k + 1)).prod) :
    ∀ sfx dim, dim + sfx.length = v._shape.length → v.traversal.inBoxFrom dim sfx →
      v.traversal.relOffset dim sfx < (v._shape.drop dim).prod := by
  intro sfx
  induction sfx with
  | nil =>
    intro dim h _
    rw [List.drop_of_length_le (by simp at h; omega)]
    simp [BasicArrayTraversal.relOffset]
  | cons i sfx ih =>
    intro dim h hbox
    have hdim : dim < v._shape.length := by simp at h; omega
    obtain ⟨hi, hrest⟩ := (traversal_inBoxFrom_cons v dim i sfx).mp hbox
    have hrec := ih (dim + 1) (by simp at h ⊢; omega) hrest
    rw [traversal_relOffset_cons, hstr dim hdim, drop_eq_getD_cons _ _ hdim, List.prod_cons]
    have := Nat.mul_le_mul_right (v._shape.drop (dim + 1)).prod (Nat.succ_le_of_lt hi)
    rw [Nat.succ_mul] at this
    omega

/-- In such a view, in-range multi-indexes with the same offset are the same. -/
theorem relOffset_inj (v : BasicArrayView)
    (hstr : ∀ k, k < v._shape.length → v._strides.getD k 0 = (v._shape.drop (k + 1)).prod) :
    ∀ sfx sfx1 dim, dim + sfx.length = v._shape.length → sfx1.length = sfx.length →
      v.traversal.inBoxFrom dim sfx → v.traversal.inBoxFrom dim sfx1 →
      v.traversal.relOffset dim sfx = v.traversal.relOffset dim sfx1 → sfx = sfx1 := by
  intro sfx
  induction sfx with
  | nil =>
    intro sfx1 dim _ hlen _ _ _
    exact (List.length_eq_zero.mp hlen).symm
  | cons i sfx ih =>
    intro sfx1 dim h hlen hbox hbox1 heq
    match sfx1, hlen with
    | j :: sfx1, hlen =>
      have hdim : dim < v._shape.length := by simp at h; omega
      obtain ⟨_, hrest⟩ := (traversal_inBoxFrom_cons v dim i sfx).mp hbox
      obtain ⟨_, hrest1⟩ := (traversal_inBoxFrom_cons v dim j sfx1).mp hbox1
      have hl : dim + 1 + sfx.length = v._shape.length := by simp at h ⊢; omega
      have hl1 : dim + 1 + sfx1.length = v._shape.length := by simp at hlen; omega
      rw [traversal_relOffset_cons, traversal_relOffset_cons, hstr dim hdim] at heq
      obtain ⟨hij, hr⟩ := mixed_radix_inj _ i j _ _
        (relOffset_lt v hstr sfx (dim + 1) hl hrest)
        (relOffset_lt v hstr sfx1 (dim + 1) hl1 hrest1) heq
      rw [hij, ih sfx1 (dim + 1) hl (by simpa using hlen) hrest hrest1 hr]

/-- In such a view whose size does not wrap, `computeOffset` of an in-range multi-index is
the sum of the products of index and stride. -/
theorem computeOffsetFrom_eq_relOffset (v : BasicArrayView)
    (hstr : ∀ k, k < v._shape.length → v._strides.getD k 0 = (v._shape.drop (k + 1)).prod)
    (hne : v._shape.prod ≠ 0) (hprod : v._shape.prod < SIZE_MAX1) :
    ∀ sfx i dim, dim + (sfx.length + 1) = v._shape.length →
      v.traversal.inBoxFrom dim (i :: sfx) →
      v.computeOffsetFrom dim (i :: sfx) = v.traversal.relOffset dim (i :: sfx) := by
  intro sfx
  induction sfx with
  | nil =>
    intro i dim h _
    have hdim : dim < v._shape.length := by simp at h; omega
    rw [traversal_relOffset_cons, hstr dim hdim, List.drop_of_length_le (by simp at h; omega)]
    simp [ArrayBase.computeOffsetFrom, BasicArrayTraversal.relOffset]
  | cons j sfx ih =>
    intro i dim h hbox
    have hdim : dim < v._shape.length := by simp at h; omega
    have hlt := relOffset_lt v hstr (i :: j :: sfx) dim (by simp at h ⊢; omega) hbox
    have hle := prod_drop_le v._shape dim hne
    obtain ⟨_, hrest⟩ := (traversal_inBoxFrom_cons v dim i (j :: sfx)).mp hbox
    rw [computeOffsetFrom_cons_cons, ih j (dim + 1) (by simp at h ⊢; omega) hrest,
      Nat.mod_add_mod, ← traversal_relOffset_cons]
    exact Nat.mod_eq_of_lt (by omega)

/-! ## Writing through a traversal -/

theorem runVisits_cons {σ : Type} (fn : List Nat → Nat → σ → σ) (x : List Nat × Nat)
    (w : List (List Nat × Nat)) (s : σ) :
    runVisits fn (x :: w) s = runVisits fn w (fn x.1 x.2 s) := rfl

theorem runVisits_count (w : List (List Nat × Nat)) :
    ∀ n, runVisits countFn w n = n + w.length := by
  induction w with
  | nil => intro n; rfl
  | cons x w ih => intro n; rw [runVisits_cons, ih, countFn, List.length_cons]; omega

theorem runVisits_write_frame {V : Type} (f : List Nat → V) (a : Nat)
    (w : List (List Nat × Nat)) (h : ∀ x, x ∈ w → x.2 ≠ a) :
    ∀ mem : Mem V, runVisits (writeFn f) w mem a = mem a := by
  induction w with
  | nil => intro mem; rfl
  | cons x w ih =>
    intro mem
    rw [runVisits_cons, ih (fun y hy => h y (List.mem_cons_of_mem _ hy)), writeFn,
      Mem.write_other _ _ _ _ (fun e => h x (List.mem_cons_self _ _) e.symm)]

/-- After the writes of a list of visits that is in the order `R`, a cell holds the value of
the visit of it that no other visit of it follows. -/
theorem runVisits_write_last {V : Type} (f : List Nat → V) (R : List Nat → List Nat → Prop)
    (x : List Nat × Nat) (w : List (List Nat × Nat)) (hw : (w.map Prod.fst).Pairwise R)
    (hx : x ∈ w) (hlast : ∀ y, y ∈ w → R x.1 y.1 → y.2 ≠ x.2) :
    ∀ mem : Mem V, runVisits (writeFn f) w mem x.2 = f x.1 := by
  induction w with
  | nil => cases hx
  | cons z w ih =>
    intro mem
    rw [List.map_cons, List.pairwise_cons] at hw
    rw [runVisits_cons]
    by_cases hxw : x ∈ w
    · exact ih hw.2 hxw (fun y hy => hlast y (List.mem_cons_of_mem _ hy)) _
    · have hxz : x = z := by
        rcases List.mem_cons.mp hx with h | h
        · exact h
        · exact absurd h hxw
      subst hxz
      rw [runVisits_write_frame f x.2 w, writeFn, Mem.write_same]
      intro y hy
      exact hlast y (List.mem_cons_of_mem _ hy) (hw.1 y.1 (List.mem_map.mpr ⟨y, hy, rfl⟩))

/-- The visits of the traversal of a view: the in-range multi-indexes, each at the data
pointer plus its offset. -/
theorem mem_visited_traversal (v : BasicArrayView) (hN : 1 ≤ v._shape.length)
    (hd : v._data < SIZE_MAX1) (idx : List Nat) (a : Nat) :
    (idx, a) ∈ v.traversal.visited ↔
      idx.length = v._shape.length ∧ v.traversal.inBoxFrom 0 idx ∧
        a = ptrAdd v._data (v.traversal.relOffset 0 idx) := by
  rw [BasicArrayTraversal.visited, mem_visits, traversal_NDIM, traversal_data]
  constructor
  · rintro ⟨sfx, h1, h2, h3, h4⟩
    simp only [List.nil_append] at h1
    subst h1
    exact ⟨by omega, h3, by rw [h4, addrFrom_eq _ _ _ _ hd]⟩
  · rintro ⟨h1, h2, h3⟩
    exact ⟨idx, by simp, by omega, h2, by rw [h3, addrFrom_eq _ _ _ _ hd]⟩

/-- A view whose base was constructed from `shape`, of at least one dimension and of a size
that does not wrap: after a traversal that assigns `f(idx)`, every in-range multi-index reads
`f(idx)` through the chained subscript and through the multi-index call. -/
theorem traverse_write_read {V : Type} (f : List Nat → V) (mem : Mem V) (v : BasicArrayView)
    (shape : List Nat) (hv : ArrayBase.ctor shape = .ok v.toArrayBase)
    (hN : 1 ≤ shape.length) (hprod : shape.prod < SIZE_MAX1) (hd : v._data < SIZE_MAX1) :
    ∃ mem1, v.traverse (writeFn f) mem = some mem1 ∧
      ∀ idx, idx.length = shape.length →
        (∀ k, k < shape.length → idx.getD k 0 < shape.getD k 0) →
        ∃ p, v.subscript idx = some p ∧ v.call idx = some p ∧ mem1 p = f idx := by
  obtain ⟨hshape, _, _, _⟩ := ArrayBase.ctor_ok shape _ hv
  obtain ⟨hne, _, hstr⟩ := strides_of_ctor shape _ hv hN hprod
  rw [← hshape] at hN hprod hne hstr
  simp only [← hshape]
  refine ⟨_, traverse_spec v.traversal (writeFn f) mem hN (traversal_lastDim v), ?_⟩
  intro idx hlen hrange
  have hbox : v.traversal.inBoxFrom 0 idx := by
    refine (inBoxFrom_iff _ idx 0).mpr (fun j hj => ?_)
    rw [traversal_start, traversal_end, Nat.zero_add]
    exact ⟨Nat.zero_le _, hrange j (by omega)⟩
  obtain ⟨hsub, hcall⟩ := subscript_eq_call v idx hlen hN
  have hoff : v.computeOffsetFrom 0 idx = v.traversal.relOffset 0 idx := by
    match idx, hlen, hbox with
    | [], hlen, _ => simp at hlen; omega
    | i :: sfx, hlen, hbox =>
      exact computeOffsetFrom_eq_relOffset v hstr hne hprod sfx i 0
        (by simp at hlen; omega) hbox
  have hlt : ∀ y : List Nat, y.length = v._shape.length → v.traversal.inBoxFrom 0 y →
      v.traversal.relOffset 0 y < SIZE_MAX1 := by
    intro y hy hyb
    have := relOffset_lt v hstr y 0 (by omega) hyb
    simp only [List.drop_zero] at this
    omega
  refine ⟨ptrAdd v._data (v.traversal.relOffset 0 idx), ?_, ?_, ?_⟩
  · rw [hsub, hcall, hoff]
  · rw [hcall, hoff]
  · have hx : (idx, ptrAdd v._data (v.traversal.relOffset 0 idx)) ∈ v.traversal.visited :=
      (mem_visited_traversal v hN hd _ _).mpr ⟨hlen, hbox, rfl⟩
    refine runVisits_write_last f (List.Lex (· < ·)) _ _ (visits_sorted _ _ _ _ _) hx ?_ mem
    intro y hy hlex hsame
    obtain ⟨hy1, hy2, hy3⟩ := (mem_visited_traversal v hN hd y.1 y.2).mp hy
    rw [hy3] at hsame
    have hoffs := ptrAdd_inj _ _ _ (hlt _ hy1 hy2) (hlt _ hlen hbox) hsame
    have := relOffset_inj v hstr y.1 idx 0 (by omega) (by omega) hy2 hbox hoffs
    exact lex_ne _ _ hlex this.symm

/-! ## Cloning -/

/-- The clone of an array has the members of the view of the original, the data pointer
included, and a container of its own in newly allocated cells. -/
theorem cloneT_ok {V : Type} (h h1 : Heap V) (a c : BasicArray)
    (hc : BasicArray.cloneT h a = .ok (c, h1)) :
    c.toArrayBase = a.toArrayBase ∧ c._data = a._data ∧ c.addr = h.brk ∧
      c._container._begin = h.brk + 1 ∧ c._container._length = a._container._length := by
  unfold BasicArray.cloneT BasicArray.clone BasicArray.ctorCopy StdVector.ctorCopy
    Heap.allocate at hc
  by_cases h1lt : h.brk + 1 < SIZE_MAX1
  · by_cases h2lt : h.brk + 1 + a._container._length < SIZE_MAX1
    · simp only [h1lt, h2lt, if_true, Except.ok.injEq, Prod.mk.injEq] at hc
      obtain ⟨hc1, _⟩ := hc
      subst hc1
      exact ⟨rfl, rfl, rfl, rfl, rfl⟩
    · simp [h1lt, h2lt] at hc
  · simp [h1lt] at hc

/-! ## Strides and offsets in `size_t` arithmetic -/

theorem sum_range_succ_shift (g : Nat → Nat) (n : Nat) :
    ((List.range (n + 1)).map g).sum = g 0 + ((List.range n).map (fun j => g (j + 1))).sum := by
  rw [List.range_succ_eq_map, List.map_cons, List.sum_cons, List.map_map]
  rfl

theorem dotFrom_eq_sum (strides : List Nat) :
    ∀ idx DIM, dotFrom strides DIM idx =
      ((List.range idx.length).map
        (fun j => idx.getD j 0 * strides.getD (DIM + j) 0)).sum := by
  intro idx
  induction idx with
  | nil => intro DIM; rfl
  | cons i idx ih =>
    intro DIM
    rw [dotFrom, ih, List.length_cons, sum_range_succ_shift]
    congr 1
    refine congrArg List.sum (List.map_congr_left (fun j _ => ?_))
    show idx.getD j 0 * strides.getD (DIM + 1 + j) 0 = _
    rw [List.getD_cons_succ, show DIM + 1 + j = DIM + (j + 1) by omega]

theorem dotFrom_zero_eq_offsetSum (strides idx : List Nat) :
    dotFrom strides 0 idx = offsetSum strides idx idx.length := by
  rw [dotFrom_eq_sum, offsetSum]
  refine congrArg List.sum (List.map_congr_left (fun j _ => ?_))
  rw [Nat.zero_add]

/-- `computeOffset<DIM>` of indexes that are `size_t` values, in an array whose last stride
is `1`: the sum of the products of index and stride, modulo `2^64`. -/
theorem computeOffsetFrom_eq_dotFrom (b : ArrayBase) (NDIM : Nat)
    (hlast : b._strides.getD (NDIM - 1) 0 = 1) :
    ∀ idx i DIM, DIM + (idx.length + 1) = NDIM → (∀ x, x ∈ i :: idx → x < SIZE_MAX1) →
      b.computeOffsetFrom DIM (i :: idx) = dotFrom b._strides DIM (i :: idx) % SIZE_MAX1 := by
  intro idx
  induction idx with
  | nil =>
    intro i DIM h hx
    have hD : DIM = NDIM - 1 := by simp at h; omega
    have hi : i < SIZE_MAX1 := hx i (List.mem_cons_self _ _)
    rw [ArrayBase.computeOffsetFrom, dotFrom, dotFrom, hD, hlast, Nat.mul_one, Nat.add_zero,
      Nat.mod_eq_of_lt hi]
  | cons j idx ih =>
    intro i DIM h hx
    rw [computeOffsetFrom_cons_cons,
      ih j (DIM + 1) (by simp at h ⊢; omega) (fun x hxm => hx x (List.mem_cons_of_mem _ hxm)),
      Nat.mod_add_mod, Nat.add_mod_mod]
    rfl

/-- The strides of `computeStrides`: the last one is `1`, and each other one is the product,
in `size_t` arithmetic, of the next stride and the next dimension length. -/
theorem computeStrides_rec (shape : List Nat) (hN : 1 ≤ shape.length) :
    (computeStrides shape).getD (shape.length - 1) 0 = 1 ∧
      ∀ i, i + 1 < shape.length →
        (computeStrides shape).getD i 0 =
          (computeStrides shape).getD (i + 1) 0 * shape.getD (i + 1) 0 % SIZE_MAX1 := by
  obtain ⟨_, hs⟩ := computeStrides_spec shape hN
  constructor
  · rw [hs _ (by omega), List.drop_of_length_le (by omega)]
    rfl
  · intro i hi
    rw [hs i (by omega), hs (i + 1) hi, drop_eq_getD_cons shape (i + 1) hi, List.prod_cons,
      Nat.mod_mul_mod, Nat.mul_comm]

theorem access_congr (v w : BasicArrayView) (hb : v.toArrayBase = w.toArrayBase)
    (hd : v._data = w._data) (idx : List Nat) :
    v.call idx = w.call idx ∧ v.subscript idx = w.subscript idx := by
  obtain ⟨vb, vd, va⟩ := v
  obtain ⟨wb, wd, wa⟩ := w
  simp only at hb hd
  subst hb hd
  refine ⟨rfl, ?_⟩
  cases idx with
  | nil => rfl
  | cons i idx => rfl

/-- Cloning leaves the cells below the allocator's mark as they are. -/
theorem cloneT_mem {V : Type} (h h1 : Heap V) (a c : BasicArray)
    (hc : BasicArray.cloneT h a = .ok (c, h1)) (q : Nat) (hq : q < h.brk) :
    h1.mem q = h.mem q := by
  unfold BasicArray.cloneT BasicArray.clone BasicArray.ctorCopy StdVector.ctorCopy
    Heap.allocate at hc
  by_cases h1lt : h.brk + 1 < SIZE_MAX1
  · by_cases h2lt : h.brk + 1 + a._container._length < SIZE_MAX1
    · simp only [h1lt, h2lt, if_true, Except.ok.injEq, Prod.mk.injEq] at hc
      obtain ⟨_, hc2⟩ := hc
      subst hc2
      have : ¬ (h.brk + 1 ≤ q ∧ q < h.brk + 1 + a._container._length) := by omega
      simp [this]
    · simp [h1lt, h2lt] at hc
  · simp [h1lt] at hc

/-- The comparison of a view with a view of the same cells, of the same shape and size, is
true when every element compares equal to itself. -/
theorem compare_same_cells {V : Type} [BEq V] (eq : V → V → Bool) (mem : Mem V)
    (v w : BasicArrayView)
    (hb : v.toArrayBase = w.toArrayBase) (hdata : v._data = w._data)
    (hd : v._data < SIZE_MAX1) (hn : v._size < SIZE_MAX1)
    (hself : ∀ q, q < v._size →
      (mem (ptrAdd v._data q) == mem (ptrAdd v._data q)) = true ∧
      eq (mem (ptrAdd v._data q)) (mem (ptrAdd v._data q)) = true) :
    v.operatorEq mem w = some true ∧ v.equalValue eq mem w = some true := by
  have hshape : v._shape = w._shape := by rw [hb]
  have hsize : v._size = w._size := by rw [hb]
  by_cases haddr : v.addr = w.addr
  · simp [BasicArrayView.operatorEq, BasicArrayView.equalValue, haddr]
  · constructor
    · obtain ⟨b, hb1, hb2⟩ := operatorEq_iff mem v w haddr hd (hdata ▸ hd) hn
      have : b = true :=
        hb2.mpr ⟨hshape, fun p hp => by rw [← hdata]; exact (hself p (by omega)).1⟩
      rw [hb1, this]
    · obtain ⟨b, hb1, hb2⟩ := equalValue_iff eq mem v w haddr hd (hdata ▸ hd) hn
      have : b = true :=
        hb2.mpr ⟨hsize, fun p hp => by rw [← hdata]; exact (hself p (by omega)).2⟩
      rw [hb1, this]

/-! ## Copying and comparing -/

/-- The copy loop between two buffers that share cells only position by position, the
conversion leaving the elements of shared cells as they are: the destination gets the
converted elements of the source, and the source keeps its elements. -/
theorem copyFrom_aligned {V : Type} (conv : V → V) (d s n : Nat) (hn : n < SIZE_MAX1)
    (mem0 : Mem V)
    (hpos : ∀ p q, p < n → q < n → ptrAdd d p = ptrAdd s q → p = q)
    (hfix : ∀ p, p < n → ptrAdd d p = ptrAdd s p →
      conv (mem0 (ptrAdd s p)) = mem0 (ptrAdd s p)) :
    ∀ r k (mem : Mem V), k + r = n → (∀ q, q < n → mem (ptrAdd s q) = mem0 (ptrAdd s q)) →
      (∀ p, k ≤ p → p < n →
        copyFrom conv d s r k mem (ptrAdd d p) = conv (mem0 (ptrAdd s p))) ∧
      (∀ q, q < n → copyFrom conv d s r k mem (ptrAdd s q) = mem0 (ptrAdd s q)) := by
  intro r
  induction r with
  | zero =>
    intro k mem hk hsrc
    exact ⟨fun p h1 h2 => by omega, fun q hq => hsrc q hq⟩
  | succ r ih =>
    intro k mem hk hsrc
    have hk' : k < n := by omega
    have hsrc1 : ∀ q, q < n →
        (mem.write (ptrAdd d k) (conv (mem (ptrAdd s k)))) (ptrAdd s q) = mem0 (ptrAdd s q) := by
      intro q hq
      by_cases hsame : ptrAdd s q = ptrAdd d k
      · have hqk : k = q := hpos k q hk' hq hsame.symm
        subst hqk
        rw [hsame, Mem.write_same, ← hsame, hsrc k hk']
        exact hfix k hk' hsame.symm
      · rw [Mem.write_other _ _ _ _ hsame]
        exact hsrc q hq
    obtain ⟨ih1, ih2⟩ := ih (k + 1) _ (by omega) hsrc1
    rw [copyFrom]
    refine ⟨?_, ih2⟩
    intro p hp1 hp2
    by_cases hpk : p = k
    · subst hpk
      rw [copyFrom_frame conv d s r (p + 1) _ (ptrAdd d p)
        (fun q hq1 hq2 => ptrAdd_ne_of_lt d p q (by omega) (by omega)),
        Mem.write_same, hsrc p hp2]
    · exact ih1 p (by omega) hp2

/-- What `dst << src` leaves, for distinct views of one size whose storage does not overlap,
or overlaps position by position only. -/
theorem operatorShl_aligned {V : Type} (conv : V → V) (mem : Mem V) (dst src : BasicArrayView)
    (hdistinct : dst.addr ≠ src.addr) (hd : dst._data < SIZE_MAX1) (hs : src._data < SIZE_MAX1)
    (hn : dst._size < SIZE_MAX1) (hsize : dst._size = src._size)
    (hpos : ∀ p q, p < dst._size → q < dst._size →
      ptrAdd dst._data p = ptrAdd src._data q → p = q)
    (hfix : ∀ p, p < dst._size → ptrAdd dst._data p = ptrAdd src._data p →
      conv (mem (ptrAdd src._data p)) = mem (ptrAdd src._data p)) :
    ∃ r, dst.operatorShl conv mem src = some r ∧ r.raised = none ∧ r.self = dst ∧
      (∀ p, p < dst._size → r.mem (ptrAdd dst._data p) = conv (mem (ptrAdd src._data p))) ∧
      (∀ q, q < dst._size → r.mem (ptrAdd src._data q) = mem (ptrAdd src._data q)) ∧
      (∀ a, (∀ p, p < dst._size → a ≠ ptrAdd dst._data p) → r.mem a = mem a) := by
  obtain ⟨h1, h2⟩ := copyFrom_aligned conv dst._data src._data dst._size hn mem hpos hfix
    dst._size 0 mem (by omega) (fun _ _ => rfl)
  refine ⟨_, operatorShl_eq conv mem dst src hdistinct hd hs hn, ?_, ?_, ?_, ?_, ?_⟩
  · simp [hsize]
  · simp [hsize]
  · intro p hp
    simp only [hsize, ne_eq, not_true_eq_false, if_false]
    rw [← hsize]
    exact h1 p (Nat.zero_le p) hp
  · intro q hq
    simp only [hsize, ne_eq, not_true_eq_false, if_false]
    rw [← hsize]
    exact h2 q hq
  · intro a ha
    simp only [hsize, ne_eq, not_true_eq_false, if_false]
    rw [← hsize]
    exact copyFrom_frame conv dst._data src._data dst._size 0 mem a
      (fun p _ hp2 => ha p (by omega))

/-- What `dst << src` leaves, for views of one size that share cells only position by
position, the conversion leaving the elements of shared cells as they are; `dst` and `src` may
be one object. -/
theorem operatorShl_result {V : Type} (conv : V → V) (mem : Mem V) (dst src : BasicArrayView)
    (hobj : dst.addr = src.addr → dst._data = src._data)
    (hd : dst._data < SIZE_MAX1) (hs : src._data < SIZE_MAX1)
    (hn : dst._size < SIZE_MAX1) (hsize : dst._size = src._size)
    (hpos : ∀ p q, p < dst._size → q < dst._size →
      ptrAdd dst._data p = ptrAdd src._data q → p = q)
    (hfix : ∀ p, p < dst._size → ptrAdd dst._data p = ptrAdd src._data p →
      conv (mem (ptrAdd src._data p)) = mem (ptrAdd src._data p)) :
    ∃ r, dst.operatorShl conv mem src = some r ∧ r.raised = none ∧ r.self = dst ∧
      (∀ p, p < dst._size → r.mem (ptrAdd dst._data p) = conv (mem (ptrAdd src._data p))) ∧
      (∀ q, q < dst._size → r.mem (ptrAdd src._data q) = mem (ptrAdd src._data q)) ∧
      (∀ a, (∀ p, p < dst._size → a ≠ ptrAdd dst._data p) → r.mem a = mem a) := by
  by_cases haddr : dst.addr = src.addr
  · refine ⟨{ raised := none, self := dst, mem := mem }, ?_, rfl, rfl, ?_, fun _ _ => rfl,
      fun _ _ => rfl⟩
    · simp [BasicArrayView.operatorShl, haddr]
    · intro p hp
      have hsame : ptrAdd dst._data p = ptrAdd src._data p := by rw [hobj haddr]
      show mem (ptrAdd dst._data p) = _
      rw [hfix p hp hsame, hsame]
  · exact operatorShl_aligned conv mem dst src haddr hd hs hn hsize hpos hfix

/-- `c.equalValue(src)` is true for a view `c` whose elements are, position by position, the
converted elements of `src`, when the conversion preserves the values. -/
theorem equalValue_of_converted {V : Type} (conv : V → V) (eq : V → V → Bool)
    (mem mem0 : Mem V) (c src : BasicArrayView)
    (hd : c._data < SIZE_MAX1) (hs : src._data < SIZE_MAX1) (hn : c._size < SIZE_MAX1)
    (hsize : c._size = src._size)
    (hc : ∀ p, p < c._size → mem (ptrAdd c._data p) = conv (mem0 (ptrAdd src._data p)))
    (hsrc : ∀ q, q < c._size → mem (ptrAdd src._data q) = mem0 (ptrAdd src._data q))
    (hval : ∀ p, p < c._size →
      eq (conv (mem0 (ptrAdd src._data p))) (mem0 (ptrAdd src._data p)) = true) :
    c.equalValue eq mem src = some true := by
  by_cases haddr : c.addr = src.addr
  · simp [BasicArrayView.equalValue, haddr]
  · obtain ⟨b, hb1, hb2⟩ := equalValue_iff eq mem c src haddr hd hs hn
    have : b = true := hb2.mpr ⟨hsize, fun p hp => by
      rw [hc p (by omega), hsrc p (by omega)]
      exact hval p (by omega)⟩
    rw [hb1, this]

/-! ## Constructing an array -/

/-- What the constructor `BasicArray(shape, value)` builds when it returns. -/
theorem ctorFill_ok {V : Type} (h h1 : Heap V) (addr : Nat) (shape : List Nat) (value : V)
    (a : BasicArray) (hc : BasicArray.ctorFill h addr shape value = .ok (a, h1)) :
    ArrayBase.ctor shape = .ok a.toArrayBase ∧ a._data = h.brk ∧ a.addr = addr ∧
      a._container = { _begin := h.brk, _length := a._size } ∧
      h.brk + a._size < SIZE_MAX1 ∧ h1.brk = h.brk + a._size ∧
      ∀ q, h1.mem q = if h.brk ≤ q ∧ q < h.brk + a._size then value else h.mem q := by
  unfold BasicArray.ctorFill BasicArrayView.ctorProtected at hc
  cases hb : ArrayBase.ctor shape with
  | error e => simp [hb] at hc
  | ok b =>
    simp only [hb, StdVector.ctorFill, Heap.allocate, ArrayBase.size] at hc
    by_cases hlt : h.brk + b._size < SIZE_MAX1
    · simp only [hlt, if_true, Except.ok.injEq, Prod.mk.injEq] at hc
      obtain ⟨hc1, hc2⟩ := hc
      subst hc1 hc2
      exact ⟨rfl, rfl, rfl, rfl, hlt, rfl, fun _ => rfl⟩
    · simp [hlt] at hc

/-- In a view constructed from a shape of at least one dimension whose size does not wrap,
both access paths resolve an in-range multi-index to a storage position below the size. -/
theorem access_in_range (v : BasicArrayView) (shape : List Nat)
    (hv : ArrayBase.ctor shape = .ok v.toArrayBase) (hN : 1 ≤ shape.length)
    (hprod : shape.prod < SIZE_MAX1) (idx : List Nat) (hlen : idx.length = shape.length)
    (hrange : ∀ k, k < shape.length → idx.getD k 0 < shape.getD k 0) :
    v.computeOffsetFrom 0 idx < v._size ∧
      v.computeOffset idx = some (v.computeOffsetFrom 0 idx) ∧
      v.call idx = some (ptrAdd v._data (v.computeOffsetFrom 0 idx)) ∧
      v.subscript idx = some (ptrAdd v._data (v.computeOffsetFrom 0 idx)) := by
  obtain ⟨hshape, _, _, _⟩ := ArrayBase.ctor_ok shape _ hv
  obtain ⟨hne, hsize, hstr⟩ := strides_of_ctor shape _ hv hN hprod
  rw [← hshape] at hN hprod hne hstr hlen hrange hsize
  have hbox : v.traversal.inBoxFrom 0 idx := by
    refine (inBoxFrom_iff _ idx 0).mpr (fun j hj => ?_)
    rw [traversal_start, traversal_end, Nat.zero_add]
    exact ⟨Nat.zero_le _, hrange j (by omega)⟩
  obtain ⟨hsub, hcall⟩ := subscript_eq_call v idx hlen hN
  have hoff : v.computeOffsetFrom 0 idx = v.traversal.relOffset 0 idx := by
    match idx, hlen, hbox with
    | [], hlen, _ => simp at hlen; omega
    | i :: sfx, hlen, hbox =>
      exact computeOffsetFrom_eq_relOffset v hstr hne hprod sfx i 0
        (by simp at hlen; omega) hbox
  have hlt := relOffset_lt v hstr idx 0 (by omega) hbox
  simp only [List.drop_zero] at hlt
  refine ⟨by rw [hoff, hsize]; exact hlt, by simp [ArrayBase.computeOffset, hlen], hcall,
    hsub.trans hcall⟩

/-! ## The addresses of a traversal -/

theorem relOffset_eq_sum (t : BasicArrayTraversal) :
    ∀ sfx dim, t.relOffset dim sfx =
      ((List.range sfx.length).map
        (fun j => (sfx.getD j 0 - t._start.getD (dim + j) 0) * t._strides.getD (dim + j) 0)).sum := by
  intro sfx
  induction sfx with
  | nil => intro dim; rfl
  | cons i sfx ih =>
    intro dim
    rw [BasicArrayTraversal.relOffset, ih, List.length_cons, sum_range_succ_shift]
    congr 1
    refine congrArg List.sum (List.map_congr_left (fun j _ => ?_))
    show (sfx.getD j 0 - t._start.getD (dim + 1 + j) 0) * t._strides.getD (dim + 1 + j) 0 = _
    rw [List.getD_cons_succ, show dim + 1 + j = dim + (j + 1) by omega]

theorem relOffset_zero_eq_relOffsetSum (t : BasicArrayTraversal) (idx : List Nat) :
    t.relOffset 0 idx = relOffsetSum t._start t._strides idx idx.length := by
  rw [relOffset_eq_sum, relOffsetSum]
  refine congrArg List.sum (List.map_congr_left (fun j _ => ?_))
  rw [Nat.zero_add]

theorem relOffsetSum_zero_start (start strides idx : List Nat) (n : Nat)
    (h0 : ∀ k, k < n → start.getD k 0 = 0) :
    relOffsetSum start strides idx n = offsetSum strides idx n := by
  rw [relOffsetSum, offsetSum]
  refine congrArg List.sum (List.map_congr_left (fun k hk => ?_))
  rw [h0 k (List.mem_range.mp hk), Nat.sub_zero]

theorem runVisits_log (w : List (List Nat × Nat)) :
    ∀ log, runVisits logFn w log = log ++ w := by
  induction w with
  | nil => intro log; simp [runVisits]
  | cons x w ih =>
    intro log
    rw [runVisits_cons, ih, logFn]
    simp

/-- The address of every visit of a traversal of at least one dimension from a base pointer
`data`: `data` plus the sum of `(idx[k] - start[k]) * strides[k]`. -/
theorem visited_address (t : BasicArrayTraversal) (hN : 1 ≤ t.NDIM)
    (hd : t._data < SIZE_MAX1) (idx : List Nat) (a : Nat) (hx : (idx, a) ∈ t.visited) :
    idx.length = t.NDIM ∧
      a = ptrAdd t._data (relOffsetSum t._start t._strides idx t.NDIM) := by
  obtain ⟨sfx, h1, h2, _, h4⟩ := (mem_visits t _ _ _ _ _ _).mp hx
  simp only [List.nil_append] at h1
  subst h1
  have hlen : idx.length = t.NDIM := by omega
  refine ⟨hlen, ?_⟩
  rw [h4, addrFrom_eq _ _ _ _ hd, relOffset_zero_eq_relOffsetSum, hlen]

/-! ## Integer equality -/

theorem pow_le_size (b : Nat) (hb : b ≤ 64) : (2 : Int) ^ b ≤ (SIZE_MAX1 : Int) := by
  have h : (2 : Nat) ^ b ≤ 2 ^ 64 := Nat.pow_le_pow_right (by omega) hb
  have h2 : ((2 ^ b : Nat) : Int) ≤ ((2 ^ 64 : Nat) : Int) := Int.ofNat_le.mpr h
  simpa [SIZE_MAX1] using h2

theorem toSizeT_of_nonneg (v : Int) (h0 : 0 ≤ v) (hlt : v < (SIZE_MAX1 : Int)) :
    util.toSizeT v = v := by
  unfold util.toSizeT
  exact Int.emod_eq_of_lt h0 hlt

/-- The values of a signed type of at most 64 bits are below `2^64`. -/
theorem holds_signed_lt (T : util.IntType) (v : Int) (hs : T.isSigned = true)
    (hb : T.bits ≤ 64) (hv : T.holds v) : v < (SIZE_MAX1 : Int) := by
  unfold util.IntType.holds at hv
  rw [if_pos hs] at hv
  exact Int.lt_of_lt_of_le hv.2 (pow_le_size _ (by omega))

theorem holds_unsigned (T : util.IntType) (v : Int) (hs : T.isSigned = false)
    (hv : T.holds v) : 0 ≤ v := by
  unfold util.IntType.holds at hv
  rw [if_neg (by simp [hs])] at hv
  exact hv.1

/-- `util::eq_int` on values of their types: true exactly for equal integers. -/
theorem eq_int_iff (T1 T2 : util.IntType) (v1 v2 : Int) (hb1 : T1.bits ≤ 64)
    (hb2 : T2.bits ≤ 64) (h1 : T1.holds v1) (h2 : T2.holds v2) :
    util.eq_int T1 T2 v1 v2 = true ↔ v1 = v2 := by
  unfold util.eq_int
  by_cases hs1 : T1.isSigned = true
  · by_cases hs2 : T2.isSigned = true
    · simp [hs1, hs2]
    · have hs2f : T2.isSigned = false := by simpa using hs2
      have h20 := holds_unsigned T2 v2 hs2f h2
      have h1lt := holds_signed_lt T1 v1 hs1 hb1 h1
      simp only [hs1, hs2f, Bool.false_eq_true, not_false_eq_true, and_self, if_true,
        Bool.and_eq_true, decide_eq_true_eq, beq_iff_eq]
      constructor
      · rintro ⟨h0, he⟩
        rw [toSizeT_of_nonneg v1 h0 h1lt] at he
        exact he
      · intro he
        subst he
        exact ⟨h20, toSizeT_of_nonneg v1 h20 h1lt⟩
  · have hs1f : T1.isSigned = false := by simpa using hs1
    have h10 := holds_unsigned T1 v1 hs1f h1
    by_cases hs2 : T2.isSigned = true
    · have h2lt := holds_signed_lt T2 v2 hs2 hb2 h2
      simp only [hs1f, hs2, Bool.false_eq_true, not_true_eq_false, and_false, if_false,
        not_false_eq_true, and_self, if_true, Bool.and_eq_true, decide_eq_true_eq, beq_iff_eq]
      constructor
      · rintro ⟨h0, he⟩
        rw [toSizeT_of_nonneg v2 h0 h2lt] at he
        exact he
      · intro he
        subst he
        exact ⟨h10, (toSizeT_of_nonneg v1 h10 h2lt).symm⟩
    · have hs2f : T2.isSigned = false := by simpa using hs2
      simp [hs1f, hs2f]

/-! ## Storage order -/

/-- A shape whose dimension lengths are all at least one and whose product is below `2^64` is
accepted by the constructor, with the product as the size. -/
theorem ctor_of_positive (shape : List Nat) (hdims : ∀ d, d ∈ shape → 1 ≤ d)
    (hprod : shape.prod < SIZE_MAX1) :
    ArrayBase.ctor shape =
      .ok { _size := shape.prod, _shape := shape, _strides := computeStrides shape } := by
  have hne : shape.prod ≠ 0 := by
    intro h0
    have := hdims 0 (List.prod_eq_zero_iff.mp h0)
    omega
  have hs : computeSize shape = .ok shape.prod :=
    (computeSize_ok_iff shape shape.prod).mpr ⟨Nat.mod_eq_of_lt hprod, hne⟩
  simp [ArrayBase.ctor, hs]

theorem inBoxFrom_of_inRange (v : BasicArrayView) (idx : List Nat)
    (h : inRange v._shape idx) : v.traversal.inBoxFrom 0 idx := by
  refine (inBoxFrom_iff _ idx 0).mpr (fun j hj => ?_)
  rw [traversal_start, traversal_end, Nat.zero_add]
  exact ⟨Nat.zero_le _, h.2 j (by have := h.1; omega)⟩

theorem inRange_of_inBoxFrom (v : BasicArrayView) (idx : List Nat)
    (hlen : idx.length = v._shape.length) (h : v.traversal.inBoxFrom 0 idx) :
    inRange v._shape idx := by
  refine ⟨hlen, fun k hk => ?_⟩
  have := ((inBoxFrom_iff _ idx 0).mp h k (by omega)).2
  rwa [traversal_end, Nat.zero_add] at this

/-- The addresses of one `for` loop whose every pass visits `c` consecutive cells and whose
stride is `c`: the `n * c` consecutive cells from the iterator on. -/
theorem loopVisits_addresses (inner : Nat → List Nat → List (List Nat × Nat)) (c : Nat)
    (pre : List Nat)
    (hinner : ∀ iter pre1, iter < SIZE_MAX1 →
      (inner iter pre1).map Prod.snd = (List.range c).map (fun q => ptrAdd iter q)) :
    ∀ n i iter, iter < SIZE_MAX1 →
      (loopVisits inner c pre n i iter).map Prod.snd =
        (List.range (n * c)).map (fun q => ptrAdd iter q) := by
  intro n
  induction n with
  | zero => intro i iter _; simp [loopVisits]
  | succ n ih =>
    intro i iter hiter
    rw [loopVisits, List.map_append, hinner _ _ hiter, ih _ _ (ptrAdd_lt _ _),
      show (n + 1) * c = c + n * c by rw [Nat.succ_mul, Nat.add_comm], List.range_add,
      List.map_append, List.map_map]
    congr 1
    refine List.map_congr_left (fun q _ => ?_)
    exact ptrAdd_ptrAdd _ _ _

/-- In a view whose strides are the products of the later dimension lengths, the visits of
`iterate` on dimension `dim` are at consecutive cells from the iterator on. -/
theorem visits_addresses (v : BasicArrayView)
    (hstr : ∀ k, k < v._shape.length → v._strides.getD k 0 = (v._shape.drop (k + 1)).prod) :
    ∀ rem dim iter pre, dim + rem + 1 = v._shape.length → iter < SIZE_MAX1 →
      (v.traversal.visits rem dim iter pre).map Prod.snd =
        (List.range (v._shape.drop dim).prod).map (fun q => ptrAdd iter q) := by
  intro rem
  induction rem with
  | zero =>
    intro dim iter pre h hiter
    have hdim : dim < v._shape.length := by omega
    have h1 : v._strides.getD dim 0 = 1 := by
      rw [hstr dim hdim, List.drop_of_length_le (by omega)]; rfl
    rw [BasicArrayTraversal.visits, traversal_start, traversal_end, traversal_strides, h1,
      Nat.sub_zero, loopVisits_addresses _ 1 pre _ _ _ _ hiter, drop_eq_getD_cons _ _ hdim,
      List.prod_cons, List.drop_of_length_le (by omega)]
    · rfl
    · intro iter1 pre1 h1
      show [iter1] = [ptrAdd iter1 0]
      rw [ptrAdd_zero _ h1]
  | succ rem ih =>
    intro dim iter pre h hiter
    have hdim : dim < v._shape.length := by omega
    rw [BasicArrayTraversal.visits, traversal_start, traversal_end, traversal_strides,
      hstr dim hdim, Nat.sub_zero, loopVisits_addresses _ _ pre _ _ _ _ hiter,
      drop_eq_getD_cons _ _ hdim, List.prod_cons]
    intro iter1 pre1 h1
    exact ih (dim + 1) iter1 pre1 (by omega) h1

/-- The addresses of the visits of the traversal of a view constructed from a shape of at
least one dimension whose size does not wrap, in the order of the visits: the data pointer
plus `0, 1, ..., size - 1`. -/
theorem visited_addresses (v : BasicArrayView) (shape : List Nat)
    (hv : ArrayBase.ctor shape = .ok v.toArrayBase) (hN : 1 ≤ shape.length)
    (hprod : shape.prod < SIZE_MAX1) (hd : v._data < SIZE_MAX1) :
    v.traversal.visited.map Prod.snd = (List.range v._size).map (fun q => ptrAdd v._data q) := by
  obtain ⟨hshape, _, _, _⟩ := ArrayBase.ctor_ok shape _ hv
  obtain ⟨_, hsize, hstr⟩ := strides_of_ctor shape _ hv hN hprod
  rw [← hshape] at hN hstr hsize
  rw [BasicArrayTraversal.visited, traversal_NDIM, traversal_data,
    visits_addresses v hstr _ 0 _ _ (by omega) hd, List.drop_zero, hsize]

/-- In such a view every storage position below the size is the offset of an in-range
multi-index. -/
theorem offset_onto (v : BasicArrayView) (shape : List Nat)
    (hv : ArrayBase.ctor shape = .ok v.toArrayBase) (hN : 1 ≤ shape.length)
    (hprod : shape.prod < SIZE_MAX1) (hd : v._data < SIZE_MAX1) (q : Nat) (hq : q < v._size) :
    ∃ idx, inRange shape idx ∧ v.computeOffsetFrom 0 idx = q ∧
      (idx, ptrAdd v._data q) ∈ v.traversal.visited := by
  obtain ⟨hshape, _, _, _⟩ := ArrayBase.ctor_ok shape _ hv
  obtain ⟨hne, hsize, hstr⟩ := strides_of_ctor shape _ hv hN hprod
  have hmem : ptrAdd v._data q ∈ v.traversal.visited.map Prod.snd := by
    rw [visited_addresses v shape hv hN hprod hd]
    exact List.mem_map.mpr ⟨q, List.mem_range.mpr hq, rfl⟩
  obtain ⟨⟨idx, a⟩, hx, ha⟩ := List.mem_map.mp hmem
  simp only at ha
  subst ha
  rw [← hshape] at hN hprod hne hstr hsize
  obtain ⟨hlen, hbox, haddr⟩ := (mem_visited_traversal v hN hd idx _).mp hx
  have hlt := relOffset_lt v hstr idx 0 (by omega) hbox
  simp only [List.drop_zero] at hlt
  have hrel : v.traversal.relOffset 0 idx = q :=
    (ptrAdd_inj v._data _ _ (by omega) (by omega) haddr).symm
  have hoff : v.computeOffsetFrom 0 idx = v.traversal.relOffset 0 idx := by
    match idx, hlen, hbox with
    | [], hlen, _ => simp at hlen; omega
    | i :: sfx, hlen, hbox =>
      exact computeOffsetFrom_eq_relOffset v hstr hne hprod sfx i 0
        (by simp at hlen; omega) hbox
  refine ⟨idx, ?_, hoff.trans hrel, ?_⟩
  · rw [← hshape]; exact inRange_of_inBoxFrom v idx hlen hbox
  · exact hx

/-- An iteration over `n` positions from `first` returns, having reached `first`, `first + 1`,
..., `first + (n - 1)` in this order. -/
theorem iteration_eq :
    ∀ n first, n < SIZE_MAX1 → first < SIZE_MAX1 →
      iteration (ptrAdd first n) (n + 1) first =
        some ((List.range n).map (fun q => ptrAdd first q)) := by
  intro n
  induction n with
  | zero =>
    intro first _ hf
    simp [iteration, ptrAdd_zero first hf]
  | succ n ih =>
    intro first hn hf
    have hne : first ≠ ptrAdd first (n + 1) := by
      have := ptrAdd_ne_of_lt first 0 (n + 1) (by omega) hn
      rwa [ptrAdd_zero first hf] at this
    have hlast : ptrAdd first (n + 1) = ptrAdd (ptrAdd first 1) n := by
      rw [ptrAdd_ptrAdd, Nat.add_comm]
    rw [iteration, if_pos hne, hlast, ih (ptrAdd first 1) (by omega) (ptrAdd_lt _ _)]
    show some (first :: (List.range n).map (fun q => ptrAdd (ptrAdd first 1) q)) = _
    rw [List.range_succ_eq_map, List.map_cons, List.map_map, ptrAdd_zero first hf]
    congr 2
    refine List.map_congr_left (fun q _ => ?_)
    show ptrAdd (ptrAdd first 1) q = ptrAdd first (q + 1)
    rw [ptrAdd_ptrAdd, Nat.add_comm]

/-- In a view constructed from a shape of at least one dimension whose size does not wrap,
in-range multi-indexes with the same offset are the same. -/
theorem offset_inj (v : BasicArrayView) (shape : List Nat)
    (hv : ArrayBase.ctor shape = .ok v.toArrayBase) (hN : 1 ≤ shape.length)
    (hprod : shape.prod < SIZE_MAX1) (idx idx1 : List Nat) (h : inRange shape idx)
    (h1 : inRange shape idx1) (heq : v.computeOffsetFrom 0 idx = v.computeOffsetFrom 0 idx1) :
    idx = idx1 := by
  obtain ⟨hshape, _, _, _⟩ := ArrayBase.ctor_ok shape _ hv
  obtain ⟨hne, _, hstr⟩ := strides_of_ctor shape _ hv hN hprod
  rw [← hshape] at hN hprod hne hstr h h1
  have hoff : ∀ idx, inRange v._shape idx →
      v.computeOffsetFrom 0 idx = v.traversal.relOffset 0 idx := by
    intro idx hin
    have hbox := inBoxFrom_of_inRange v idx hin
    match idx, hin.1, hbox with
    | [], hlen, _ => simp at hlen; omega
    | i :: sfx, hlen, hbox =>
      exact computeOffsetFrom_eq_relOffset v hstr hne hprod sfx i 0
        (by simp at hlen; omega) hbox
  rw [hoff idx h, hoff idx1 h1] at heq
  exact relOffset_inj v hstr idx idx1 0 (by have := h.1; omega) (h1.1.trans h.1.symm)
    (inBoxFrom_of_inRange v idx h) (inBoxFrom_of_inRange v idx1 h1) heq

/-! ## A traversal that leaves the storage -/

theorem prod_drop_ne_zero (shape : List Nat) (k : Nat) (h : shape.prod ≠ 0) :
    (shape.drop k).prod ≠ 0 := by
  intro h0
  have hsplit := List.prod_take_mul_prod_drop shape k
  rw [h0, Nat.mul_zero] at hsplit
  exact h hsplit.symm

theorem prod_drop_succ_le (shape : List Nat) (k : Nat) (h : shape.prod ≠ 0) :
    (shape.drop (k + 1)).prod ≤ (shape.drop k).prod := by
  have := prod_drop_le (shape.drop k) 1 (prod_drop_ne_zero shape k h)
  rw [List.drop_drop] at this
  exact this

theorem ptrAdd_cover (iter a : Nat) (hi : iter < SIZE_MAX1) (ha : a < SIZE_MAX1) :
    ∃ q, q < SIZE_MAX1 ∧ ptrAdd iter q = a := by
  refine ⟨(a + SIZE_MAX1 - iter) % SIZE_MAX1, Nat.mod_lt _ (by unfold SIZE_MAX1; omega), ?_⟩
  unfold ptrAdd SIZE_MAX1 at *
  omega

/-- The visits of `iterate` on dimension `dim` are at consecutive cells from the iterator on,
as many as the product of the lengths from `dim` on, when the product of the lengths after
`dim` is below `2^64`: the strides of these dimensions are then the products themselves. -/
theorem visits_consecutive (v : BasicArrayView) (hne : v._shape.prod ≠ 0)
    (hstr : ∀ k, k < v._shape.length →
      v._strides.getD k 0 = (v._shape.drop (k + 1)).prod % SIZE_MAX1) :
    ∀ rem dim iter pre, dim + rem + 1 = v._shape.length → iter < SIZE_MAX1 →
      (v._shape.drop (dim + 1)).prod < SIZE_MAX1 →
      (v.traversal.visits rem dim iter pre).map Prod.snd =
        (List.range (v._shape.drop dim).prod).map (fun q => ptrAdd iter q) := by
  intro rem
  induction rem with
  | zero =>
    intro dim iter pre h hiter hlt
    have hdim : dim < v._shape.length := by omega
    have h1 : v._strides.getD dim 0 = 1 := by
      rw [hstr dim hdim, List.drop_of_length_le (by omega)]; rfl
    rw [BasicArrayTraversal.visits, traversal_start, traversal_end, traversal_strides, h1,
      Nat.sub_zero, loopVisits_addresses _ 1 pre _ _ _ _ hiter, drop_eq_getD_cons _ _ hdim,
      List.prod_cons, List.drop_of_length_le (by omega)]
    · rfl
    · intro iter1 pre1 h1
      show [iter1] = [ptrAdd iter1 0]
      rw [ptrAdd_zero _ h1]
  | succ rem ih =>
    intro dim iter pre h hiter hlt
    have hdim : dim < v._shape.length := by omega
    rw [BasicArrayTraversal.visits, traversal_start, traversal_end, traversal_strides,
      hstr dim hdim, Nat.mod_eq_of_lt hlt, Nat.sub_zero,
      loopVisits_addresses _ _ pre _ _ _ _ hiter, drop_eq_getD_cons _ _ hdim, List.prod_cons]
    intro iter1 pre1 h1
    exact ih (dim + 1) iter1 pre1 (by omega) h1
      (Nat.lt_of_le_of_lt (prod_drop_succ_le v._shape (dim + 1) hne) hlt)

/-- When the product of the lengths from `dim` on is `2^64` or more, the visits of `iterate`
on dimension `dim` reach every address. -/
theorem visits_cover (v : BasicArrayView) (hne : v._shape.prod ≠ 0)
    (hstr : ∀ k, k < v._shape.length →
      v._strides.getD k 0 = (v._shape.drop (k + 1)).prod % SIZE_MAX1) :
    ∀ rem dim iter pre, dim + rem + 1 = v._shape.length → iter < SIZE_MAX1 →
      SIZE_MAX1 ≤ (v._shape.drop dim).prod →
      ∀ a, a < SIZE_MAX1 → a ∈ (v.traversal.visits rem dim iter pre).map Prod.snd := by
  have hexact : ∀ rem dim iter pre, dim + rem + 1 = v._shape.length → iter < SIZE_MAX1 →
      SIZE_MAX1 ≤ (v._shape.drop dim).prod → (v._shape.drop (dim + 1)).prod < SIZE_MAX1 →
      ∀ a, a < SIZE_MAX1 → a ∈ (v.traversal.visits rem dim iter pre).map Prod.snd := by
    intro rem dim iter pre h hiter hbig hlt a ha
    rw [visits_consecutive v hne hstr rem dim iter pre h hiter hlt]
    obtain ⟨q, hq, hqa⟩ := ptrAdd_cover iter a hiter ha
    exact List.mem_map.mpr ⟨q, List.mem_range.mpr (by omega), hqa⟩
  intro rem
  induction rem with
  | zero =>
    intro dim iter pre h hiter hbig
    refine hexact 0 dim iter pre h hiter hbig ?_
    rw [List.drop_of_length_le (by omega)]
    exact Nat.one_lt_two_pow (by decide)
  | succ rem ih =>
    intro dim iter pre h hiter hbig a ha
    by_cases hlt : (v._shape.drop (dim + 1)).prod < SIZE_MAX1
    · exact hexact (rem + 1) dim iter pre h hiter hbig hlt a ha
    · have hdim : dim < v._shape.length := by omega
      have hpos : v._shape.getD dim 0 ≠ 0 := by
        intro h0
        have := prod_drop_ne_zero v._shape dim hne
        rw [drop_eq_getD_cons _ _ hdim, List.prod_cons, h0, Nat.zero_mul] at this
        exact this rfl
      obtain ⟨n, hn⟩ : ∃ n, v._shape.getD dim 0 = n + 1 := ⟨v._shape.getD dim 0 - 1, by omega⟩
      rw [BasicArrayTraversal.visits, traversal_start, traversal_end, Nat.sub_zero, hn,
        loopVisits, List.map_append]
      exact List.mem_append_left _ (ih (dim + 1) iter _ (by omega) hiter (by omega) a ha)

/-- The traversal of a view constructed from a shape of at least one dimension whose lengths
have a product of `2^64` or more hands its functor every address of the machine. -/
theorem traversal_reaches_every_address (v : BasicArrayView) (shape : List Nat)
    (hv : ArrayBase.ctor shape = .ok v.toArrayBase) (hN : 1 ≤ shape.length)
    (hd : v._data < SIZE_MAX1) (hbig : SIZE_MAX1 ≤ shape.prod) (a : Nat) (ha : a < SIZE_MAX1) :
    ∃ idx, (idx, a) ∈ v.traversal.visited := by
  obtain ⟨hshape, hstrides, hsize, hsne⟩ := ArrayBase.ctor_ok shape _ hv
  have hne : v._shape.prod ≠ 0 := by
    rw [hshape]
    intro h0
    rw [h0] at hsize
    exact hsne hsize
  have hstr : ∀ k, k < v._shape.length →
      v._strides.getD k 0 = (v._shape.drop (k + 1)).prod % SIZE_MAX1 := by
    intro k hk
    rw [hstrides, hshape]
    exact (computeStrides_spec shape hN).2 k (hshape ▸ hk)
  have hmem := visits_cover v hne hstr (v._shape.length - 1) 0 v._data []
    (by rw [hshape]; omega) hd (by rw [List.drop_zero, hshape]; exact hbig) a ha
  obtain ⟨⟨idx, b⟩, hx, hb⟩ := List.mem_map.mp hmem
  simp only at hb
  subst hb
  exact ⟨idx, hx⟩

/-- Every visit of the traversal of a view constructed from a shape of at least one dimension
whose size does not wrap is at one of the view's `size()` cells. -/
theorem visited_in_storage (v : BasicArrayView) (shape : List Nat)
    (hv : ArrayBase.ctor shape = .ok v.toArrayBase) (hN : 1 ≤ shape.length)
    (hprod : shape.prod < SIZE_MAX1) (hd : v._data < SIZE_MAX1) (idx : List Nat) (a : Nat)
    (hx : (idx, a) ∈ v.traversal.visited) : ∃ q, q < v.size ∧ a = ptrAdd v.begin q := by
  have hmem : a ∈ v.traversal.visited.map Prod.snd := List.mem_map.mpr ⟨_, hx, rfl⟩
  rw [visited_addresses v shape hv hN hprod hd] at hmem
  obtain ⟨q, hq, hqa⟩ := List.mem_map.mp hmem
  exact ⟨q, List.mem_range.mp hq, hqa.symm⟩

/-! ## Claims -/

/-- C1, evaluated on two distinct views of shape `(2)` over the buffers `{7, 1}` and `{7, 2}`:
the shapes are identical and the elements at storage position `1` differ, and `a == b` returns
true.  The comparison loop advances `thisIter` before it leaves on a mismatch, so that a
mismatch at the last position ends with `thisIter == thisIterEnd`. -/
theorem C1_operatorEq_last_mismatch :
    ∃ a b, BasicArrayView.ctor 1 100 [2] = .ok a ∧ BasicArrayView.ctor 2 200 [2] = .ok b ∧
      a._shape = b._shape ∧ memLastDiffers (ptrAdd a._data 1) ≠ memLastDiffers (ptrAdd b._data 1) ∧
      BasicArrayView.operatorEq memLastDiffers a b = some true := by
  refine ⟨_, _, rfl, rfl, ?_, ?_, ?_⟩ <;> decide

/-- C2, evaluated on the array `a` built by `BasicArray({2}, 7)` and its clone `c`: the data
pointer of the clone is the data pointer of `a`, not the buffer of the clone's own container,
and after `c(0) = 9` the element `a(0)` reads `9`. -/
theorem C2_clone_shares_storage :
    ∃ a h c h1 p, BasicArray.ctorFill heapZero 1 [2] 7 = .ok (a, h) ∧
      BasicArray.cloneT h a = .ok (c, h1) ∧
      c._data = a._data ∧ c._data ≠ c._container.data ∧
      c.call [0] = some p ∧ a.call [0] = some p ∧
      h1.mem p = 7 ∧ (h1.mem.write p 9) p = 9 := by
  refine ⟨_, _, _, _, _, rfl, rfl, ?_, ?_, rfl, rfl, ?_, ?_⟩ <;> decide

/-- C3: in every view of at least one dimension, and so for every valid shape, the fully
chained subscript `view[i0]...[ik]` and the multi-index call `view(i0, ..., ik)` of as many
indexes as the view has dimensions, in range or not, refer to the same element: the one at the
linear offset `computeOffset(i0, ..., ik)` from the data pointer. -/
theorem C3_subscript_same_element (v : BasicArrayView) (idx : List Nat)
    (hndim : 1 ≤ v._shape.length) (hlen : idx.length = v._shape.length) :
    ∃ offset, v.computeOffset idx = some offset ∧
      v.call idx = some (ptrAdd v._data offset) ∧
      v.subscript idx = some (ptrAdd v._data offset) := by
  obtain ⟨h1, h2⟩ := subscript_eq_call v idx hlen hndim
  exact ⟨v.computeOffsetFrom 0 idx, by simp [ArrayBase.computeOffset, hlen], h2, h1.trans h2⟩

/-- C3 applied to the view of shape `(2, 5, 2)` and the multi-index `(1, 3, 1)`. -/
theorem C3_subscript_same_element_witness :
    BasicArrayView.ctor 5 100 [2, 5, 2] = .ok viewDemo ∧
    ∃ offset, viewDemo.computeOffset [1, 3, 1] = some offset ∧
      viewDemo.call [1, 3, 1] = some (ptrAdd viewDemo._data offset) ∧
      viewDemo.subscript [1, 3, 1] = some (ptrAdd viewDemo._data offset) :=
  ⟨rfl, C3_subscript_same_element viewDemo [1, 3, 1] (by decide) (by decide)⟩

/-- C4: for every view constructed from a shape of `NDIM >= 1` dimensions and every function
`f` of the multi-index, when the traversal leaves some address of the machine out (there is an
address that it does not hand to its functor), the traversal with the functor that assigns
`f(idx)` returns, and afterwards every in-range multi-index reads `f(idx)` through the chained
subscript and through the multi-index call; the product of the dimension lengths is then
below `2^64`, and every visit is at an element of the view, `begin()` plus an offset below
`size()`.  A traversal over lengths whose product is `2^64` or more leaves no address out: its
functor is handed every address of the machine, the null pointer among them. -/
theorem C4_traverse_then_read {V : Type} (f : List Nat → V) (mem : Mem V) (v : BasicArrayView)
    (shape : List Nat) (hv : ArrayBase.ctor shape = .ok v.toArrayBase)
    (hN : 1 ≤ shape.length) (hd : v._data < SIZE_MAX1)
    (hfree : ∃ a, a < SIZE_MAX1 ∧ ∀ idx, (idx, a) ∉ v.traversal.visited) :
    shape.prod < SIZE_MAX1 ∧
    (∀ idx a, (idx, a) ∈ v.traversal.visited → ∃ q, q < v.size ∧ a = ptrAdd v.begin q) ∧
    ∃ mem1, v.traverse (writeFn f) mem = some mem1 ∧
      ∀ idx, idx.length = shape.length →
        (∀ k, k < shape.length → idx.getD k 0 < shape.getD k 0) →
        ∃ p, v.subscript idx = some p ∧ v.call idx = some p ∧ mem1 p = f idx := by
  have hprod : shape.prod < SIZE_MAX1 := by
    refine Nat.lt_of_not_le (fun hbig => ?_)
    obtain ⟨a, ha, hout⟩ := hfree
    obtain ⟨idx, hx⟩ := traversal_reaches_every_address v shape hv hN hd hbig a ha
    exact hout idx hx
  exact ⟨hprod, visited_in_storage v shape hv hN hprod hd,
    traverse_write_read f mem v shape hv hN hprod hd⟩

/-- C4 applied to the demonstration: the view of shape `(2, 5, 2)` over the cells
`100 .. 119` and `f(idx) = idx[0] * 100 + idx[1] * 10 + idx[2]`; the traversal leaves the null
address out. -/
theorem C4_traverse_then_read_witness :
    [2, 5, 2].prod < SIZE_MAX1 ∧
    (∀ idx a, (idx, a) ∈ viewDemo.traversal.visited →
      ∃ q, q < viewDemo.size ∧ a = ptrAdd viewDemo.begin q) ∧
    ∃ mem1, viewDemo.traverse (writeFn demoValue) (fun _ => 0) = some mem1 ∧
      ∀ idx, idx.length = [2, 5, 2].length →
        (∀ k, k < [2, 5, 2].length → idx.getD k 0 < [2, 5, 2].getD k 0) →
        ∃ p, viewDemo.subscript idx = some p ∧ viewDemo.call idx = some p ∧
          mem1 p = demoValue idx :=
  C4_traverse_then_read demoValue (fun _ => 0) viewDemo [2, 5, 2] (by rfl) (by decide)
    (by decide)
    ⟨0, by decide, fun idx hx => by
      obtain ⟨q, hq, h0⟩ := visited_in_storage viewDemo [2, 5, 2] (by rfl) (by decide)
        (by decide) (by decide) idx 0 hx
      have hq20 : q < 20 := hq
      have h0 : 0 = ptrAdd 100 q := h0
      unfold ptrAdd SIZE_MAX1 at h0
      omega⟩

/-- C5, the claim as stated fails: the traversal of the view of the valid shape
`(2, 2^63 + 1)` invokes its functor `2^64 + 2` times, and the view's `size()` is `2`. -/
theorem C5_counterexample :
    BasicArrayView.ctor 6 100 [2, 2 ^ 63 + 1] = .ok viewHuge ∧ viewHuge.size = 2 ∧
    viewHuge.traverse countFn 0 = some (2 ^ 64 + 2) ∧ 2 ^ 64 + 2 ≠ viewHuge.size := by
  refine ⟨by rfl, by rfl, ?_, by decide⟩
  rw [BasicArrayView.traverse,
    traverse_spec viewHuge.traversal countFn 0 (by decide) (traversal_lastDim _),
    runVisits_count, length_visited_traversal viewHuge (by decide)]
  rfl

/-- C5, amended: a traversal of `NDIM >= 1` dimensions over any start, end and strides arrays
returns, having invoked the functor on the visits of `visited` in their order and on nothing
else; these visits are in lexicographic order of the multi-indexes, no multi-index occurs
twice, and the multi-indexes visited are those with `start[k] <= idx[k] < end[k]` for all `k`;
there is none when `start[k] >= end[k]` for some `k`.  The traversal of a view makes as many
visits as the product of the dimension lengths, and `size()` is that product modulo `2^64`. -/
theorem C5_traverse_visits_box (NDIM data : Nat) (start end_ strides : List Nat)
    (hN : 1 ≤ NDIM) (v : BasicArrayView) (shape : List Nat)
    (hv : ArrayBase.ctor shape = .ok v.toArrayBase) (hNv : 1 ≤ shape.length) :
    (∀ (σ : Type) (fn : List Nat → Nat → σ → σ) (s : σ),
      (BasicArrayTraversal.ctor NDIM data start end_ strides).traverse fn s =
        some (runVisits fn (BasicArrayTraversal.ctor NDIM data start end_ strides).visited s)) ∧
    ((BasicArrayTraversal.ctor NDIM data start end_ strides).visited.map Prod.fst).Pairwise
      (List.Lex (· < ·)) ∧
    ((BasicArrayTraversal.ctor NDIM data start end_ strides).visited.map Prod.fst).Nodup ∧
    (∀ idx, idx ∈ (BasicArrayTraversal.ctor NDIM data start end_ strides).visited.map Prod.fst ↔
      idx.length = NDIM ∧
        ∀ k, k < NDIM → start.getD k 0 ≤ idx.getD k 0 ∧ idx.getD k 0 < end_.getD k 0) ∧
    (∀ k, k < NDIM → end_.getD k 0 ≤ start.getD k 0 →
      (BasicArrayTraversal.ctor NDIM data start end_ strides).visited = []) ∧
    (∀ (σ : Type) (fn : List Nat → Nat → σ → σ) (s : σ),
      v.traverse fn s = some (runVisits fn v.traversal.visited s)) ∧
    v.traversal.visited.length = shape.prod ∧ v.size = shape.prod % SIZE_MAX1 := by
  obtain ⟨hshape, _, hsize, _⟩ := ArrayBase.ctor_ok shape _ hv
  have hNs : 1 ≤ v._shape.length := by rw [hshape]; exact hNv
  refine ⟨?_, visits_sorted _ _ _ _ _, visited_nodup _, ?_, ?_, ?_, ?_, hsize⟩
  · intro σ fn s
    exact traverse_spec _ fn s hN rfl
  · intro idx
    exact mem_visited_iff (BasicArrayTraversal.ctor NDIM data start end_ strides) hN idx
  · intro k hk hempty
    exact visited_eq_nil (BasicArrayTraversal.ctor NDIM data start end_ strides) hN k hk hempty
  · intro σ fn s
    exact traverse_spec v.traversal fn s hNs (traversal_lastDim v)
  · rw [length_visited_traversal v hNs, hshape]

/-- C5 applied to the traversal of the box from `(1, 2)` to `(3, 4)` and to the view of shape
`(2, 5, 2)`, which makes `20` visits. -/
theorem C5_traverse_visits_box_witness :
    ((∀ (σ : Type) (fn : List Nat → Nat → σ → σ) (s : σ),
      (BasicArrayTraversal.ctor 2 100 [1, 2] [3, 4] [10, 1]).traverse fn s =
        some (runVisits fn (BasicArrayTraversal.ctor 2 100 [1, 2] [3, 4] [10, 1]).visited s)) ∧
    ((BasicArrayTraversal.ctor 2 100 [1, 2] [3, 4] [10, 1]).visited.map Prod.fst).Pairwise
      (List.Lex (· < ·)) ∧
    ((BasicArrayTraversal.ctor 2 100 [1, 2] [3, 4] [10, 1]).visited.map Prod.fst).Nodup ∧
    (∀ idx, idx ∈ (BasicArrayTraversal.ctor 2 100 [1, 2] [3, 4] [10, 1]).visited.map Prod.fst ↔
      idx.length = 2 ∧
        ∀ k, k < 2 → [1, 2].getD k 0 ≤ idx.getD k 0 ∧ idx.getD k 0 < [3, 4].getD k 0) ∧
    (∀ k, k < 2 → [3, 4].getD k 0 ≤ [1, 2].getD k 0 →
      (BasicArrayTraversal.ctor 2 100 [1, 2] [3, 4] [10, 1]).visited = []) ∧
    (∀ (σ : Type) (fn : List Nat → Nat → σ → σ) (s : σ),
      viewDemo.traverse fn s = some (runVisits fn viewDemo.traversal.visited s)) ∧
    viewDemo.traversal.visited.length = [2, 5, 2].prod ∧
    viewDemo.size = [2, 5, 2].prod % SIZE_MAX1) ∧
    [2, 5, 2].prod = 20 ∧ viewDemo.size = 20 :=
  ⟨C5_traverse_visits_box 2 100 [1, 2] [3, 4] [10, 1] (by decide) viewDemo [2, 5, 2] (by rfl)
    (by decide), by rfl, by rfl⟩

/-- C6, evaluated on two distinct views of sizes `2`, of shapes `(2)` and `(1, 2)`, over the
buffers `{7, 1}` and `{7, 2}`: `util::eq` is false at storage position `1`, and
`a.equalValue(b)` returns true. -/
theorem C6_equalValue_last_mismatch :
    ∃ a b, BasicArrayView.ctor 1 100 [2] = .ok a ∧ BasicArrayView.ctor 2 200 [1, 2] = .ok b ∧
      a.size = b.size ∧
      util.eq tInt tInt (memLastDiffers (ptrAdd a._data 1)) (memLastDiffers (ptrAdd b._data 1))
        = false ∧
      BasicArrayView.equalValue (util.eq tInt tInt) memLastDiffers a b = some true := by
  refine ⟨_, _, rfl, rfl, ?_, ?_, ?_⟩ <;> decide

/-- C7, evaluated on the claim's own witness, an `int` view holding `-1` and an `unsigned`
view holding `0xFFFFFFFF`, both of one element: `util::eq(-1, 0xFFFFFFFF)` is false, and
`a.equalValue(b)` returns true. -/
theorem C7_equalValue_minus_one :
    ∃ a b, BasicArrayView.ctor 1 100 [1] = .ok a ∧ BasicArrayView.ctor 2 200 [1] = .ok b ∧
      memMinusOne a._data = -1 ∧ memMinusOne b._data = 4294967295 ∧
      util.eq tInt tUnsigned (-1) 4294967295 = false ∧
      BasicArrayView.equalValue (util.eq tInt tUnsigned) memMinusOne a b = some true := by
  refine ⟨_, _, rfl, rfl, ?_, ?_, ?_, ?_⟩ <;> decide

/-- C8, the claim as stated fails: `viewHigh << viewLow`, two distinct views of size `2` over
the one buffer `{1, 2, 3}`, the destination one cell above the source.  The copy writes the
source's second element before it reads it: afterwards that element of the source has changed,
and the second element of the destination is not the element the source had there. -/
theorem C8_counterexample :
    BasicArrayView.ctor 1 100 [2] = .ok viewLow ∧ BasicArrayView.ctor 2 101 [2] = .ok viewHigh ∧
    viewHigh.addr ≠ viewLow.addr ∧ viewHigh.size = viewLow.size ∧
    ∃ r, viewHigh.operatorShl id memOneBuffer viewLow = some r ∧ r.raised = none ∧
      r.mem (ptrAdd viewLow._data 1) ≠ memOneBuffer (ptrAdd viewLow._data 1) ∧
      r.mem (ptrAdd viewHigh._data 1) ≠ id (memOneBuffer (ptrAdd viewLow._data 1)) := by
  refine ⟨rfl, rfl, by decide, rfl, _, rfl, rfl, ?_, ?_⟩ <;> decide

/-- C8, amended: for a destination `dst` and a distinct source `src` of equal sizes whose
storage does not overlap, whatever their shapes and element types, `dst << src` returns
without an error, the element of `dst` at every storage position `p` is then the element `src`
had at `p`, converted, the elements of `src` are unchanged, and so is every cell outside the
storage of `dst`. -/
theorem C8_shl_copies {V : Type} (conv : V → V) (mem : Mem V) (dst src : BasicArrayView)
    (hdistinct : dst.addr ≠ src.addr) (hd : dst._data < SIZE_MAX1) (hs : src._data < SIZE_MAX1)
    (hn : dst._size < SIZE_MAX1) (hsize : dst.size = src.size)
    (hdisj : ∀ p q, p < dst.size → q < src.size → ptrAdd dst._data p ≠ ptrAdd src._data q) :
    ∃ r, dst.operatorShl conv mem src = some r ∧ r.raised = none ∧ r.self = dst ∧
      (∀ p, p < dst.size → r.mem (ptrAdd dst._data p) = conv (mem (ptrAdd src._data p))) ∧
      (∀ q, q < src.size → r.mem (ptrAdd src._data q) = mem (ptrAdd src._data q)) ∧
      (∀ a, (∀ p, p < dst.size → a ≠ ptrAdd dst._data p) → r.mem a = mem a) := by
  have hsz : dst._size = src._size := hsize
  refine ⟨_, operatorShl_eq conv mem dst src hdistinct hd hs hn, ?_, ?_, ?_, ?_, ?_⟩
  · simp [hsz]
  · simp [hsz]
  · intro p hp
    simp only [hsz, ne_eq, not_true_eq_false, if_false]
    rw [← hsz]
    exact copyFrom_copied conv dst._data src._data dst._size hn
      (fun p q hp hq => hdisj p q hp (by simpa [ArrayBase.size, ← hsz] using hq))
      dst._size 0 mem p (by omega) (by omega) hp
  · intro q hq
    simp only [hsz, ne_eq, not_true_eq_false, if_false]
    rw [← hsz]
    exact copyFrom_frame conv dst._data src._data dst._size 0 mem _
      (fun p _ hp2 => (hdisj p q (by simpa [ArrayBase.size] using hp2) hq).symm)
  · intro a ha
    simp only [hsz, ne_eq, not_true_eq_false, if_false]
    rw [← hsz]
    exact copyFrom_frame conv dst._data src._data dst._size 0 mem _
      (fun p _ hp2 => ha p (by simpa [ArrayBase.size] using hp2))

/-- C8, the amended claim applied to the copy of the view over the cells `100, 101` into the
view over the cells `200, 201`. -/
theorem C8_shl_copies_witness :
    ∃ r, viewFar.operatorShl id memOneBuffer viewLow = some r ∧ r.raised = none ∧
      r.self = viewFar ∧
      (∀ p, p < viewFar.size →
        r.mem (ptrAdd viewFar._data p) = id (memOneBuffer (ptrAdd viewLow._data p))) ∧
      (∀ q, q < viewLow.size →
        r.mem (ptrAdd viewLow._data q) = memOneBuffer (ptrAdd viewLow._data q)) ∧
      (∀ a, (∀ p, p < viewFar.size → a ≠ ptrAdd viewFar._data p) →
        r.mem a = memOneBuffer a) :=
  C8_shl_copies id memOneBuffer viewFar viewLow (by decide) (by decide) (by decide) (by decide)
    rfl (by
      intro p q hp hq
      have hp2 : p < 2 := hp
      have hq2 : q < 2 := hq
      show ptrAdd 200 p ≠ ptrAdd 100 q
      unfold ptrAdd SIZE_MAX1; omega)

/-- C9: for distinct views `dst` and `src`, the call `dst << src` ends, it raises the
size-mismatch error if and only if the sizes differ (and no error otherwise), and when it
raises, the memory, so every element of `dst`, and the members of `dst` (shape, strides, size,
data pointer) are as before the call. -/
theorem C9_shl_size_mismatch {V : Type} (conv : V → V) (mem : Mem V)
    (dst src : BasicArrayView) (hdistinct : dst.addr ≠ src.addr)
    (hd : dst._data < SIZE_MAX1) (hs : src._data < SIZE_MAX1) (hn : dst._size < SIZE_MAX1) :
    ∃ r, dst.operatorShl conv mem src = some r ∧
      (r.raised = some .copySizeMismatch ↔ dst.size ≠ src.size) ∧
      (r.raised = none ↔ dst.size = src.size) ∧
      (r.raised ≠ none → r.mem = mem ∧ r.self = dst) := by
  refine ⟨_, operatorShl_eq conv mem dst src hdistinct hd hs hn, ?_, ?_, ?_⟩
  · by_cases hsz : dst._size = src._size <;> simp [ArrayBase.size, hsz]
  · by_cases hsz : dst._size = src._size <;> simp [ArrayBase.size, hsz]
  · by_cases hsz : dst._size = src._size <;> simp [hsz]

/-- C9 applied to a destination of size `3` and a source of size `2`. -/
theorem C9_shl_size_mismatch_witness :
    ∃ r, viewThree.operatorShl id memOneBuffer viewLow = some r ∧
      (r.raised = some .copySizeMismatch ↔ viewThree.size ≠ viewLow.size) ∧
      (r.raised = none ↔ viewThree.size = viewLow.size) ∧
      (r.raised ≠ none → r.mem = memOneBuffer ∧ r.self = viewThree) :=
  C9_shl_size_mismatch id memOneBuffer viewThree viewLow (by decide) (by decide) (by decide)
    (by decide)

/-- C10, the claim as stated fails: the shape `(2^32, 2^32)` has no zero dimension length, and
its construction raises the invalid-shape error, as the product of the lengths is `0` modulo
`2^64`. -/
theorem C10_counterexample :
    ¬ (computeSize [2 ^ 32, 2 ^ 32] = .error .invalidShape ↔ (0 : Nat) ∈ [2 ^ 32, 2 ^ 32]) := by
  intro h
  have h0 : (0 : Nat) ∈ [2 ^ 32, 2 ^ 32] := h.mp (by rfl)
  simp at h0

/-- C10, amended: the constructors of `ArrayBase`, of a view and of an array raise the
invalid-shape error if and only if the product of the dimension lengths is `0` modulo `2^64`;
they do so whenever some dimension length is zero, and when the product of the lengths is below
`2^64` they do so only if some dimension length is zero. -/
theorem C10_invalid_shape_iff (shape : List Nat) :
    (computeSize shape = .error .invalidShape ↔ shape.prod % SIZE_MAX1 = 0) ∧
    (ArrayBase.ctor shape = .error .invalidShape ↔ shape.prod % SIZE_MAX1 = 0) ∧
    (∀ addr data, BasicArrayView.ctor addr data shape = .error .invalidShape ↔
      shape.prod % SIZE_MAX1 = 0) ∧
    (∀ (V : Type) (h : Heap V) (addr : Nat) (value : V),
      BasicArray.ctorFill h addr shape value = .error .invalidShape ↔
        shape.prod % SIZE_MAX1 = 0) ∧
    ((0 : Nat) ∈ shape → computeSize shape = .error .invalidShape) ∧
    (shape.prod < SIZE_MAX1 → (computeSize shape = .error .invalidShape ↔ (0 : Nat) ∈ shape)) := by
  have h1 : computeSize shape = .error .invalidShape ↔ shape.prod % SIZE_MAX1 = 0 := by
    simp [computeSize_error_iff]
  have h2 : ArrayBase.ctor shape = .error .invalidShape ↔ shape.prod % SIZE_MAX1 = 0 := by
    rw [← h1]; unfold ArrayBase.ctor; split <;> simp_all
  refine ⟨h1, h2, ?_, ?_, ?_, ?_⟩
  · intro addr data
    rw [← h2]; unfold BasicArrayView.ctor
    split
    · simp_all
    · split <;> simp_all
  · intro V h addr value
    rw [← h2]; unfold BasicArray.ctorFill BasicArrayView.ctorProtected
    cases hb : ArrayBase.ctor shape with
    | error e => simp
    | ok base =>
      by_cases hlt : h.brk + base.size < SIZE_MAX1 <;>
        simp [StdVector.ctorFill, Heap.allocate, hlt]
  · intro h0
    rw [h1, List.prod_eq_zero h0]; rfl
  · intro hlt
    rw [h1, Nat.mod_eq_of_lt hlt]
    exact List.prod_eq_zero_iff

/-- C10 applied to the shape `(0, 3)` of the tests, whose construction fails. -/
theorem C10_invalid_shape_iff_witness :
    ((computeSize [0, 3] = .error .invalidShape ↔ [0, 3].prod % SIZE_MAX1 = 0) ∧
    (ArrayBase.ctor [0, 3] = .error .invalidShape ↔ [0, 3].prod % SIZE_MAX1 = 0) ∧
    (∀ addr data, BasicArrayView.ctor addr data [0, 3] = .error .invalidShape ↔
      [0, 3].prod % SIZE_MAX1 = 0) ∧
    (∀ (V : Type) (h : Heap V) (addr : Nat) (value : V),
      BasicArray.ctorFill h addr [0, 3] value = .error .invalidShape ↔
        [0, 3].prod % SIZE_MAX1 = 0) ∧
    ((0 : Nat) ∈ [0, 3] → computeSize [0, 3] = .error .invalidShape) ∧
    ([0, 3].prod < SIZE_MAX1 →
      (computeSize [0, 3] = .error .invalidShape ↔ (0 : Nat) ∈ [0, 3]))) ∧
    computeSize [0, 3] = .error .invalidShape :=
  ⟨C10_invalid_shape_iff [0, 3], (C10_invalid_shape_iff [0, 3]).2.2.2.2.1 (by decide)⟩

/-- C11: for every shape of at least one dimension, `computeStrides`, whose result the
constructor stores as the strides, gives one stride for each dimension, the last one is `1`,
and `strides[i] = strides[i + 1] * shape[i + 1]` for every `i` below, the product taken in
`size_t` arithmetic as the code computes it, which is the product of the two numbers whenever
that is below `2^64`, and so for every shape without a zero length whose lengths have a
product below `2^64`; the strides of `(2, 5, 2)` are `(10, 2, 1)`, those of `(5, 20)` are
`(20, 1)`. -/
theorem C11_strides_recurrence (shape : List Nat) (hN : 1 ≤ shape.length) :
    (computeStrides shape).length = shape.length ∧
    (computeStrides shape).getD (shape.length - 1) 0 = 1 ∧
    (∀ i, i + 1 < shape.length →
      (computeStrides shape).getD i 0 =
        (computeStrides shape).getD (i + 1) 0 * shape.getD (i + 1) 0 % SIZE_MAX1) ∧
    (∀ i, i + 1 < shape.length →
      (computeStrides shape).getD (i + 1) 0 * shape.getD (i + 1) 0 < SIZE_MAX1 →
      (computeStrides shape).getD i 0 =
        (computeStrides shape).getD (i + 1) 0 * shape.getD (i + 1) 0) ∧
    (shape.prod ≠ 0 → shape.prod < SIZE_MAX1 → ∀ i, i + 1 < shape.length →
      (computeStrides shape).getD i 0 =
        (computeStrides shape).getD (i + 1) 0 * shape.getD (i + 1) 0) ∧
    (∀ b, ArrayBase.ctor shape = .ok b → b._strides = computeStrides shape) ∧
    computeStrides [2, 5, 2] = [10, 2, 1] ∧ computeStrides [5, 20] = [20, 1] := by
  obtain ⟨h1, h2⟩ := computeStrides_rec shape hN
  refine ⟨(computeStrides_spec shape hN).1, h1, h2, ?_, ?_, ?_, by rfl, by rfl⟩
  · intro i hi hlt
    rw [h2 i hi, Nat.mod_eq_of_lt hlt]
  · intro hne hprod i hi
    have hs := (computeStrides_spec shape hN).2
    have hle := prod_drop_le shape (i + 1) hne
    rw [drop_eq_getD_cons shape (i + 1) hi, List.prod_cons] at hle
    have hle2 := prod_drop_le shape (i + 1 + 1) hne
    have hX : (computeStrides shape).getD (i + 1) 0 = (shape.drop (i + 1 + 1)).prod := by
      rw [hs (i + 1) hi]
      exact Nat.mod_eq_of_lt (by omega)
    rw [h2 i hi]
    refine Nat.mod_eq_of_lt ?_
    rw [hX, Nat.mul_comm]
    omega
  · intro b hb
    exact (ArrayBase.ctor_ok shape b hb).2.1

/-- C11 applied to the shape `(2, 5, 2)`. -/
theorem C11_strides_recurrence_witness :
    (computeStrides [2, 5, 2]).length = [2, 5, 2].length ∧
    (computeStrides [2, 5, 2]).getD ([2, 5, 2].length - 1) 0 = 1 ∧
    (∀ i, i + 1 < [2, 5, 2].length →
      (computeStrides [2, 5, 2]).getD i 0 =
        (computeStrides [2, 5, 2]).getD (i + 1) 0 * [2, 5, 2].getD (i + 1) 0 % SIZE_MAX1) ∧
    (∀ i, i + 1 < [2, 5, 2].length →
      (computeStrides [2, 5, 2]).getD (i + 1) 0 * [2, 5, 2].getD (i + 1) 0 < SIZE_MAX1 →
      (computeStrides [2, 5, 2]).getD i 0 =
        (computeStrides [2, 5, 2]).getD (i + 1) 0 * [2, 5, 2].getD (i + 1) 0) ∧
    ([2, 5, 2].prod ≠ 0 → [2, 5, 2].prod < SIZE_MAX1 → ∀ i, i + 1 < [2, 5, 2].length →
      (computeStrides [2, 5, 2]).getD i 0 =
        (computeStrides [2, 5, 2]).getD (i + 1) 0 * [2, 5, 2].getD (i + 1) 0) ∧
    (∀ b, ArrayBase.ctor [2, 5, 2] = .ok b → b._strides = computeStrides [2, 5, 2]) ∧
    computeStrides [2, 5, 2] = [10, 2, 1] ∧ computeStrides [5, 20] = [20, 1] :=
  C11_strides_recurrence [2, 5, 2] (by decide)

/-- C12: for every array base constructed from a shape of `NDIM >= 1` dimensions and every
`NDIM`-tuple of `size_t` indexes, `computeOffset` is the sum over `k` of
`idx[k] * strides[k]` in `size_t` arithmetic, the last index included: the code adds it
without multiplying, and the last stride is `1`. -/
theorem C12_computeOffset_sum (shape : List Nat) (b : ArrayBase) (idx : List Nat)
    (hb : ArrayBase.ctor shape = .ok b) (hN : 1 ≤ shape.length)
    (hlen : idx.length = shape.length) (hidx : ∀ x, x ∈ idx → x < SIZE_MAX1) :
    b.computeOffset idx = some (offsetSum b._strides idx shape.length % SIZE_MAX1) ∧
      b._strides.getD (shape.length - 1) 0 = 1 := by
  obtain ⟨hshape, hstr, _, _⟩ := ArrayBase.ctor_ok shape b hb
  have hlast : b._strides.getD (shape.length - 1) 0 = 1 := by
    rw [hstr]; exact (computeStrides_rec shape hN).1
  refine ⟨?_, hlast⟩
  rw [ArrayBase.computeOffset, hshape, if_pos hlen]
  match idx, hlen, hidx with
  | [], hlen, _ => simp at hlen; omega
  | i :: idx, hlen, hidx =>
    rw [computeOffsetFrom_eq_dotFrom b shape.length hlast idx i 0 (by simp at hlen; omega) hidx,
      dotFrom_zero_eq_offsetSum, hlen]

/-- C12 applied to the array base of shape `(2, 5, 2)` and the indexes `(1, 3, 1)`. -/
theorem C12_computeOffset_sum_witness :
    (viewDemo.toArrayBase.computeOffset [1, 3, 1] =
      some (offsetSum viewDemo._strides [1, 3, 1] [2, 5, 2].length % SIZE_MAX1) ∧
      viewDemo._strides.getD ([2, 5, 2].length - 1) 0 = 1) ∧
    offsetSum viewDemo._strides [1, 3, 1] [2, 5, 2].length = 17 :=
  ⟨C12_computeOffset_sum [2, 5, 2] viewDemo.toArrayBase [1, 3, 1] (by rfl) (by decide)
    (by decide) (by decide), by rfl⟩

/-- C13: the construction of a view from `(pointer, shape, expectedSize)` succeeds if and only
if the computed size of the shape, the product of the lengths modulo `2^64`, is not zero, the
pointer is not null and the computed size is `expectedSize`; the view then has that size, that
shape and that pointer.  With a null pointer both constructors fail, whatever the shape and
the expected size. -/
theorem C13_view_construction (addr data : Nat) (shape : List Nat) (totalSize : Nat) :
    ((∃ v, BasicArrayView.ctorSized addr data shape totalSize = .ok v) ↔
      shape.prod % SIZE_MAX1 ≠ 0 ∧ data ≠ 0 ∧ shape.prod % SIZE_MAX1 = totalSize) ∧
    (∀ v, BasicArrayView.ctorSized addr data shape totalSize = .ok v →
      v.size = totalSize ∧ v.shape = shape ∧ v._data = data) ∧
    ((∃ v, BasicArrayView.ctor addr data shape = .ok v) ↔
      shape.prod % SIZE_MAX1 ≠ 0 ∧ data ≠ 0) ∧
    (∃ e, BasicArrayView.ctorSized addr 0 shape totalSize = .error e) ∧
    (∃ e, BasicArrayView.ctor addr 0 shape = .error e) := by
  have hbase : ∀ d, BasicArrayView.ctor addr d shape =
      if shape.prod % SIZE_MAX1 = 0 then .error .invalidShape
      else if d = 0 then .error .nullData
      else .ok { _size := shape.prod % SIZE_MAX1, _shape := shape,
                 _strides := computeStrides shape, _data := d, addr := addr } := by
    intro d
    unfold BasicArrayView.ctor ArrayBase.ctor
    rw [computeSize_eq]
    by_cases h0 : shape.prod % SIZE_MAX1 = 0
    · simp [h0]
    · by_cases hd : d = 0 <;> simp [h0, hd]
  have hsized : ∀ d, BasicArrayView.ctorSized addr d shape totalSize =
      if shape.prod % SIZE_MAX1 = 0 then .error .invalidShape
      else if d = 0 then .error .nullData
      else if shape.prod % SIZE_MAX1 ≠ totalSize then .error .shapeSizeMismatch
      else .ok { _size := shape.prod % SIZE_MAX1, _shape := shape,
                 _strides := computeStrides shape, _data := d, addr := addr } := by
    intro d
    unfold BasicArrayView.ctorSized
    rw [hbase]
    by_cases h0 : shape.prod % SIZE_MAX1 = 0
    · simp [h0]
    · by_cases hd : d = 0
      · simp [h0, hd]
      · by_cases ht : shape.prod % SIZE_MAX1 = totalSize
        · subst ht; simp [h0, hd, ArrayBase.size]
        · simp [h0, hd, ht, ArrayBase.size]
  refine ⟨?_, ?_, ?_, ?_, ?_⟩
  · rw [hsized]
    by_cases h0 : shape.prod % SIZE_MAX1 = 0
    · simp [h0]
    · by_cases hd : data = 0
      · simp [h0, hd]
      · by_cases ht : shape.prod % SIZE_MAX1 = totalSize
        · subst ht; simp [h0, hd]
        · simp [h0, hd, ht]
  · intro v hv
    rw [hsized] at hv
    by_cases h0 : shape.prod % SIZE_MAX1 = 0
    · simp [h0] at hv
    · by_cases hd : data = 0
      · simp [h0, hd] at hv
      · by_cases ht : shape.prod % SIZE_MAX1 = totalSize
        · subst ht
          simp only [h0, hd, if_false, ne_eq, not_true_eq_false, Except.ok.injEq] at hv
          subst hv
          exact ⟨rfl, rfl, rfl⟩
        · simp [h0, hd, ht] at hv
  · rw [hbase]
    by_cases h0 : shape.prod % SIZE_MAX1 = 0
    · simp [h0]
    · by_cases hd : data = 0 <;> simp [h0, hd]
  · rw [hsized]
    by_cases h0 : shape.prod % SIZE_MAX1 = 0 <;> simp [h0]
  · rw [hbase]
    by_cases h0 : shape.prod % SIZE_MAX1 = 0 <;> simp [h0]

/-- C14, the claim as stated fails: the array built by `BasicArray<float, 1>({2}, NAN)` and
its clone `c`.  A NaN does not compare equal to itself, so `c == a` and `c.equalValue(a)`
return false. -/
theorem C14_counterexample :
    ∃ a h c h1, BasicArray.ctorFill heapFloat 1 [2] FloatValue.nan = .ok (a, h) ∧
      BasicArray.cloneT h a = .ok (c, h1) ∧
      c.toBasicArrayView.operatorEq h1.mem a.toBasicArrayView = some false ∧
      c.toBasicArrayView.equalValue util.eqFloat h1.mem a.toBasicArrayView = some false :=
  ⟨_, _, _, _, rfl, rfl, rfl, rfl⟩

/-- C14, amended: for every owning array `a` and its clone `c = a.cloneT()`, `c` has the
shape, the size and the strides of `a`, every multi-index refers through `c` to the element it
refers to through `a`, so that the elements read are equal, and cloning changes no cell below
the allocator's mark, where the elements of a live array are; when every element of `a`
compares equal to itself with `==` and with `util::eq`, `c == a` and `c.equalValue(a)` return
true. -/
theorem C14_clone_equal {V : Type} [BEq V] (eq : V → V → Bool) (h h1 : Heap V)
    (a c : BasicArray) (hc : BasicArray.cloneT h a = .ok (c, h1))
    (hd : a._data < SIZE_MAX1) (hn : a._size < SIZE_MAX1) :
    c.shape = a.shape ∧ c.size = a.size ∧ c._strides = a._strides ∧
    (∀ idx, c.call idx = a.call idx ∧ c.subscript idx = a.subscript idx) ∧
    (∀ idx p q, c.call idx = some p → a.call idx = some q → h1.mem p = h1.mem q) ∧
    (∀ p, p < h.brk → h1.mem p = h.mem p) ∧
    ((∀ q, q < a.size →
        (h1.mem (ptrAdd a._data q) == h1.mem (ptrAdd a._data q)) = true ∧
        eq (h1.mem (ptrAdd a._data q)) (h1.mem (ptrAdd a._data q)) = true) →
      c.toBasicArrayView.operatorEq h1.mem a.toBasicArrayView = some true ∧
      c.toBasicArrayView.equalValue eq h1.mem a.toBasicArrayView = some true) := by
  obtain ⟨hb, hdata, _, _, _⟩ := cloneT_ok h h1 a c hc
  have hacc := access_congr c.toBasicArrayView a.toBasicArrayView hb hdata
  refine ⟨by simp [ArrayBase.shape, hb], by simp [ArrayBase.size, hb], by rw [hb], hacc, ?_,
    fun p hp => cloneT_mem h h1 a c hc p hp, ?_⟩
  · intro idx p q hp hq
    rw [(hacc idx).1, hq] at hp
    rw [Option.some.inj hp]
  · intro hself
    refine compare_same_cells eq h1.mem c.toBasicArrayView a.toBasicArrayView hb hdata
      (hdata ▸ hd) (by rw [hb]; exact hn) (fun q hq => ?_)
    rw [hdata]
    exact hself q (by rw [hb] at hq; exact hq)

/-- C14 applied to the array built by `BasicArray({2}, 7)` and its clone; the elements, all
`7`, compare equal to themselves. -/
theorem C14_clone_equal_witness :
    ∃ a h c h1, BasicArray.ctorFill heapZero 1 [2] 7 = .ok (a, h) ∧
      BasicArray.cloneT h a = .ok (c, h1) ∧
      (c.shape = a.shape ∧ c.size = a.size ∧ c._strides = a._strides ∧
      (∀ idx, c.call idx = a.call idx ∧ c.subscript idx = a.subscript idx) ∧
      (∀ idx p q, c.call idx = some p → a.call idx = some q → h1.mem p = h1.mem q) ∧
      (∀ p, p < h.brk → h1.mem p = h.mem p) ∧
      ((∀ q, q < a.size →
          (h1.mem (ptrAdd a._data q) == h1.mem (ptrAdd a._data q)) = true ∧
          util.eq tInt tInt (h1.mem (ptrAdd a._data q)) (h1.mem (ptrAdd a._data q)) = true) →
        c.toBasicArrayView.operatorEq h1.mem a.toBasicArrayView = some true ∧
        c.toBasicArrayView.equalValue (util.eq tInt tInt) h1.mem a.toBasicArrayView =
          some true)) ∧
      (∀ q, q < a.size →
        (h1.mem (ptrAdd a._data q) == h1.mem (ptrAdd a._data q)) = true ∧
        util.eq tInt tInt (h1.mem (ptrAdd a._data q)) (h1.mem (ptrAdd a._data q)) = true) := by
  refine ⟨_, _, _, _, rfl, rfl, ?_, ?_⟩
  · exact C14_clone_equal (util.eq tInt tInt) _ _ _ _ rfl (by decide) (by decide)
  · intro q _
    exact ⟨beq_self_eq_true _, by simp [util.eq, util.eq_int, tInt]⟩

/-- C15, the claim as stated fails, in two ways.  Two distinct views of shape `(3)` over the
one buffer `{1, 2, 3, 4}`, the destination at its first cell and the source at its second:
after `dst << src` the buffer is `{2, 3, 4, 4}`, the destination reads `{2, 3, 4}`, the source
`{3, 4, 4}`, and `dst == src` returns false.  Two distinct `float` views of shape `(2)` over
separate buffers, the source holding a NaN in its first element: after `dst << src` both hold
the NaN, which does not compare equal to itself, and `dst == src` returns false. -/
theorem C15_counterexample :
    (BasicArrayView.ctor 8 100 [3] = .ok viewFront ∧
      BasicArrayView.ctor 9 101 [3] = .ok viewBack ∧
      viewFront.addr ≠ viewBack.addr ∧ viewFront.shape = viewBack.shape ∧
      ∃ r, viewFront.operatorShl id memFour viewBack = some r ∧ r.raised = none ∧
        r.self.operatorEq r.mem viewBack = some false) ∧
    (BasicArrayView.ctor 3 200 [2] = .ok viewFar ∧ BasicArrayView.ctor 1 100 [2] = .ok viewLow ∧
      viewFar.addr ≠ viewLow.addr ∧ viewFar.shape = viewLow.shape ∧
      ∃ r, viewFar.operatorShl id memNaN viewLow = some r ∧ r.raised = none ∧
        r.self.operatorEq r.mem viewLow = some false) := by
  refine ⟨⟨rfl, rfl, by decide, rfl, _, rfl, rfl, ?_⟩, ⟨rfl, rfl, by decide, rfl, _, rfl, rfl, ?_⟩⟩
  · rfl
  · rfl

/-- C15, amended: for every view `src` whose elements each compare equal to themselves with
`==`, and every distinct destination `dst` constructed from the same shape, of the same
element type (no conversion), whose storage does not overlap that of `src`, the call
`dst << src` returns without an error and `dst == src` then returns true. -/
theorem C15_copy_then_equal {V : Type} [BEq V] (mem : Mem V)
    (dst src : BasicArrayView) (shape : List Nat)
    (hdst : ArrayBase.ctor shape = .ok dst.toArrayBase)
    (hsrc : ArrayBase.ctor shape = .ok src.toArrayBase)
    (hdistinct : dst.addr ≠ src.addr) (hd : dst._data < SIZE_MAX1) (hs : src._data < SIZE_MAX1)
    (hdisj : ∀ p q, p < dst.size → q < src.size → ptrAdd dst._data p ≠ ptrAdd src._data q)
    (hself : ∀ q, q < src.size →
      (mem (ptrAdd src._data q) == mem (ptrAdd src._data q)) = true) :
    ∃ r, dst.operatorShl id mem src = some r ∧ r.raised = none ∧
      r.self.operatorEq r.mem src = some true := by
  have hbase : dst.toArrayBase = src.toArrayBase := Except.ok.inj (hdst.symm.trans hsrc)
  have hsize : dst._size = src._size := by rw [hbase]
  have hn : dst._size < SIZE_MAX1 := by
    rw [(ArrayBase.ctor_ok shape _ hdst).2.2.1]
    exact Nat.mod_lt _ (by unfold SIZE_MAX1; omega)
  obtain ⟨r, hr, hraised, hself1, hcopied, hkept, _⟩ := operatorShl_aligned id mem dst src
    hdistinct hd hs hn hsize
    (fun p q hp hq h => absurd h (hdisj p q hp (by simpa [ArrayBase.size, ← hsize] using hq)))
    (fun p hp h => absurd h (hdisj p p hp (by simpa [ArrayBase.size, ← hsize] using hp)))
  refine ⟨r, hr, hraised, ?_⟩
  rw [hself1]
  obtain ⟨b, hb1, hb2⟩ := operatorEq_iff r.mem dst src hdistinct hd hs hn
  have : b = true := hb2.mpr ⟨by rw [hbase], fun p hp => by
    rw [hcopied p (by omega), hkept p (by omega)]
    exact hself p (by show p < src._size; omega)⟩
  rw [hb1, this]

/-- C15 applied to the copy of the view over the cells `100, 101` into the view over the
cells `200, 201`. -/
theorem C15_copy_then_equal_witness :
    ∃ r, viewFar.operatorShl id memOneBuffer viewLow = some r ∧ r.raised = none ∧
      r.self.operatorEq r.mem viewLow = some true :=
  C15_copy_then_equal memOneBuffer viewFar viewLow [2] (by rfl) (by rfl) (by decide)
    (by decide) (by decide) (by
      intro p q hp hq
      have hp2 : p < 2 := hp
      have hq2 : q < 2 := hq
      show ptrAdd 200 p ≠ ptrAdd 100 q
      unfold ptrAdd SIZE_MAX1; omega)
    (fun q _ => beq_self_eq_true _)

/-- C16, the claim as stated fails: an owning array `dst` of two `int`s in the bytes
`16 .. 23`, and a view `src` of two `unsigned char`s over the bytes `17, 18` of that buffer,
which hold `2` and `0`; the sizes are equal, and the conversion to `int` preserves both
values.  The assignment of the first element of `dst` overwrites both elements of `src`
before the second is read: after `dst << src` the array holds `{2, 0}` and the view `{0, 0}`,
and the clone `c` of `dst` has `c.equalValue(src)` false.  The byte order is the
little-endian one; on a big-endian machine `c.equalValue(src)` is false as well. -/
theorem C16_counterexample :
    ArrayBase.ctor [2] = .ok arrayInts.toArrayBase ∧
    ArrayBase.ctor [2] = .ok viewBytes.toArrayBase ∧
    arrayInts._data = arrayInts._container.data ∧
    arrayInts._container._length = arrayInts.size ∧
    arrayInts.size = viewBytes.size ∧
    Bytes.load false tUChar heapBytes.mem 17 = 2 ∧
    Bytes.load false tUChar heapBytes.mem 18 = 0 ∧
    util.eq tInt tUChar (Bytes.convert tInt 2) 2 = true ∧
    util.eq tInt tUChar (Bytes.convert tInt 0) 0 = true ∧
    (∃ r c h2,
      Bytes.operatorShl false tInt tUChar heapBytes.mem arrayInts.toBasicArrayView
        viewBytes = some r ∧ r.raised = none ∧
      Bytes.load false tInt r.mem 16 = 2 ∧ Bytes.load false tInt r.mem 20 = 0 ∧
      Bytes.load false tUChar r.mem 17 = 0 ∧ Bytes.load false tUChar r.mem 18 = 0 ∧
      Bytes.cloneT tInt { mem := r.mem, brk := heapBytes.brk } arrayInts = .ok (c, h2) ∧
      Bytes.equalValue false tInt tUChar h2.mem c.toBasicArrayView viewBytes = some false) ∧
    (∃ r c h2,
      Bytes.operatorShl true tInt tUChar heapBytes.mem arrayInts.toBasicArrayView
        viewBytes = some r ∧ r.raised = none ∧
      Bytes.cloneT tInt { mem := r.mem, brk := heapBytes.brk } arrayInts = .ok (c, h2) ∧
      Bytes.equalValue true tInt tUChar h2.mem c.toBasicArrayView viewBytes = some false) :=
  ⟨rfl, rfl, rfl, rfl, rfl, rfl, rfl, rfl, rfl,
    ⟨_, _, _, rfl, rfl, rfl, rfl, rfl, rfl, rfl, rfl⟩, ⟨_, _, _, rfl, rfl, rfl, rfl⟩⟩

/-- C16, amended: for every source view `src` and every owning array `dst` of equal sizes
whose storage does not overlap that of `src`, both live (their cells lie below the
allocator's mark), such that the conversion preserves the values of the elements of `src`
(`util::eq(convert(x), x)`), the call `dst << src` returns without an error, and every clone
`c = dst.cloneT()` made afterwards has `c.equalValue(src)` true. -/
theorem C16_copy_clone_equalValue {V : Type} (conv : V → V) (eq : V → V → Bool) (h : Heap V)
    (dst : BasicArray) (src : BasicArrayView)
    (hobj : dst.addr = src.addr → dst._data = src._data)
    (hd : dst._data < SIZE_MAX1) (hs : src._data < SIZE_MAX1) (hn : dst._size < SIZE_MAX1)
    (hsize : dst.size = src.size)
    (hlive : ∀ p, p < dst.size → ptrAdd dst._data p < h.brk ∧ ptrAdd src._data p < h.brk)
    (hdisj : ∀ p q, p < dst.size → q < src.size → ptrAdd dst._data p ≠ ptrAdd src._data q)
    (hval : ∀ p, p < src.size →
      eq (conv (h.mem (ptrAdd src._data p))) (h.mem (ptrAdd src._data p)) = true) :
    ∃ r, dst.toBasicArrayView.operatorShl conv h.mem src = some r ∧ r.raised = none ∧
      ∀ c h2, BasicArray.cloneT { mem := r.mem, brk := h.brk } dst = .ok (c, h2) →
        c.toBasicArrayView.equalValue eq h2.mem src = some true := by
  have hsz : dst._size = src._size := hsize
  obtain ⟨r, hr, hraised, _, hcopied, hkept, _⟩ := operatorShl_result conv h.mem
    dst.toBasicArrayView src hobj hd hs hn hsz
    (fun p q hp hq hpq => absurd hpq (hdisj p q hp (by rw [← hsize]; exact hq)))
    (fun p hp hpp => absurd hpp (hdisj p p hp (by rw [← hsize]; exact hp)))
  refine ⟨r, hr, hraised, ?_⟩
  intro c h2 hc
  obtain ⟨hb, hdata, _, _, _⟩ := cloneT_ok _ h2 dst c hc
  have hcsize : c._size = dst._size := by rw [hb]
  have hmem : ∀ q, q < h.brk → h2.mem q = r.mem q := fun q hq => cloneT_mem _ h2 dst c hc q hq
  refine equalValue_of_converted conv eq h2.mem h.mem c.toBasicArrayView src (hdata ▸ hd) hs
    (hcsize ▸ hn) (hcsize.trans hsz) ?_ ?_ ?_
  · intro p hp
    rw [hcsize] at hp
    rw [hdata, hmem _ (hlive p hp).1, hcopied p hp]
  · intro q hq
    rw [hcsize] at hq
    rw [hmem _ (hlive q hq).2, hkept q hq]
  · intro p hp
    rw [hcsize] at hp
    exact hval p (by rw [← hsize]; exact hp)

/-- C16 applied to the view of shape `(2, 3)` holding `10 * i0 + i1` and an array of shape
`(3, 2)` built after it; the clone is made, and its `equalValue` with the view is true. -/
theorem C16_copy_clone_equalValue_witness :
    ∃ dst h, BasicArray.ctorFill heapDemo 9 [3, 2] 0 = .ok (dst, h) ∧
      (∃ r, dst.toBasicArrayView.operatorShl id h.mem viewSource = some r ∧ r.raised = none ∧
        ∀ c h2, BasicArray.cloneT { mem := r.mem, brk := h.brk } dst = .ok (c, h2) →
          c.toBasicArrayView.equalValue (util.eq tInt tInt) h2.mem viewSource = some true) ∧
      ∃ r c h2, dst.toBasicArrayView.operatorShl id h.mem viewSource = some r ∧
        BasicArray.cloneT { mem := r.mem, brk := h.brk } dst = .ok (c, h2) ∧
        c.toBasicArrayView.equalValue (util.eq tInt tInt) h2.mem viewSource = some true := by
  refine ⟨_, _, rfl, ?_, _, _, _, rfl, rfl, by rfl⟩
  exact C16_copy_clone_equalValue id (util.eq tInt tInt) _ _ viewSource (by decide) (by decide)
    (by decide) (by decide) (by rfl)
    (by
      intro p hp
      have hp6 : p < 6 := hp
      show ptrAdd 8 p < 14 ∧ ptrAdd 2 p < 14
      unfold ptrAdd SIZE_MAX1; omega)
    (by
      intro p q hp hq hpq
      have hp6 : p < 6 := hp
      have hq6 : q < 6 := hq
      have hpq : ptrAdd 8 p = ptrAdd 2 q := hpq
      unfold ptrAdd SIZE_MAX1 at hpq; omega)
    (by intro p _; simp [util.eq, util.eq_int, tInt])

/-- C17, the claim as stated fails: `BasicArray({2, 2^63 + 1}, 7)` is built, of a valid
shape; its `size()` is `2` where the product of the dimension lengths is `2^64 + 2`, and the
in-range multi-index `(0, 5)` refers to a cell outside the buffer, which reads `0`. -/
theorem C17_counterexample :
    ∃ a h, BasicArray.ctorFill heapZero 1 [2, 2 ^ 63 + 1] 7 = .ok (a, h) ∧
      a.size = 2 ∧ a._container._length = 2 ∧ [2, 2 ^ 63 + 1].prod = 2 ^ 64 + 2 ∧
      a.size ≠ [2, 2 ^ 63 + 1].prod ∧
      (0 < a.shape.getD 0 0 ∧ 5 < a.shape.getD 1 0) ∧
      ∃ p, a.call [0, 5] = some p ∧ a.subscript [0, 5] = some p ∧ h.mem p = 0 ∧ h.mem p ≠ 7 := by
  refine ⟨_, _, rfl, by rfl, by rfl, by rfl, by decide, by decide, _, by rfl, by rfl, ?_, ?_⟩ <;>
    decide

/-- C17, amended: for every shape of at least one dimension whose dimension lengths have a
product below `2^64` and every value `v`, the array that `BasicArray(shape, v)` builds has
`size()` equal to that product, a container of exactly `size()` elements at which its data
pointer points, `begin()` and `end()` `size()` cells apart, and every storage position in
`[begin, end)` and every in-range multi-index, through either access path, reads `v`. -/
theorem C17_fill_constructor {V : Type} (h h1 : Heap V) (addr : Nat) (shape : List Nat)
    (value : V) (a : BasicArray)
    (hc : BasicArray.ctorFill h addr shape value = .ok (a, h1))
    (hN : 1 ≤ shape.length) (hprod : shape.prod < SIZE_MAX1) :
    a.size = shape.prod ∧ a.shape = shape ∧
    a._container._length = a.size ∧ a._data = a._container.data ∧
    a.begin = a._container.data ∧ a.end = a._container.data + a.size ∧
    (∀ q, q < a.size → h1.mem (ptrAdd a._data q) = value) ∧
    (∀ idx, idx.length = shape.length →
      (∀ k, k < shape.length → idx.getD k 0 < shape.getD k 0) →
      ∃ p, a.call idx = some p ∧ a.subscript idx = some p ∧ h1.mem p = value) := by
  obtain ⟨hb, hdata, _, hcont, hfit, _, hmem⟩ := ctorFill_ok h h1 addr shape value a hc
  obtain ⟨hshape, _, _, _⟩ := ArrayBase.ctor_ok shape _ hb
  obtain ⟨_, hsize, _⟩ := strides_of_ctor shape _ hb hN hprod
  have hcell : ∀ q, q < a._size → h1.mem (ptrAdd a._data q) = value := by
    intro q hq
    have hadd : ptrAdd a._data q = h.brk + q := by
      rw [hdata]; unfold ptrAdd; exact Nat.mod_eq_of_lt (by omega)
    rw [hadd, hmem, if_pos ⟨by omega, by omega⟩]
  refine ⟨hsize, hshape, by rw [hcont]; rfl, by rw [hcont, hdata]; rfl,
    by rw [hcont]; exact hdata, ?_, hcell, ?_⟩
  · show ptrAdd a._data a._size = _
    rw [hcont, hdata]
    unfold ptrAdd
    exact Nat.mod_eq_of_lt (by omega)
  · intro idx hlen hrange
    obtain ⟨hlt, _, hcall, hsub⟩ := access_in_range a.toBasicArrayView shape hb hN hprod idx
      hlen hrange
    exact ⟨_, hcall, hsub, hcell _ hlt⟩

/-- C17 applied to `BasicArray({2, 5, 2}, 7)` built on the heap whose free cells start at
address `2`. -/
theorem C17_fill_constructor_witness :
    ∃ a h1, BasicArray.ctorFill heapZero 1 [2, 5, 2] 7 = .ok (a, h1) ∧
      (a.size = [2, 5, 2].prod ∧ a.shape = [2, 5, 2] ∧
      a._container._length = a.size ∧ a._data = a._container.data ∧
      a.begin = a._container.data ∧ a.end = a._container.data + a.size ∧
      (∀ q, q < a.size → h1.mem (ptrAdd a._data q) = 7) ∧
      (∀ idx, idx.length = [2, 5, 2].length →
        (∀ k, k < [2, 5, 2].length → idx.getD k 0 < [2, 5, 2].getD k 0) →
        ∃ p, a.call idx = some p ∧ a.subscript idx = some p ∧ h1.mem p = 7)) := by
  refine ⟨_, _, rfl, ?_⟩
  exact C17_fill_constructor heapZero _ 1 [2, 5, 2] 7 _ rfl (by decide) (by decide)

/-- C18: for every two views whose sizes differ, `a.equalValue(b)` returns false, whatever
the element comparison, the shapes and the contents; two views of different sizes are two
objects. -/
theorem C18_equalValue_sizes_differ {V : Type} (eq : V → V → Bool) (mem : Mem V)
    (a b : BasicArrayView) (hobj : a.addr = b.addr → a = b) (hsize : a.size ≠ b.size) :
    a.equalValue eq mem b = some false := by
  have hdistinct : a.addr ≠ b.addr := fun h => hsize (by rw [hobj h])
  have hsz : a._size ≠ b.size := hsize
  simp [BasicArrayView.equalValue, hdistinct, hsz]

/-- C18 applied to a view of size `3` and a view of size `2`. -/
theorem C18_equalValue_sizes_differ_witness :
    viewThree.equalValue (util.eq tInt tInt) memOneBuffer viewLow = some false :=
  C18_equalValue_sizes_differ (util.eq tInt tInt) memOneBuffer viewThree viewLow (by decide)
    (by decide)

/-- C19: for every view `v`, whatever its shape, the memory and the element comparison,
`v == v` and `v.equalValue(v)` return true. -/
theorem C19_reflexive {V : Type} [BEq V] (eq : V → V → Bool) (mem : Mem V)
    (v : BasicArrayView) :
    v.operatorEq mem v = some true ∧ v.equalValue eq mem v = some true := by
  simp [BasicArrayView.operatorEq, BasicArrayView.equalValue]

/-- C20, the claim as stated fails: the traversal from `(1, 2)` to `(3, 4)` with the strides
`(10, 1)` and the base pointer `100` hands its functor the multi-index `(1, 2)` with the
element at the base pointer itself, offset `0`, where the offset formula gives
`1 * 10 + 2 * 1 = 12`; the loops of `iterate` start the iterator at the base pointer whatever
the start index is. -/
theorem C20_counterexample :
    (BasicArrayTraversal.ctor 2 100 [1, 2] [3, 4] [10, 1]).traverse logFn [] =
      some [([1, 2], 100), ([1, 3], 101), ([2, 2], 110), ([2, 3], 111)] ∧
    offsetSum [10, 1] [1, 2] 2 = 12 ∧
    ptrAdd 100 (offsetSum [10, 1] [1, 2] 2) ≠ 100 := by
  refine ⟨by rfl, by rfl, by decide⟩

/-- C20, amended: for every base pointer, start array, end array and strides array of
`NDIM >= 1` dimensions, each invocation of the functor receives, with the multi-index `idx`,
the element at the offset `sum over k of (idx[k] - start[k]) * strides[k]` from the base
pointer; that is the offset `sum over k of idx[k] * strides[k]` of the offset formula when
start is all zeros. -/
theorem C20_traversal_address (NDIM data : Nat) (start end_ strides : List Nat)
    (hN : 1 ≤ NDIM) (hd : data < SIZE_MAX1) :
    (∀ (σ : Type) (fn : List Nat → Nat → σ → σ) (s : σ),
      (BasicArrayTraversal.ctor NDIM data start end_ strides).traverse fn s =
        some (runVisits fn (BasicArrayTraversal.ctor NDIM data start end_ strides).visited s)) ∧
    (BasicArrayTraversal.ctor NDIM data start end_ strides).traverse logFn [] =
      some (BasicArrayTraversal.ctor NDIM data start end_ strides).visited ∧
    (∀ idx a, (idx, a) ∈ (BasicArrayTraversal.ctor NDIM data start end_ strides).visited →
      a = ptrAdd data (relOffsetSum start strides idx NDIM)) ∧
    ((∀ k, k < NDIM → start.getD k 0 = 0) →
      ∀ idx a, (idx, a) ∈ (BasicArrayTraversal.ctor NDIM data start end_ strides).visited →
        a = ptrAdd data (offsetSum strides idx NDIM)) := by
  have haddr : ∀ idx a,
      (idx, a) ∈ (BasicArrayTraversal.ctor NDIM data start end_ strides).visited →
      a = ptrAdd data (relOffsetSum start strides idx NDIM) := fun idx a hx =>
    (visited_address (BasicArrayTraversal.ctor NDIM data start end_ strides) hN hd idx a hx).2
  refine ⟨fun σ fn s => traverse_spec _ fn s hN rfl, ?_, haddr, ?_⟩
  · rw [traverse_spec _ logFn [] hN rfl, runVisits_log, List.nil_append]
  · intro h0 idx a hx
    rw [haddr idx a hx, relOffsetSum_zero_start start strides idx NDIM h0]

/-- C20 applied to the traversal from `(1, 2)` to `(3, 4)` with the strides `(10, 1)` and the
base pointer `100`. -/
theorem C20_traversal_address_witness :
    (∀ (σ : Type) (fn : List Nat → Nat → σ → σ) (s : σ),
      (BasicArrayTraversal.ctor 2 100 [1, 2] [3, 4] [10, 1]).traverse fn s =
        some (runVisits fn (BasicArrayTraversal.ctor 2 100 [1, 2] [3, 4] [10, 1]).visited s)) ∧
    (BasicArrayTraversal.ctor 2 100 [1, 2] [3, 4] [10, 1]).traverse logFn [] =
      some (BasicArrayTraversal.ctor 2 100 [1, 2] [3, 4] [10, 1]).visited ∧
    (∀ idx a, (idx, a) ∈ (BasicArrayTraversal.ctor 2 100 [1, 2] [3, 4] [10, 1]).visited →
      a = ptrAdd 100 (relOffsetSum [1, 2] [10, 1] idx 2)) ∧
    ((∀ k, k < 2 → [1, 2].getD k 0 = 0) →
      ∀ idx a, (idx, a) ∈ (BasicArrayTraversal.ctor 2 100 [1, 2] [3, 4] [10, 1]).visited →
        a = ptrAdd 100 (offsetSum [10, 1] idx 2)) :=
  C20_traversal_address 2 100 [1, 2] [3, 4] [10, 1] (by decide) (by decide)

/-- C21: for every pair of integer types `T1`, `T2` of at most 64 bits and all values `v1` of
`T1` and `v2` of `T2`, `util::eq(v1, v2)` is true if and only if `v1` and `v2` are the same
integer, through the overload for integer types and, for one type, through the overload for
equal types; a negative value of a signed type equals no value of an unsigned type, in either
order; for types of one signedness the result is `v1 == v2`; `eq(-1, 0xFFFFFFFF)` is false
and `eq(5, 5u)` is true. -/
theorem C21_eq_same_integer (T1 T2 : util.IntType) (v1 v2 : Int) (hb1 : T1.bits ≤ 64)
    (hb2 : T2.bits ≤ 64) (h1 : T1.holds v1) (h2 : T2.holds v2) :
    (util.eq T1 T2 v1 v2 = true ↔ v1 = v2) ∧
    (util.eqSame v1 v2 = true ↔ v1 = v2) ∧
    (T1.isSigned = true → T2.isSigned = false → v1 < 0 → util.eq T1 T2 v1 v2 = false) ∧
    (T1.isSigned = false → T2.isSigned = true → v2 < 0 → util.eq T1 T2 v1 v2 = false) ∧
    (T1.isSigned = T2.isSigned → util.eq T1 T2 v1 v2 = (v1 == v2)) ∧
    util.eq tInt tUnsigned (-1) 4294967295 = false ∧ util.eq tInt tUnsigned 5 5 = true := by
  have hiff := eq_int_iff T1 T2 v1 v2 hb1 hb2 h1 h2
  refine ⟨hiff, by simp [util.eqSame], ?_, ?_, ?_, by decide, by decide⟩
  · intro hs1 hs2 hneg
    have hne : v1 ≠ v2 := by
      have := holds_unsigned T2 v2 hs2 h2
      omega
    cases hres : util.eq T1 T2 v1 v2 with
    | false => rfl
    | true => exact absurd (hiff.mp hres) hne
  · intro hs1 hs2 hneg
    have hne : v1 ≠ v2 := by
      have := holds_unsigned T1 v1 hs1 h1
      omega
    cases hres : util.eq T1 T2 v1 v2 with
    | false => rfl
    | true => exact absurd (hiff.mp hres) hne
  · intro hsame
    unfold util.eq util.eq_int
    cases hs2 : T2.isSigned <;> simp [hsame, hs2]

/-- C21 applied to the value `5` of `int` and the value `5` of `unsigned int`. -/
theorem C21_eq_same_integer_witness :
    (util.eq tInt tUnsigned 5 5 = true ↔ (5 : Int) = 5) ∧
    (util.eqSame 5 5 = true ↔ (5 : Int) = 5) ∧
    (tInt.isSigned = true → tUnsigned.isSigned = false → (5 : Int) < 0 →
      util.eq tInt tUnsigned 5 5 = false) ∧
    (tInt.isSigned = false → tUnsigned.isSigned = true → (5 : Int) < 0 →
      util.eq tInt tUnsigned 5 5 = false) ∧
    (tInt.isSigned = tUnsigned.isSigned → util.eq tInt tUnsigned 5 5 = ((5 : Int) == 5)) ∧
    util.eq tInt tUnsigned (-1) 4294967295 = false ∧ util.eq tInt tUnsigned 5 5 = true :=
  C21_eq_same_integer tInt tUnsigned 5 5 (by decide) (by decide)
    (by norm_num [util.IntType.holds, tInt]) (by norm_num [util.IntType.holds, tUnsigned])

/-- C22: for every shape of `NDIM >= 1` dimensions whose lengths are all at least one and
whose product is below `2^64`, the constructor accepts the shape with the product as `size()`,
and in every view over such an array base: `computeOffset` of an in-range multi-index is
below `size()`; the multi-index call and the chained subscript address the element at
`begin()` plus that offset; `traverse` returns, and each of its visits is at `begin()` plus an
offset below `size()`; and these addresses lie between `begin()` and `end()` when the buffer
does not reach the end of the address space. -/
theorem C22_offset_below_size (shape : List Nat) (hN : 1 ≤ shape.length)
    (hdims : ∀ d, d ∈ shape → 1 ≤ d) (hprod : shape.prod < SIZE_MAX1) :
    ∃ b, ArrayBase.ctor shape = .ok b ∧ b.size = shape.prod ∧
      ∀ v : BasicArrayView, v.toArrayBase = b → v._data < SIZE_MAX1 →
        (∀ idx, inRange shape idx →
          ∃ off, v.computeOffset idx = some off ∧ off < v.size ∧
            v.call idx = some (ptrAdd v.begin off) ∧
            v.subscript idx = some (ptrAdd v.begin off)) ∧
        (∀ (σ : Type) (fn : List Nat → Nat → σ → σ) (s : σ),
          v.traverse fn s = some (runVisits fn v.traversal.visited s)) ∧
        (∀ idx a, (idx, a) ∈ v.traversal.visited →
          ∃ off, off < v.size ∧ a = ptrAdd v.begin off) ∧
        (v.begin + v.size < SIZE_MAX1 → ∀ off, off < v.size →
          v.begin ≤ ptrAdd v.begin off ∧ ptrAdd v.begin off < v.end) := by
  refine ⟨_, ctor_of_positive shape hdims hprod, rfl, ?_⟩
  intro v hb hd
  have hv : ArrayBase.ctor shape = .ok v.toArrayBase := by
    rw [hb]; exact ctor_of_positive shape hdims hprod
  obtain ⟨hshape, _, _, _⟩ := ArrayBase.ctor_ok shape _ hv
  obtain ⟨_, hsize, hstr⟩ := strides_of_ctor shape _ hv hN hprod
  refine ⟨?_, ?_, ?_, ?_⟩
  · intro idx hin
    obtain ⟨h1, h2, h3, h4⟩ := access_in_range v shape hv hN hprod idx hin.1 hin.2
    exact ⟨_, h2, h1, h3, h4⟩
  · intro σ fn s
    exact traverse_spec v.traversal fn s (by rw [traversal_NDIM, hshape]; exact hN)
      (traversal_lastDim v)
  · intro idx a hx
    rw [← hshape] at hN hstr
    obtain ⟨hlen, hbox, ha⟩ := (mem_visited_traversal v hN hd idx a).mp hx
    have hlt := relOffset_lt v hstr idx 0 (by omega) hbox
    simp only [List.drop_zero] at hlt
    refine ⟨_, ?_, ha⟩
    show v.traversal.relOffset 0 idx < v._size
    rw [hsize, ← hshape]
    exact hlt
  · intro hfit off hoff
    have h1 : v._data + v._size < SIZE_MAX1 := hfit
    have h2 : off < v._size := hoff
    show v._data ≤ ptrAdd v._data off ∧ ptrAdd v._data off < ptrAdd v._data v._size
    unfold ptrAdd
    rw [Nat.mod_eq_of_lt (by omega), Nat.mod_eq_of_lt h1]
    omega

/-- C22 applied to the shape `(2, 5, 2)`. -/
theorem C22_offset_below_size_witness :
    ∃ b, ArrayBase.ctor [2, 5, 2] = .ok b ∧ b.size = [2, 5, 2].prod ∧
      ∀ v : BasicArrayView, v.toArrayBase = b → v._data < SIZE_MAX1 →
        (∀ idx, inRange [2, 5, 2] idx →
          ∃ off, v.computeOffset idx = some off ∧ off < v.size ∧
            v.call idx = some (ptrAdd v.begin off) ∧
            v.subscript idx = some (ptrAdd v.begin off)) ∧
        (∀ (σ : Type) (fn : List Nat → Nat → σ → σ) (s : σ),
          v.traverse fn s = some (runVisits fn v.traversal.visited s)) ∧
        (∀ idx a, (idx, a) ∈ v.traversal.visited →
          ∃ off, off < v.size ∧ a = ptrAdd v.begin off) ∧
        (v.begin + v.size < SIZE_MAX1 → ∀ off, off < v.size →
          v.begin ≤ ptrAdd v.begin off ∧ ptrAdd v.begin off < v.end) :=
  C22_offset_below_size [2, 5, 2] (by decide) (by decide) (by decide)

/-- C23: for every shape of `NDIM >= 1` dimensions whose lengths are all at least one and
whose product is below `2^64`, the constructor accepts the shape, and `computeOffset` of the
array base is a bijection from the in-range multi-indexes onto the offsets below `size()`:
it is defined and below `size()` on each of them, two of them with the same offset are the
same, and every offset below `size()` is that of one of them. -/
theorem C23_offset_bijective (shape : List Nat) (hN : 1 ≤ shape.length)
    (hdims : ∀ d, d ∈ shape → 1 ≤ d) (hprod : shape.prod < SIZE_MAX1) :
    ∃ b, ArrayBase.ctor shape = .ok b ∧
      (∀ idx, inRange shape idx → ∃ off, b.computeOffset idx = some off ∧ off < b.size) ∧
      (∀ idx idx1, inRange shape idx → inRange shape idx1 →
        b.computeOffset idx = b.computeOffset idx1 → idx = idx1) ∧
      (∀ q, q < b.size → ∃ idx, inRange shape idx ∧ b.computeOffset idx = some q) := by
  have hv := ctor_of_positive shape hdims hprod
  refine ⟨_, hv, ?_, ?_, ?_⟩
  · intro idx hin
    obtain ⟨h1, h2, _, _⟩ := access_in_range ⟨_, 0, 0⟩ shape hv hN hprod idx hin.1 hin.2
    exact ⟨_, h2, h1⟩
  · intro idx idx1 hin hin1 heq
    obtain ⟨_, h2, _, _⟩ := access_in_range ⟨_, 0, 0⟩ shape hv hN hprod idx hin.1 hin.2
    obtain ⟨_, h3, _, _⟩ := access_in_range ⟨_, 0, 0⟩ shape hv hN hprod idx1 hin1.1 hin1.2
    rw [h2, h3] at heq
    exact offset_inj ⟨_, 0, 0⟩ shape hv hN hprod idx idx1 hin hin1 (Option.some.inj heq)
  · intro q hq
    obtain ⟨idx, hin, hoff, _⟩ := offset_onto ⟨_, 0, 0⟩ shape hv hN hprod (Nat.two_pow_pos 64) q hq
    obtain ⟨_, h2, _, _⟩ := access_in_range ⟨_, 0, 0⟩ shape hv hN hprod idx hin.1 hin.2
    exact ⟨idx, hin, by rw [h2, hoff]⟩

/-- C23 applied to the shape `(2, 5, 2)`. -/
theorem C23_offset_bijective_witness :
    ∃ b, ArrayBase.ctor [2, 5, 2] = .ok b ∧
      (∀ idx, inRange [2, 5, 2] idx →
        ∃ off, b.computeOffset idx = some off ∧ off < b.size) ∧
      (∀ idx idx1, inRange [2, 5, 2] idx → inRange [2, 5, 2] idx1 →
        b.computeOffset idx = b.computeOffset idx1 → idx = idx1) ∧
      (∀ q, q < b.size → ∃ idx, inRange [2, 5, 2] idx ∧ b.computeOffset idx = some q) :=
  C23_offset_bijective [2, 5, 2] (by decide) (by decide) (by decide)

/-- C24: for every view whose base was constructed from a shape of `NDIM >= 1` dimensions whose
product is below `2^64`, `traverse` returns, having invoked the functor on the visits of
`visited` in their order; the elements of these visits are, in this order, those at the
storage positions `0, 1, ..., size() - 1` from `begin()`, as many as `size()`; and this is the
sequence of the elements that an iteration from `begin()` to `end()` reaches. -/
theorem C24_traverse_storage_order (v : BasicArrayView) (shape : List Nat)
    (hv : ArrayBase.ctor shape = .ok v.toArrayBase) (hN : 1 ≤ shape.length)
    (hprod : shape.prod < SIZE_MAX1) (hd : v._data < SIZE_MAX1) :
    (∀ (σ : Type) (fn : List Nat → Nat → σ → σ) (s : σ),
      v.traverse fn s = some (runVisits fn v.traversal.visited s)) ∧
    v.traverse logFn [] = some v.traversal.visited ∧
    v.traversal.visited.map Prod.snd =
      (List.range v.size).map (fun q => ptrAdd v.begin q) ∧
    v.traversal.visited.length = v.size ∧
    iteration v.end (v.size + 1) v.begin = some (v.traversal.visited.map Prod.snd) := by
  obtain ⟨hshape, _, _, _⟩ := ArrayBase.ctor_ok shape _ hv
  obtain ⟨_, hsize, _⟩ := strides_of_ctor shape _ hv hN hprod
  have hNv : 1 ≤ v._shape.length := by rw [hshape]; exact hN
  have hspec : ∀ (σ : Type) (fn : List Nat → Nat → σ → σ) (s : σ),
      v.traverse fn s = some (runVisits fn v.traversal.visited s) :=
    fun σ fn s => traverse_spec v.traversal fn s hNv (traversal_lastDim v)
  have haddr := visited_addresses v shape hv hN hprod hd
  refine ⟨hspec, ?_, haddr, ?_, ?_⟩
  · rw [hspec, runVisits_log, List.nil_append]
  · have := congrArg List.length haddr
    simpa using this
  · rw [haddr]
    exact iteration_eq v._size v._data (by rw [hsize]; exact hprod) hd

/-- C24 applied to the view of shape `(2, 5, 2)` over the cells `100 .. 119`. -/
theorem C24_traverse_storage_order_witness :
    (∀ (σ : Type) (fn : List Nat → Nat → σ → σ) (s : σ),
      viewDemo.traverse fn s = some (runVisits fn viewDemo.traversal.visited s)) ∧
    viewDemo.traverse logFn [] = some viewDemo.traversal.visited ∧
    viewDemo.traversal.visited.map Prod.snd =
      (List.range viewDemo.size).map (fun q => ptrAdd viewDemo.begin q) ∧
    viewDemo.traversal.visited.length = viewDemo.size ∧
    iteration viewDemo.end (viewDemo.size + 1) viewDemo.begin =
      some (viewDemo.traversal.visited.map Prod.snd) :=
  C24_traverse_storage_order viewDemo [2, 5, 2] (by rfl) (by decide) (by decide) (by decide)

end CppSample
